import Mathlib

/-!
Verification of the `arrow-variant` JSON → Variant encoding front-end
(`src/arrow-variant/src/encoder/json.rs` of cmu-db/arrow-rs) against its
natural-language specification.

The file is organised as:

* a shallow embedding of the JSON data model (`serde_json::Value`) and of the
  Variant binary format (builder and reader, modelled from the spec since
  `builder.rs` / `variant.rs` are not part of the provided sources);
* a shallow embedding of the external JSON parser (`serde_json::from_slice`),
  modelled from its interface contract in the spec (a parse either succeeds,
  fails with an unexpected-end-of-input error, or fails hard);
* the front-end functions `json_to_variant`, `encode_json_value`,
  `encode_json_array_element`, `encode_json_object_field` and the streaming
  `JsonParser` (`push` / `try_parse` / `finish`), translated from the source;
* theorems settling the frozen claims about round-tripping, chunked
  streaming, dictionary sharing, integer encodings and error behaviour.

Byte buffers are modelled as `List Nat` (each entry a byte value), machine
integers as `Int`/`Nat` with explicit `% 2^w` where overflow matters, and
text as Lean `String`/`List Char`.
-/

namespace ArrowVariant

/-! ### Little-endian byte serialisation -/

/-- Write `n` as `w` little-endian bytes (truncating above `256^w`), as the
builder does for fixed-width fields. -/
def writeLE : Nat → Nat → List Nat
  | 0, _ => []
  | w + 1, n => (n % 256) :: writeLE w (n / 256)

/-- Read a little-endian byte list back as a natural number. -/
def readLE : List Nat → Nat
  | [] => 0
  | b :: r => b + 256 * readLE r

theorem writeLE_length (w n : Nat) : (writeLE w n).length = w := by
  induction w generalizing n with
  | zero => rfl
  | succ w ih => simp [writeLE, ih]

theorem readLE_writeLE (w n : Nat) (h : n < 256 ^ w) :
    readLE (writeLE w n) = n := by
  induction w generalizing n with
  | zero =>
      simp only [Nat.pow_zero, Nat.lt_one_iff] at h
      simp [writeLE, readLE, h]
  | succ w ih =>
      have hdiv : n / 256 < 256 ^ w := by
        rw [Nat.div_lt_iff_lt_mul (by norm_num)]
        calc n < 256 ^ (w + 1) := h
        _ = 256 ^ w * 256 := by ring
      simp [writeLE, readLE, ih _ hdiv, Nat.mod_add_div' n 256]
      omega

theorem writeLE_lt (w n : Nat) : ∀ b ∈ writeLE w n, b < 256 := by
  induction w generalizing n with
  | zero => simp [writeLE]
  | succ w ih =>
      intro b hb
      simp only [writeLE, List.mem_cons] at hb
      rcases hb with h | h
      · subst h; exact Nat.mod_lt _ (by norm_num)
      · exact ih _ _ h

/-! ### Two's-complement integer bytes

The builder stores integers little-endian two's complement in 1, 2, 4 or 8
bytes; the reader sign-extends on decode. -/

/-- Encode the integer `i` in `w` little-endian two's-complement bytes. -/
def encIntBytes (w : Nat) (i : Int) : List Nat :=
  writeLE w (i % (2 ^ (8 * w))).toNat

/-- Decode `w` little-endian two's-complement bytes back to an integer. -/
def decIntBytes (w : Nat) (bs : List Nat) : Int :=
  if readLE bs < 2 ^ (8 * w - 1) then (readLE bs : Int)
  else (readLE bs : Int) - 2 ^ (8 * w)

theorem encIntBytes_length (w : Nat) (i : Int) :
    (encIntBytes w i).length = w := writeLE_length _ _

/-- Width `w` represents `i` losslessly. -/
def intFits (w : Nat) (i : Int) : Prop :=
  -(2 ^ (8 * w - 1)) ≤ i ∧ i < 2 ^ (8 * w - 1)

instance (w : Nat) (i : Int) : Decidable (intFits w i) := by
  unfold intFits; infer_instance

theorem decIntBytes_encIntBytes (w : Nat) (i : Int) (hw : 1 ≤ w)
    (h : intFits w i) : decIntBytes w (encIntBytes w i) = i := by
  obtain ⟨h1, h2⟩ := h
  unfold decIntBytes encIntBytes
  set k := 8 * w with hk
  have hk1 : 1 ≤ k := by omega
  have hFH : (2 : Int) ^ k = 2 * 2 ^ (k - 1) := by
    conv_lhs => rw [show k = (k - 1) + 1 by omega]
    rw [pow_succ]; ring
  have hHpos : (0 : Int) < 2 ^ (k - 1) := by positivity
  have hFpos : (0 : Int) < 2 ^ k := by positivity
  have hmn : 0 ≤ i % (2 ^ k : Int) := Int.emod_nonneg _ (by positivity)
  have hml : i % (2 ^ k : Int) < 2 ^ k := Int.emod_lt_of_pos _ hFpos
  have h256 : (256 : Nat) ^ w = 2 ^ k := by
    rw [hk, show (256 : Nat) = 2 ^ 8 from rfl, ← pow_mul]
  set m := (i % (2 ^ k : Int)).toNat with hm
  have hmi : (m : Int) = i % (2 ^ k : Int) := Int.toNat_of_nonneg hmn
  have hcastF : ((2 ^ k : Nat) : Int) = 2 ^ k := by push_cast; ring
  have hcastH : ((2 ^ (k - 1) : Nat) : Int) = 2 ^ (k - 1) := by push_cast; ring
  have hmlt : m < 2 ^ k := by
    have hx : (m : Int) < ((2 ^ k : Nat) : Int) := by rw [hmi, hcastF]; exact hml
    exact_mod_cast hx
  have hread : readLE (writeLE w m) = m :=
    readLE_writeLE w m (by rw [h256]; exact hmlt)
  rw [hread]
  by_cases hpos : 0 ≤ i
  · have hieq : i % (2 ^ k : Int) = i := Int.emod_eq_of_lt hpos (by omega)
    have hmH : m < 2 ^ (k - 1) := by
      have hx : (m : Int) < ((2 ^ (k - 1) : Nat) : Int) := by
        rw [hmi, hieq, hcastH]; omega
      exact_mod_cast hx
    rw [if_pos hmH, hmi, hieq]
  · push_neg at hpos
    have hieq : i % (2 ^ k : Int) = i + 2 ^ k := by
      have h3 : (i + 2 ^ k * 1) % (2 ^ k : Int) = i % 2 ^ k :=
        Int.add_mul_emod_self_left (a := i) (b := 2 ^ k) (c := 1)
      rw [mul_one] at h3
      rw [← h3]
      exact Int.emod_eq_of_lt (by omega) (by omega)
    have hmH : ¬ m < 2 ^ (k - 1) := by
      have hge : ((2 ^ (k - 1) : Nat) : Int) ≤ (m : Int) := by
        rw [hmi, hieq, hcastH]; omega
      intro hc
      have hlt2 : (m : Int) < ((2 ^ (k - 1) : Nat) : Int) := by exact_mod_cast hc
      omega
    rw [if_neg hmH, hmi, hieq]
    ring

/-! ### UTF-8 text

The metadata string heap and the string payloads hold UTF-8 bytes; the model
implements the standard 1–4 byte encoding of Unicode scalar values. -/

/-- Encode one character as its UTF-8 bytes. -/
def utf8Char (c : Char) : List Nat :=
  if c.toNat < 0x80 then [c.toNat]
  else if c.toNat < 0x800 then [0xC0 + c.toNat / 64, 0x80 + c.toNat % 64]
  else if c.toNat < 0x10000 then
    [0xE0 + c.toNat / 4096, 0x80 + c.toNat / 64 % 64, 0x80 + c.toNat % 64]
  else
    [0xF0 + c.toNat / 262144, 0x80 + c.toNat / 4096 % 64,
      0x80 + c.toNat / 64 % 64, 0x80 + c.toNat % 64]

/-- UTF-8 bytes of a string (the builder's string payload / heap entry). -/
def strBytes (s : String) : List Nat :=
  (s.data.map utf8Char).flatten

/-- Continuation of a 2-byte UTF-8 sequence. -/
def utf8Cont1 (b : Nat) : List Nat → Option (Char × List Nat)
  | b1 :: r1 => some (Char.ofNat ((b - 0xC0) * 64 + (b1 - 0x80)), r1)
  | [] => none

/-- Continuation of a 3-byte UTF-8 sequence. -/
def utf8Cont2 (b : Nat) : List Nat → Option (Char × List Nat)
  | b1 :: b2 :: r2 =>
      some (Char.ofNat ((b - 0xE0) * 4096 + (b1 - 0x80) * 64 + (b2 - 0x80)), r2)
  | _ => none

/-- Continuation of a 4-byte UTF-8 sequence. -/
def utf8Cont3 (b : Nat) : List Nat → Option (Char × List Nat)
  | b1 :: b2 :: b3 :: r3 =>
      some (Char.ofNat ((b - 0xF0) * 262144 + (b1 - 0x80) * 4096
        + (b2 - 0x80) * 64 + (b3 - 0x80)), r3)
  | _ => none

/-- Decode one UTF-8 sequence from the head of a byte list, returning the
character and the remaining bytes. Fails on truncated sequences. -/
def utf8DecodeOne : List Nat → Option (Char × List Nat)
  | [] => none
  | b :: r =>
    if b < 0x80 then some (Char.ofNat b, r)
    else if b < 0xE0 then utf8Cont1 b r
    else if b < 0xF0 then utf8Cont2 b r
    else utf8Cont3 b r

theorem utf8Cont1_length {b : Nat} {l : List Nat} {c : Char} {r : List Nat}
    (h : utf8Cont1 b l = some (c, r)) : r.length < l.length := by
  match l with
  | [] => simp [utf8Cont1] at h
  | b1 :: r1 =>
      simp only [utf8Cont1, Option.some.injEq, Prod.mk.injEq] at h
      rw [← h.2]
      simp only [List.length_cons]
      omega

theorem utf8Cont2_length {b : Nat} {l : List Nat} {c : Char} {r : List Nat}
    (h : utf8Cont2 b l = some (c, r)) : r.length < l.length := by
  match l with
  | [] => simp [utf8Cont2] at h
  | [b1] => simp [utf8Cont2] at h
  | b1 :: b2 :: r2 =>
      simp only [utf8Cont2, Option.some.injEq, Prod.mk.injEq] at h
      rw [← h.2]
      simp only [List.length_cons]
      omega

theorem utf8Cont3_length {b : Nat} {l : List Nat} {c : Char} {r : List Nat}
    (h : utf8Cont3 b l = some (c, r)) : r.length < l.length := by
  match l with
  | [] => simp [utf8Cont3] at h
  | [b1] => simp [utf8Cont3] at h
  | [b1, b2] => simp [utf8Cont3] at h
  | b1 :: b2 :: b3 :: r3 =>
      simp only [utf8Cont3, Option.some.injEq, Prod.mk.injEq] at h
      rw [← h.2]
      simp only [List.length_cons]
      omega

theorem utf8DecodeOne_length {l : List Nat} {c : Char} {r : List Nat}
    (h : utf8DecodeOne l = some (c, r)) : r.length < l.length := by
  match l with
  | [] => simp [utf8DecodeOne] at h
  | b :: t =>
      simp only [utf8DecodeOne] at h
      split_ifs at h with h1 h2 h3
      · simp only [Option.some.injEq, Prod.mk.injEq] at h
        rw [← h.2]
        simp
      · have := utf8Cont1_length h
        simp only [List.length_cons]
        omega
      · have := utf8Cont2_length h
        simp only [List.length_cons]
        omega
      · have := utf8Cont3_length h
        simp only [List.length_cons]
        omega

/-- Decode a UTF-8 byte list back to characters (the reader's view of a
string payload). -/
def utf8Decode (l : List Nat) : Option (List Char) :=
  if l = [] then some []
  else
    match h : utf8DecodeOne l with
    | none => none
    | some (c, r) => (utf8Decode r).map (fun cs => c :: cs)
termination_by l.length
decreasing_by exact utf8DecodeOne_length h

theorem utf8Char_ne_nil (c : Char) : utf8Char c ≠ [] := by
  unfold utf8Char
  split_ifs <;> simp

theorem utf8DecodeOne_utf8Char (c : Char) (rest : List Nat) :
    utf8DecodeOne (utf8Char c ++ rest) = some (c, rest) := by
  have hvalid : c.toNat < 0xD800 ∨ (0xE000 ≤ c.toNat ∧ c.toNat < 0x110000) := c.valid
  have hofNat : Char.ofNat c.toNat = c := Char.ofNat_toNat c
  by_cases ha : c.toNat < 0x80
  · rw [utf8Char, if_pos ha, List.cons_append, List.nil_append,
      utf8DecodeOne, if_pos ha, hofNat]
  · by_cases hb : c.toNat < 0x800
    · rw [utf8Char, if_neg ha, if_pos hb]
      simp only [List.cons_append, List.nil_append]
      rw [utf8DecodeOne, if_neg (by omega), if_pos (by omega), utf8Cont1]
      have he : (0xC0 + c.toNat / 64 - 0xC0) * 64 + (0x80 + c.toNat % 64 - 0x80)
          = c.toNat := by omega
      rw [he, hofNat]
    · by_cases hc : c.toNat < 0x10000
      · have hd : c.toNat / 4096 < 16 := by omega
        rw [utf8Char, if_neg ha, if_neg hb, if_pos hc]
        simp only [List.cons_append, List.nil_append]
        rw [utf8DecodeOne, if_neg (by omega), if_neg (by omega), if_pos (by omega),
          utf8Cont2]
        have he : (0xE0 + c.toNat / 4096 - 0xE0) * 4096
            + (0x80 + c.toNat / 64 % 64 - 0x80) * 64 + (0x80 + c.toNat % 64 - 0x80)
            = c.toNat := by omega
        rw [he, hofNat]
      · have hlt' : c.toNat < 0x110000 := by omega
        have hd : c.toNat / 262144 < 8 := by omega
        rw [utf8Char, if_neg ha, if_neg hb, if_neg hc]
        simp only [List.cons_append, List.nil_append]
        rw [utf8DecodeOne, if_neg (by omega), if_neg (by omega), if_neg (by omega),
          utf8Cont3]
        have he : (0xF0 + c.toNat / 262144 - 0xF0) * 262144
            + (0x80 + c.toNat / 4096 % 64 - 0x80) * 4096
            + (0x80 + c.toNat / 64 % 64 - 0x80) * 64 + (0x80 + c.toNat % 64 - 0x80)
            = c.toNat := by omega
        rw [he, hofNat]

theorem utf8Decode_utf8Char (c : Char) (rest : List Nat) :
    utf8Decode (utf8Char c ++ rest) = (utf8Decode rest).map (fun cs => c :: cs) := by
  rw [utf8Decode]
  have hne : utf8Char c ++ rest ≠ [] := by
    intro h
    exact utf8Char_ne_nil c (List.append_eq_nil.mp h).1
  rw [if_neg hne]
  split
  · rename_i heq
    rw [utf8DecodeOne_utf8Char] at heq
    exact absurd heq (by simp)
  · rename_i c' r' heq
    rw [utf8DecodeOne_utf8Char] at heq
    injection heq with heq
    injection heq with h1 h2
    subst h1; subst h2
    rfl

theorem utf8Decode_chars_append (cs : List Char) (rest : List Nat) :
    utf8Decode ((cs.map utf8Char).flatten ++ rest)
      = (utf8Decode rest).map (fun tl => cs ++ tl) := by
  induction cs with
  | nil => simp
  | cons c tl ih =>
      simp only [List.map_cons, List.flatten_cons, List.append_assoc]
      rw [utf8Decode_utf8Char, ih, Option.map_map]
      rfl

theorem utf8Decode_strBytes (s : String) :
    utf8Decode (strBytes s) = some s.data := by
  have h := utf8Decode_chars_append s.data []
  rw [List.append_nil] at h
  rw [strBytes, h, utf8Decode]
  simp

/-! ### The JSON value tree

`serde_json::Value`, as consumed by the encoder front-end. Numbers keep the
external parser's split: an integer literal in the i64/u64 range is stored
exactly (`intLit`), every other number is stored as an IEEE-754 binary64 bit
pattern (`floatLit`). -/

/-- Number payload of a JSON value (`serde_json::Number`). -/
inductive JNum where
  | intLit (i : Int)
  | floatLit (bits : Nat)
deriving Repr, DecidableEq

/-- JSON value tree (`serde_json::Value`). Objects are insertion-ordered
key/value lists. -/
inductive Json where
  | null
  | bool (b : Bool)
  | num (n : JNum)
  | str (s : String)
  | arr (xs : List Json)
  | obj (fs : List (String × Json))
deriving Repr

/-- `Number::is_i64`: true exactly when the number is an integer literal in
the signed 64-bit range. -/
def JNum.isI64 : JNum → Bool
  | .intLit i => decide (-(2 ^ 63) ≤ i ∧ i < 2 ^ 63)
  | .floatLit _ => false

/-- `Number::as_i64().unwrap()` on the is-i64 branch. -/
def JNum.asI64 : JNum → Int
  | .intLit i => i
  | .floatLit _ => 0

/-! ### Binary64 bit patterns

Modelled from the spec: the number model is 64-bit IEEE-754, and the
external parser converts out-of-range integer literals to the nearest
double. The conversion below implements round-to-nearest, ties to even. -/

/-- Floor of the base-2 logarithm by fuel-bounded halving; with `fuel ≥ n`
this is the exact floor. -/
def log2F : Nat → Nat → Nat
  | 0, _ => 0
  | f + 1, n => if n < 2 then 0 else log2F f (n / 2) + 1

/-- Floor of the base-2 logarithm. -/
def nlog2 (n : Nat) : Nat := log2F n n

/-- Round `n / 2 ^ s` to the nearest integer, ties to even. -/
def rshiftRound (n s : Nat) : Nat :=
  if s = 0 then n
  else
    let q := n / 2 ^ s
    let r := n % 2 ^ s
    let half := 2 ^ (s - 1)
    if half < r ∨ (r = half ∧ q % 2 = 1) then q + 1 else q

/-- Shift `n` by `e` binary places (left for `e ≥ 0`, rounded right shift
otherwise). -/
def shiftRound (n : Nat) (e : Int) : Nat :=
  if 0 ≤ e then n * 2 ^ e.toNat else rshiftRound n (-e).toNat

/-- Bit pattern of the binary64 value nearest to `sig * 2 ^ exp` (`sig ≥ 0`),
without sign bit. Overflow gives the +infinity pattern. -/
def f64Dyadic (sig : Nat) (exp : Int) : Nat :=
  if sig = 0 then 0
  else
    let k : Int := (nlog2 sig : Int) + exp
    if 1024 ≤ k then 0x7FF0000000000000
    else if k < -1022 then
      min (shiftRound sig (exp + 1074)) (2 ^ 52)
    else
      let m := shiftRound sig ((52 : Int) - (nlog2 sig : Int))
      if 2 ^ 53 ≤ m then
        if 1023 ≤ k then 0x7FF0000000000000
        else (1024 + k).toNat * 2 ^ 52
      else (1023 + k).toNat * 2 ^ 52 + (m - 2 ^ 52)

/-- Bit pattern of the binary64 value nearest to the natural number `n`. -/
def f64OfNat (n : Nat) : Nat := f64Dyadic n 0

/-- Bit pattern of the binary64 value nearest to the integer `i`. -/
def f64OfInt (i : Int) : Nat :=
  if 0 ≤ i then f64OfNat i.toNat else 2 ^ 63 + f64OfNat (-i).toNat

/-- Modelled from the spec: the external parser's decimal-to-binary64
conversion for number literals with a fraction or exponent. The literal's
magnitude is `mant * 10 ^ exp10`. Rounding at the last bit may differ from a
correctly-rounded conversion for extreme inputs; no claim depends on the
exact pattern produced here. -/
def f64OfDecimal (neg : Bool) (mant : Nat) (exp10 : Int) : Nat :=
  let mag :=
    if 0 ≤ exp10 then f64Dyadic (mant * 10 ^ exp10.toNat) 0
    else
      let d := (-exp10).toNat
      let scale := 64 + 4 * d
      f64Dyadic (mant * 2 ^ scale / 10 ^ d) (-(scale : Int))
  if neg then 2 ^ 63 + mag else mag

/-- `Number::as_f64().unwrap()` as a bit pattern: integer literals round to
the nearest double, float literals are returned as stored. -/
def JNum.asF64 : JNum → Nat
  | .intLit i => f64OfInt i
  | .floatLit bits => bits

/-! ### Variant value-buffer encoding (builder model)

Modelled from the spec (§4.1, §6): `VariantBuilder` / `ArrayBuilder` /
`ObjectBuilder` of `arrow-variant`'s builder module, which is not among the
provided sources. Concrete tag values are implementation-defined by the
spec; the assignment below is internal to this model. Container counts,
key ids and offsets use a fixed 4-byte little-endian width (the spec leaves
the width-selection heuristic to the implementation). -/

def tagNull : Nat := 0x00
def tagFalse : Nat := 0x01
def tagTrue : Nat := 0x02
def tagInt8 : Nat := 0x03
def tagInt16 : Nat := 0x04
def tagInt32 : Nat := 0x05
def tagInt64 : Nat := 0x06
def tagFloat64 : Nat := 0x07
def tagStrLong : Nat := 0x08
def tagArray : Nat := 0x10
def tagObject : Nat := 0x11

/-- Smallest width in {1,2,4,8} that represents `i` losslessly (§4.1:
"append int(i) writes the smallest integer encoding"). -/
def intWidth (i : Int) : Nat :=
  if intFits 1 i then 1 else if intFits 2 i then 2 else if intFits 4 i then 4 else 8

/-- Tag byte for an integer encoding of width `w`. -/
def intTag : Nat → Nat
  | 1 => tagInt8
  | 2 => tagInt16
  | 4 => tagInt32
  | _ => tagInt64

/-- Builder `append int(i)`: smallest lossless two's-complement encoding. -/
def appendInt (i : Int) : List Nat :=
  intTag (intWidth i) :: encIntBytes (intWidth i) i

/-- Builder `append float(f)`: 8 little-endian bytes of the bit pattern. -/
def appendFloat (bits : Nat) : List Nat :=
  tagFloat64 :: writeLE 8 bits

/-- Builder `append string(s)`: short form embeds the byte length ≤ 63 in
the tag byte, the long form uses a 4-byte length prefix. -/
def appendStr (s : String) : List Nat :=
  if (strBytes s).length ≤ 63 then (0x40 + (strBytes s).length) :: strBytes s
  else tagStrLong :: writeLE 4 (strBytes s).length ++ strBytes s

/-- Byte encoding of the number `n` as the front-end appends it: the
`is_i64` branch appends an integer, the other branch a 64-bit float. -/
def appendNum (n : JNum) : List Nat :=
  if n.isI64 then appendInt n.asI64 else appendFloat n.asF64

/-- Offsets `0, l₁, l₁+l₂, …` delimiting consecutive chunks of the given
lengths; `count + 1` entries, last equal to the total length. -/
def cumsum : List Nat → List Nat
  | [] => [0]
  | n :: ns => 0 :: (cumsum ns).map (n + ·)

/-- Serialised offset table: each entry 4 bytes little-endian. -/
def offsetsBytes (lens : List Nat) : List Nat :=
  ((cumsum lens).map (writeLE 4)).flatten

/-- Array container bytes (§6): tag, offset-width flag, element count,
offset table, concatenated element payloads. -/
def arrayBytes (bufs : List (List Nat)) : List Nat :=
  tagArray :: 0x04 :: writeLE 4 bufs.length
    ++ offsetsBytes (bufs.map List.length) ++ bufs.flatten

/-- Insert an element into a list sorted on a numeric key. -/
def insertKeyed (key : α → Nat) (e : α) : List α → List α
  | [] => [e]
  | f :: rest => if key e ≤ key f then e :: f :: rest else f :: insertKeyed key e rest

/-- Insertion sort on a numeric key. -/
def sortKeyed (key : α → Nat) : List α → List α
  | [] => []
  | e :: rest => insertKeyed key e (sortKeyed key rest)

/-- Sort object entries by dictionary id (§4.1 sort-on-finish). -/
def sortById (entries : List (Nat × List Nat)) : List (Nat × List Nat) :=
  sortKeyed Prod.fst entries

/-- Position of the first entry carrying id `i`. -/
def posOfId (i : Nat) : List (Nat × List Nat) → Nat
  | [] => 0
  | e :: rest => if e.1 = i then 0 else posOfId i rest + 1

/-- Object container bytes (§4.1, §6): tag, width flags, element count, the
key-id table in ascending id order, the insertion-order index (position of
each insertion-order field inside the sorted tables), the offset table for
the sorted payloads, then the sorted payloads. -/
def objectBytes (entries : List (Nat × List Nat)) : List Nat :=
  tagObject :: 0x44 :: writeLE 4 entries.length
    ++ ((sortById entries).map (fun e => writeLE 4 e.1)).flatten
    ++ (entries.map (fun e => writeLE 4 (posOfId e.1 (sortById entries)))).flatten
    ++ offsetsBytes ((sortById entries).map (fun e => e.2.length))
    ++ ((sortById entries).map Prod.snd).flatten

/-- Modelled from the spec (§4.1): the builder's field-name interning
against the shared metadata dictionary — look the key up; if absent append
it and assign the next id. -/
def dictIdOf : List String → String → Option Nat
  | [], _ => none
  | s :: rest, k => if s = k then some 0 else (dictIdOf rest k).map (· + 1)

/-- Intern a key, returning its id and the (possibly grown) dictionary. -/
def internKey (dict : List String) (k : String) : Nat × List String :=
  match dictIdOf dict k with
  | some i => (i, dict)
  | none => (dict.length, dict ++ [k])

/-! ### The encoder front-end (translated from `json.rs`)

Each function takes and returns the metadata dictionary (the builder state
reachable through the metadata sink); the returned bytes are what the
function writes to the value sink. The `Result` in the Rust signatures
carries only sink I/O errors, which infallible in-memory sinks (as used by
every caller in the sources) never produce, so the model returns plainly. -/

mutual

/-- Mirrors `encode_json_value` (json.rs lines 54–97). -/
def encode_json_value : Json → List String → List Nat × List String
  | .null, dict => ([tagNull], dict)
  | .bool false, dict => ([tagFalse], dict)
  | .bool true, dict => ([tagTrue], dict)
  | .num n, dict =>
      if n.isI64 then (appendInt n.asI64, dict) else (appendFloat n.asF64, dict)
  | .str s, dict => (appendStr s, dict)
  | .arr xs, dict =>
      let r := encode_json_elems xs dict
      (arrayBytes r.1, r.2)
  | .obj fs, dict =>
      let r := encode_json_fields fs dict
      (objectBytes r.1, r.2)

/-- Mirrors `encode_json_array_element` (json.rs lines 100–142). -/
def encode_json_array_element : Json → List String → List Nat × List String
  | .null, dict => ([tagNull], dict)
  | .bool false, dict => ([tagFalse], dict)
  | .bool true, dict => ([tagTrue], dict)
  | .num n, dict =>
      if n.isI64 then (appendInt n.asI64, dict) else (appendFloat n.asF64, dict)
  | .str s, dict => (appendStr s, dict)
  | .arr xs, dict =>
      let r := encode_json_elems xs dict
      (arrayBytes r.1, r.2)
  | .obj fs, dict =>
      let r := encode_json_fields fs dict
      (objectBytes r.1, r.2)

/-- Mirrors `encode_json_object_field` (json.rs lines 145–188): interns the
key, then encodes the value; returns the (id, value bytes) entry recorded in
the object's key table. -/
def encode_json_object_field (key : String) (v : Json) (dict : List String) :
    (Nat × List Nat) × List String :=
  match internKey dict key, v with
  | (i, dict1), .null => ((i, [tagNull]), dict1)
  | (i, dict1), .bool false => ((i, [tagFalse]), dict1)
  | (i, dict1), .bool true => ((i, [tagTrue]), dict1)
  | (i, dict1), .num n =>
      if n.isI64 then ((i, appendInt n.asI64), dict1)
      else ((i, appendFloat n.asF64), dict1)
  | (i, dict1), .str s => ((i, appendStr s), dict1)
  | (i, dict1), .arr xs =>
      let r := encode_json_elems xs dict1
      ((i, arrayBytes r.1), r.2)
  | (i, dict1), .obj fs =>
      let r := encode_json_fields fs dict1
      ((i, objectBytes r.1), r.2)

/-- The `for elem in arr` loops of the source: encode the elements in
order, threading the dictionary. -/
def encode_json_elems : List Json → List String → List (List Nat) × List String
  | [], dict => ([], dict)
  | x :: xs, dict =>
      let r1 := encode_json_array_element x dict
      let r2 := encode_json_elems xs r1.2
      (r1.1 :: r2.1, r2.2)

/-- The `for (key, val) in obj` loops of the source: encode the fields in
order, threading the dictionary. -/
def encode_json_fields :
    List (String × Json) → List String → List (Nat × List Nat) × List String
  | [], dict => ([], dict)
  | (k, v) :: fs, dict =>
      let r1 := encode_json_object_field k v dict
      let r2 := encode_json_fields fs r1.2
      (r1.1 :: r2.1, r2.2)

end

/-! ### Node counts and encoded lengths -/

mutual

/-- Number of nodes of a JSON tree (used as decoder fuel bound). -/
def jsize : Json → Nat
  | .null => 1
  | .bool _ => 1
  | .num _ => 1
  | .str _ => 1
  | .arr xs => 1 + jsizeList xs
  | .obj fs => 1 + jsizeFields fs

def jsizeList : List Json → Nat
  | [] => 0
  | x :: xs => jsize x + jsizeList xs

def jsizeFields : List (String × Json) → Nat
  | [] => 0
  | f :: fs => jsize f.2 + jsizeFields fs

end

mutual

/-- Length in bytes of the value-buffer encoding of a JSON tree (the
encoding length does not depend on the dictionary state). -/
def encLen : Json → Nat
  | .null => 1
  | .bool _ => 1
  | .num n => (appendNum n).length
  | .str s => (appendStr s).length
  | .arr xs => 10 + 4 * xs.length + encLenList xs
  | .obj fs => 10 + 12 * fs.length + encLenFields fs

def encLenList : List Json → Nat
  | [] => 0
  | x :: xs => encLen x + encLenList xs

def encLenFields : List (String × Json) → Nat
  | [] => 0
  | f :: fs => encLen f.2 + encLenFields fs

end

mutual

/-- Well-formedness of a JSON tree for the byte-level round trip: integers
in the signed 64-bit range (the supported type set), float bit patterns
below `2^64`, string payloads and container sizes below the 4-byte offset
range, and distinct keys within each object (duplicate keys are undefined
behaviour per the spec). -/
def wfJson : Json → Bool
  | .null => true
  | .bool _ => true
  | .num (.intLit i) => decide (-(2 ^ 63) ≤ i ∧ i < 2 ^ 63)
  | .num (.floatLit bits) => decide (bits < 2 ^ 64)
  | .str s => decide ((strBytes s).length < 2 ^ 32)
  | .arr xs =>
      wfList xs && decide (xs.length < 2 ^ 32) && decide (encLenList xs < 2 ^ 32)
  | .obj fs =>
      wfFields fs && decide (fs.length < 2 ^ 32) && decide (encLenFields fs < 2 ^ 32)
        && decide ((fs.map Prod.fst).Nodup)

def wfList : List Json → Bool
  | [] => true
  | x :: xs => wfJson x && wfList xs

def wfFields : List (String × Json) → Bool
  | [] => true
  | f :: fs => wfJson f.2 && wfFields fs

end

/-! ### Metadata buffer (builder finalisation and reader side)

Modelled from the spec (§4.1 root finalisation, §6 metadata layout): a
version/flags byte carrying the offset width, the dictionary size, an
offset table of `size + 1` entries into the string heap, then the heap.
The width is the smallest of {1,2,3,4} bytes sufficient for the maximum
offset (and for the size entry, which shares the width per the layout). -/

/-- Total byte length of the dictionary string heap. -/
def heapLen (dict : List String) : Nat :=
  ((dict.map strBytes).flatten).length

/-- Smallest width in {1,2,3,4} bytes that can hold `m`. -/
def minByteWidth (m : Nat) : Nat :=
  if m < 2 ^ 8 then 1 else if m < 2 ^ 16 then 2 else if m < 2 ^ 24 then 3 else 4

/-- Serialise the metadata dictionary (the builder's `finish`). -/
def encodeMeta (dict : List String) : List Nat :=
  let w := minByteWidth (max (heapLen dict) dict.length)
  (0x10 + w) :: writeLE w dict.length
    ++ ((cumsum (dict.map fun s => (strBytes s).length)).map (writeLE w)).flatten
    ++ (dict.map strBytes).flatten

/-- Read `cnt` consecutive little-endian `w`-byte entries. -/
def readEntries (w : Nat) : Nat → List Nat → List Nat
  | 0, _ => []
  | c + 1, bytes => readLE (bytes.take w) :: readEntries w c (bytes.drop w)

/-- Slice a heap along consecutive absolute offsets. -/
def heapSlices (heap : List Nat) : List Nat → List (List Nat)
  | o1 :: o2 :: rest => ((heap.drop o1).take (o2 - o1)) :: heapSlices heap (o2 :: rest)
  | _ => []

/-- Parse a metadata buffer back into the dictionary (reader side). -/
def decodeMeta (bytes : List Nat) : Option (List String) :=
  match bytes with
  | [] => none
  | flags :: r0 =>
    let w := flags % 16
    let n := readLE (r0.take w)
    let r1 := r0.drop w
    let offs := readEntries w (n + 1) r1
    let heap := r1.drop (w * (n + 1))
    (heapSlices heap offs).mapM (fun sl => (utf8Decode sl).map (fun cs => String.mk cs))

/-! ### Value-buffer decoding (reader model)

Modelled from the spec (§4.2): the reader's accessors, composed into a full
decode of one value. Array and object elements are located through the
offset table; object fields are reported in insertion order by walking the
insertion-order index, resolving key ids against the metadata dictionary.
The model is exercised on builder-produced buffers; corruption detection
beyond structural failure is not modelled. -/

mutual

/-- Decode one value from the head of a value buffer, returning it and the
remaining bytes. `fuel` bounds the nesting depth. -/
def decodeV (dict : List String) : Nat → List Nat → Option (Json × List Nat)
  | 0, _ => none
  | fuel + 1, l =>
    match l with
    | [] => none
    | t :: rest =>
      if t = tagNull then some (.null, rest)
      else if t = tagFalse then some (.bool false, rest)
      else if t = tagTrue then some (.bool true, rest)
      else if t = tagInt8 then
        some (.num (.intLit (decIntBytes 1 (rest.take 1))), rest.drop 1)
      else if t = tagInt16 then
        some (.num (.intLit (decIntBytes 2 (rest.take 2))), rest.drop 2)
      else if t = tagInt32 then
        some (.num (.intLit (decIntBytes 4 (rest.take 4))), rest.drop 4)
      else if t = tagInt64 then
        some (.num (.intLit (decIntBytes 8 (rest.take 8))), rest.drop 8)
      else if t = tagFloat64 then
        some (.num (.floatLit (readLE (rest.take 8))), rest.drop 8)
      else if 0x40 ≤ t ∧ t < 0x80 then
        (utf8Decode (rest.take (t - 0x40))).map
          (fun cs => (Json.str (String.mk cs), rest.drop (t - 0x40)))
      else if t = tagStrLong then
        (utf8Decode ((rest.drop 4).take (readLE (rest.take 4)))).map
          (fun cs => (Json.str (String.mk cs), (rest.drop 4).drop (readLE (rest.take 4))))
      else if t = tagArray then
        let r1 := rest.drop 1
        let n := readLE (r1.take 4)
        let r2 := r1.drop 4
        let offs := readEntries 4 (n + 1) r2
        let total := offs.getLastD 0
        let body := r2.drop (4 * (n + 1))
        (decodeSlices dict fuel (heapSlices (body.take total) offs)).map
          (fun vs => (Json.arr vs, body.drop total))
      else if t = tagObject then
        let r1 := rest.drop 1
        let n := readLE (r1.take 4)
        let r2 := r1.drop 4
        let ids := readEntries 4 n r2
        let r3 := r2.drop (4 * n)
        let perm := readEntries 4 n r3
        let r4 := r3.drop (4 * n)
        let offs := readEntries 4 (n + 1) r4
        let total := offs.getLastD 0
        let body := r4.drop (4 * (n + 1))
        (decodeSlices dict fuel (heapSlices (body.take total) offs)).map
          (fun vs =>
            (Json.obj (perm.map (fun j =>
              (dict.getD (ids.getD j 0) "", vs.getD j .null))), body.drop total))
      else none
termination_by fuel _ => (fuel, 0)

/-- Decode each slice as one complete value. -/
def decodeSlices (dict : List String) : Nat → List (List Nat) → Option (List Json)
  | _, [] => some []
  | fuel, sl :: sls =>
      match decodeV dict fuel sl with
      | some (v, r) =>
          if r = [] then (decodeSlices dict fuel sls).map (fun vs => v :: vs) else none
      | none => none
termination_by fuel sls => (fuel, sls.length + 1)

end

/-- Reader entry point: parse the metadata dictionary, then decode the
single value of the value buffer. -/
def readVariant (metaBytes valueBytes : List Nat) : Option Json :=
  match decodeMeta metaBytes with
  | none => none
  | some dict =>
    match decodeV dict (valueBytes.length + 1) valueBytes with
    | some (v, []) => some v
    | _ => none

/-! ### Dictionary lemmas -/

/-- The dictionary only ever grows by appending (§3: ids are stable, the
dictionary grows monotonically). -/
def dictExtends (d1 d2 : List String) : Prop := ∃ e, d2 = d1 ++ e

theorem dictExtends_refl (d : List String) : dictExtends d d := ⟨[], by simp⟩

theorem dictExtends_trans {d1 d2 d3 : List String}
    (h1 : dictExtends d1 d2) (h2 : dictExtends d2 d3) : dictExtends d1 d3 := by
  obtain ⟨e1, rfl⟩ := h1
  obtain ⟨e2, rfl⟩ := h2
  exact ⟨e1 ++ e2, by simp⟩

theorem dictExtends_length {d1 d2 : List String} (h : dictExtends d1 d2) :
    d1.length ≤ d2.length := by
  obtain ⟨e, rfl⟩ := h
  simp

theorem getD_of_dictExtends {d1 d2 : List String} (h : dictExtends d1 d2)
    {i : Nat} (hi : i < d1.length) : d2.getD i "" = d1.getD i "" := by
  obtain ⟨e, rfl⟩ := h
  simp [List.getD_eq_getElem?_getD, List.getElem?_append_left hi]

theorem dictIdOf_lt {d : List String} {k : String} {i : Nat}
    (h : dictIdOf d k = some i) : i < d.length := by
  induction d generalizing i with
  | nil => simp [dictIdOf] at h
  | cons s rest ih =>
      by_cases hs : s = k
      · simp only [dictIdOf, if_pos hs, Option.some.injEq] at h
        simp only [List.length_cons]
        omega
      · simp only [dictIdOf, if_neg hs, Option.map_eq_some'] at h
        obtain ⟨j, hj, hji⟩ := h
        have := ih hj
        simp only [List.length_cons]
        omega

theorem dictIdOf_getD {d : List String} {k : String} {i : Nat}
    (h : dictIdOf d k = some i) : d.getD i "" = k := by
  induction d generalizing i with
  | nil => simp [dictIdOf] at h
  | cons s rest ih =>
      by_cases hs : s = k
      · simp only [dictIdOf, if_pos hs, Option.some.injEq] at h
        subst h
        simpa using hs
      · simp only [dictIdOf, if_neg hs, Option.map_eq_some'] at h
        obtain ⟨j, hj, hji⟩ := h
        subst hji
        simpa using ih hj

theorem internKey_extends (d : List String) (k : String) :
    dictExtends d (internKey d k).2 := by
  unfold internKey
  match h : dictIdOf d k with
  | some i => exact dictExtends_refl d
  | none => exact ⟨[k], rfl⟩

theorem internKey_lt (d : List String) (k : String) :
    (internKey d k).1 < (internKey d k).2.length := by
  unfold internKey
  match h : dictIdOf d k with
  | some i => exact dictIdOf_lt h
  | none => simp

theorem internKey_getD (d : List String) (k : String) :
    (internKey d k).2.getD (internKey d k).1 "" = k := by
  unfold internKey
  match h : dictIdOf d k with
  | some i => exact dictIdOf_getD h
  | none => simp [List.getD_eq_getElem?_getD]

/-! ### Reading back fixed-width entry tables -/

theorem flatten_writeLE_length (w : Nat) (vals : List Nat) :
    ((vals.map (writeLE w)).flatten).length = w * vals.length := by
  induction vals with
  | nil => simp
  | cons v vs ih =>
      simp [writeLE_length, ih]
      ring

theorem readEntries_flatten (w : Nat) (vals : List Nat) (tail : List Nat)
    (h : ∀ v ∈ vals, v < 256 ^ w) :
    readEntries w vals.length ((vals.map (writeLE w)).flatten ++ tail) = vals := by
  induction vals with
  | nil => simp [readEntries]
  | cons v vs ih =>
      simp only [List.map_cons, List.flatten_cons, List.length_cons, readEntries,
        List.append_assoc]
      rw [List.take_left' (writeLE_length w v), List.drop_left' (writeLE_length w v),
        readLE_writeLE w v (h v (by simp)), ih (fun x hx => h x (by simp [hx]))]

theorem drop_flatten_writeLE (w : Nat) (vals : List Nat) (tail : List Nat) :
    (((vals.map (writeLE w)).flatten ++ tail)).drop (w * vals.length) = tail :=
  List.drop_left' (by rw [flatten_writeLE_length])

/-! ### Offset tables and payload slicing -/

theorem cumsum_exists_tail (ls : List Nat) : ∃ tl, cumsum ls = 0 :: tl := by
  cases ls with
  | nil => exact ⟨[], rfl⟩
  | cons n ns => exact ⟨_, rfl⟩

theorem cumsum_length (ls : List Nat) : (cumsum ls).length = ls.length + 1 := by
  induction ls with
  | nil => rfl
  | cons n ns ih => simp [cumsum, ih]

theorem getLastD_map_add (n : Nat) : ∀ (l : List Nat) (a : Nat),
    (l.map (n + ·)).getLastD (n + a) = n + l.getLastD a := by
  intro l
  induction l with
  | nil => intro a; rfl
  | cons b l ih =>
      intro a
      simp only [List.map_cons, List.getLastD_cons]
      exact ih b

theorem cumsum_getLastD (ls : List Nat) : (cumsum ls).getLastD 0 = ls.sum := by
  induction ls with
  | nil => rfl
  | cons n ns ih =>
      have h := getLastD_map_add n (cumsum ns) 0
      simp only [cumsum, List.sum_cons, List.getLastD_cons]
      obtain ⟨tl, htl⟩ := cumsum_exists_tail ns
      rw [htl] at h ih ⊢
      simp only [List.map_cons, Nat.add_zero, List.getLastD_cons] at h ih ⊢
      rw [h, ih]

theorem cumsum_le_sum (ls : List Nat) : ∀ o ∈ cumsum ls, o ≤ ls.sum := by
  induction ls with
  | nil => simp [cumsum]
  | cons n ns ih =>
      intro o ho
      simp only [cumsum, List.mem_cons, List.mem_map] at ho
      rcases ho with rfl | ⟨p, hp, rfl⟩
      · simp
      · have := ih p hp
        simp only [List.sum_cons]
        omega

theorem heapSlices_shift (c h : List Nat) (offs : List Nat) :
    heapSlices (c ++ h) (offs.map (c.length + ·)) = heapSlices h offs := by
  match offs with
  | [] => rfl
  | [o] => rfl
  | o1 :: o2 :: rest =>
      simp only [List.map_cons, heapSlices]
      rw [show c.length + o2 - (c.length + o1) = o2 - o1 by omega,
        List.drop_append o1]
      have hrec := heapSlices_shift c h (o2 :: rest)
      simp only [List.map_cons] at hrec
      rw [hrec]

theorem heapSlices_cumsum (chunks : List (List Nat)) :
    heapSlices chunks.flatten (cumsum (chunks.map List.length)) = chunks := by
  induction chunks with
  | nil => rfl
  | cons c cs ih =>
      obtain ⟨tl, htl⟩ := cumsum_exists_tail (cs.map List.length)
      have hshift := heapSlices_shift c cs.flatten (0 :: tl)
      simp only [List.map_cons, Nat.add_zero] at hshift
      simp only [List.map_cons, cumsum, htl, List.flatten_cons,
        Nat.add_zero, heapSlices, List.drop_zero, Nat.sub_zero]
      rw [List.take_left c cs.flatten, hshift, ← htl, ih]

/-! ### Sorting and key-table recovery -/

theorem insertKeyed_perm (key : α → Nat) (e : α) (l : List α) :
    (insertKeyed key e l).Perm (e :: l) := by
  induction l with
  | nil => simp [insertKeyed]
  | cons f rest ih =>
      unfold insertKeyed
      split
      · exact List.Perm.refl _
      · exact (List.Perm.cons f ih).trans (List.Perm.swap e f rest)

theorem sortKeyed_perm (key : α → Nat) (l : List α) : (sortKeyed key l).Perm l := by
  induction l with
  | nil => simp [sortKeyed]
  | cons e rest ih =>
      unfold sortKeyed
      exact (insertKeyed_perm key e (sortKeyed key rest)).trans (List.Perm.cons e ih)

theorem map_insertKeyed (f : α → β) (ka : α → Nat) (kb : β → Nat)
    (hk : ∀ a, kb (f a) = ka a) (e : α) (l : List α) :
    (insertKeyed ka e l).map f = insertKeyed kb (f e) (l.map f) := by
  induction l with
  | nil => simp [insertKeyed]
  | cons g rest ih =>
      unfold insertKeyed
      simp only [List.map_cons, hk]
      split
      · simp
      · simp only [List.map_cons, ih]

theorem map_sortKeyed (f : α → β) (ka : α → Nat) (kb : β → Nat)
    (hk : ∀ a, kb (f a) = ka a) (l : List α) :
    (sortKeyed ka l).map f = sortKeyed kb (l.map f) := by
  induction l with
  | nil => simp [sortKeyed]
  | cons e rest ih =>
      unfold sortKeyed
      simp only [List.map_cons]
      rw [map_insertKeyed f ka kb hk, ih]

/-- Recovery of a zipped entry from its id position: with pairwise-distinct
ids, the insertion-order index written next to the sorted tables points back
at exactly the entry it was computed from. -/
theorem posOfId_recover {β : Type} (zl : List ((Nat × List Nat) × β))
    (hnd : (zl.map (fun r => r.1.1)).Nodup) (e : Nat × List Nat) (v : β)
    (hmem : (e, v) ∈ zl) :
    posOfId e.1 (zl.map Prod.fst) < zl.length ∧
      zl[posOfId e.1 (zl.map Prod.fst)]? = some (e, v) := by
  induction zl with
  | nil => simp at hmem
  | cons p tl ih =>
      simp only [List.map_cons, List.nodup_cons, List.mem_map] at hnd
      obtain ⟨hnotin, hndtl⟩ := hnd
      simp only [List.map_cons, posOfId]
      by_cases hid : p.1.1 = e.1
      · rw [if_pos hid]
        rcases List.mem_cons.mp hmem with heq | hmemtl
        · simp [heq.symm]
        · exfalso
          exact hnotin ⟨(e, v), hmemtl, hid.symm⟩
      · rw [if_neg hid]
        have hmemtl : (e, v) ∈ tl := by
          rcases List.mem_cons.mp hmem with heq | hmemtl
          · exfalso; rw [← heq] at hid; exact hid rfl
          · exact hmemtl
        obtain ⟨hlt, hget⟩ := ih hndtl hmemtl
        refine ⟨by simp only [List.length_cons]; omega, ?_⟩
        rw [List.getElem?_cons_succ]
        exact hget

/-- Ids resolve to pairwise-distinct keys, so the ids are distinct. -/
theorem ids_nodup_of_keys {β : Type} {dict2 : List String}
    (zl : List ((Nat × List Nat) × β)) (keys : List String)
    (hres : zl.map (fun r => dict2.getD r.1.1 "") = keys) (hnd : keys.Nodup) :
    (zl.map (fun r => r.1.1)).Nodup := by
  subst hres
  have : zl.map (fun r => dict2.getD r.1.1 "")
      = (zl.map (fun r => r.1.1)).map (fun i => dict2.getD i "") := by
    simp [List.map_map]
  rw [this] at hnd
  exact hnd.of_map _

/-! ### Decoding a list of known-good slices -/

theorem decodeSlices_forall (dict : List String) (fuel : Nat)
    (z : List (List Nat × Json))
    (h : ∀ p ∈ z, decodeV dict fuel p.1 = some (p.2, [])) :
    decodeSlices dict fuel (z.map Prod.fst) = some (z.map Prod.snd) := by
  induction z with
  | nil => simp [decodeSlices]
  | cons p tl ih =>
      have hp := h p (by simp)
      have htl := ih (fun q hq => h q (by simp [hq]))
      simp only [List.map_cons]
      rw [decodeSlices, hp]
      simp [htl]

/-! ### The three encoding paths agree on the produced bytes -/

theorem encode_json_array_element_eq (v : Json) (dict : List String) :
    encode_json_array_element v dict = encode_json_value v dict := by
  cases v with
  | null => rfl
  | bool b => cases b <;> rfl
  | num n => rfl
  | str s => rfl
  | arr xs => rfl
  | obj fs => rfl

theorem encode_json_object_field_eq (k : String) (v : Json) (dict : List String)
    {i : Nat} {d1 : List String} (h : internKey dict k = (i, d1)) :
    encode_json_object_field k v dict
      = ((i, (encode_json_value v d1).1), (encode_json_value v d1).2) := by
  cases v with
  | null => simp only [encode_json_object_field, h, encode_json_value]
  | bool b => cases b <;> simp only [encode_json_object_field, h, encode_json_value]
  | num n =>
      simp only [encode_json_object_field, h, encode_json_value]
      by_cases hn : n.isI64 <;> simp [hn]
  | str s => simp only [encode_json_object_field, h, encode_json_value]
  | arr xs => simp only [encode_json_object_field, h, encode_json_value]
  | obj fs => simp only [encode_json_object_field, h, encode_json_value]

/-! ### Size bookkeeping -/

theorem jsize_pos (v : Json) : 1 ≤ jsize v := by
  cases v <;> simp [jsize]

theorem jsize_le_of_mem {x : Json} {xs : List Json} (h : x ∈ xs) :
    jsize x ≤ jsizeList xs := by
  induction xs with
  | nil => simp at h
  | cons y ys ih =>
      rcases List.mem_cons.mp h with rfl | hmem
      · simp [jsizeList]
      · have := ih hmem
        simp only [jsizeList]
        omega

theorem jsize_le_of_memF {f : String × Json} {fs : List (String × Json)}
    (h : f ∈ fs) : jsize f.2 ≤ jsizeFields fs := by
  induction fs with
  | nil => simp at h
  | cons g gs ih =>
      rcases List.mem_cons.mp h with rfl | hmem
      · simp [jsizeFields]
      · have := ih hmem
        simp only [jsizeFields]
        omega

theorem encLenList_eq_sum (xs : List Json) :
    encLenList xs = (xs.map encLen).sum := by
  induction xs with
  | nil => rfl
  | cons x xs ih => simp [encLenList, ih]

theorem encLenFields_eq_sum (fs : List (String × Json)) :
    encLenFields fs = (fs.map (fun f => encLen f.2)).sum := by
  induction fs with
  | nil => rfl
  | cons f fs ih => simp [encLenFields, ih]

theorem encLen_pos (v : Json) : 1 ≤ encLen v := by
  cases v with
  | null => simp [encLen]
  | bool b => simp [encLen]
  | num n =>
      cases hn : n.isI64 <;> simp [encLen, appendNum, hn, appendInt, appendFloat]
  | str s =>
      by_cases hs : (strBytes s).length ≤ 63 <;> simp [encLen, appendStr, hs]
  | arr xs => simp only [encLen]; omega
  | obj fs => simp only [encLen]; omega

theorem jsize_le_encLen : ∀ (N : Nat) (v : Json), jsize v ≤ N → jsize v ≤ encLen v := by
  intro N
  induction N using Nat.strong_induction_on with
  | _ N IH =>
    intro v hN
    cases v with
    | null => simp [jsize, encLen]
    | bool b => simp [jsize, encLen]
    | num n =>
        have := encLen_pos (.num n)
        simp only [jsize]
        omega
    | str s =>
        have := encLen_pos (.str s)
        simp only [jsize]
        omega
    | arr xs =>
        have hlist : ∀ ys : List Json, (∀ y ∈ ys, jsize y < N) →
            jsizeList ys ≤ encLenList ys := by
          intro ys
          induction ys with
          | nil => intro _; simp [jsizeList, encLenList]
          | cons y ys ih =>
              intro hy
              have h1 := IH (jsize y) (hy y (by simp)) y (Nat.le_refl _)
              have h2 := ih (fun z hz => hy z (by simp [hz]))
              simp only [jsizeList, encLenList]
              omega
        have hxs : ∀ y ∈ xs, jsize y < N := by
          intro y hy
          have h1 := jsize_le_of_mem hy
          simp only [jsize] at hN
          omega
        have := hlist xs hxs
        simp only [jsize, encLen]
        omega
    | obj fs =>
        have hlist : ∀ gs : List (String × Json), (∀ g ∈ gs, jsize g.2 < N) →
            jsizeFields gs ≤ encLenFields gs := by
          intro gs
          induction gs with
          | nil => intro _; simp [jsizeFields, encLenFields]
          | cons g gs ih =>
              intro hg
              have h1 := IH (jsize g.2) (hg g (by simp)) g.2 (Nat.le_refl _)
              have h2 := ih (fun z hz => hg z (by simp [hz]))
              simp only [jsizeFields, encLenFields]
              omega
        have hfs : ∀ g ∈ fs, jsize g.2 < N := by
          intro g hg
          have h1 := jsize_le_of_memF hg
          simp only [jsize] at hN
          omega
        have := hlist fs hfs
        simp only [jsize, encLen]
        omega

/-! ### Well-formedness extraction -/

theorem wfList_mem {xs : List Json} (h : wfList xs = true) :
    ∀ x ∈ xs, wfJson x = true := by
  induction xs with
  | nil => simp
  | cons y ys ih =>
      simp only [wfList, Bool.and_eq_true] at h
      intro x hx
      rcases List.mem_cons.mp hx with rfl | hmem
      · exact h.1
      · exact ih h.2 x hmem

theorem wfFields_mem {fs : List (String × Json)} (h : wfFields fs = true) :
    ∀ f ∈ fs, wfJson f.2 = true := by
  induction fs with
  | nil => simp
  | cons g gs ih =>
      simp only [wfFields, Bool.and_eq_true] at h
      intro f hf
      rcases List.mem_cons.mp hf with rfl | hmem
      · exact h.1
      · exact ih h.2 f hmem

/-! ### The round-trip invariants -/

/-- Everything the round-trip argument needs about the encoding of one
value: the dictionary only grows, the byte length is `encLen`, and any
later dictionary extension below the id-width limit decodes the bytes back
to the value. -/
def EncOk (v : Json) (dict : List String) : Prop :=
  dictExtends dict (encode_json_value v dict).2 ∧
  (encode_json_value v dict).1.length = encLen v ∧
  ∀ dict2 fuel rest, dictExtends (encode_json_value v dict).2 dict2 →
    dict2.length < 2 ^ 32 → jsize v ≤ fuel →
    decodeV dict2 fuel ((encode_json_value v dict).1 ++ rest) = some (v, rest)

/-- Round-trip invariant for an encoded element list. -/
def ElemsOk (xs : List Json) (dict : List String) : Prop :=
  dictExtends dict (encode_json_elems xs dict).2 ∧
  ((encode_json_elems xs dict).1.map List.length) = xs.map encLen ∧
  (encode_json_elems xs dict).1.length = xs.length ∧
  ∀ dict2 fuel, dictExtends (encode_json_elems xs dict).2 dict2 →
    dict2.length < 2 ^ 32 → (∀ x ∈ xs, jsize x ≤ fuel) →
    decodeSlices dict2 fuel (encode_json_elems xs dict).1 = some xs

/-- Round-trip invariant for an encoded field list: ids stay below the
final dictionary, resolve to the original keys, and each entry's payload
decodes to its field value. -/
def FieldsOk (fs : List (String × Json)) (dict : List String) : Prop :=
  dictExtends dict (encode_json_fields fs dict).2 ∧
  ((encode_json_fields fs dict).1.map (fun e => e.2.length))
    = fs.map (fun f => encLen f.2) ∧
  (encode_json_fields fs dict).1.length = fs.length ∧
  (∀ e ∈ (encode_json_fields fs dict).1, e.1 < (encode_json_fields fs dict).2.length) ∧
  ∀ dict2, dictExtends (encode_json_fields fs dict).2 dict2 → dict2.length < 2 ^ 32 →
    ∀ p ∈ (encode_json_fields fs dict).1.zip fs,
      p.1.2.length = encLen p.2.2 ∧
      dict2.getD p.1.1 "" = p.2.1 ∧
      ∀ fuel rest, jsize p.2.2 ≤ fuel →
        decodeV dict2 fuel (p.1.2 ++ rest) = some (p.2.2, rest)

theorem elemsOk_of (xs : List Json) (hx : ∀ x ∈ xs, ∀ d, EncOk x d) :
    ∀ dict, ElemsOk xs dict := by
  induction xs with
  | nil =>
      intro dict
      refine ⟨dictExtends_refl dict, rfl, rfl, ?_⟩
      intro dict2 fuel _ _ _
      simp [encode_json_elems, decodeSlices]
  | cons x xs ih =>
      intro dict
      have hxd := hx x (by simp) dict
      obtain ⟨hext1, hlen1, hdec1⟩ := hxd
      have hrest := ih (fun y hy d => hx y (by simp [hy]) d)
        (encode_json_value x dict).2
      obtain ⟨hext2, hlen2, hcount2, hdec2⟩ := hrest
      have heq : encode_json_elems (x :: xs) dict
          = ((encode_json_value x dict).1
              :: (encode_json_elems xs (encode_json_value x dict).2).1,
             (encode_json_elems xs (encode_json_value x dict).2).2) := by
        simp only [encode_json_elems, encode_json_array_element_eq]
      refine ⟨?_, ?_, ?_, ?_⟩
      · rw [heq]
        exact dictExtends_trans hext1 hext2
      · rw [heq]
        simp only [List.map_cons, hlen1, hlen2]
      · rw [heq]
        simp only [List.length_cons, hcount2, List.length_cons]
      · intro dict2 fuel hext hd2 hsz
        rw [heq] at hext ⊢
        simp only at hext ⊢
        rw [decodeSlices]
        have hdx : decodeV dict2 fuel ((encode_json_value x dict).1 ++ [])
            = some (x, []) :=
          hdec1 dict2 fuel [] (dictExtends_trans hext2 hext) hd2 (hsz x (by simp))
        rw [List.append_nil] at hdx
        rw [hdx]
        rw [hdec2 dict2 fuel hext hd2 (fun y hy => hsz y (by simp [hy]))]
        simp

theorem fieldsOk_of (fs : List (String × Json)) (hf : ∀ f ∈ fs, ∀ d, EncOk f.2 d) :
    ∀ dict, FieldsOk fs dict := by
  induction fs with
  | nil =>
      intro dict
      exact ⟨dictExtends_refl dict, rfl, rfl, by simp [encode_json_fields],
        fun dict2 _ _ p hp => by simp [encode_json_fields] at hp⟩
  | cons f fs ih =>
      intro dict
      obtain ⟨k, v⟩ := f
      obtain ⟨i, d1, hI⟩ : ∃ i d1, internKey dict k = (i, d1) :=
        ⟨_, _, rfl⟩
      have hIext : dictExtends dict d1 := by
        have := internKey_extends dict k
        rw [hI] at this
        exact this
      have hIlt : i < d1.length := by
        have := internKey_lt dict k
        rw [hI] at this
        exact this
      have hIgetD : d1.getD i "" = k := by
        have := internKey_getD dict k
        rw [hI] at this
        exact this
      have hvd := hf (k, v) (by simp) d1
      obtain ⟨hext1, hlen1, hdec1⟩ := hvd
      have hrest := ih (fun g hg d => hf g (by simp [hg]) d)
        (encode_json_value v d1).2
      obtain ⟨hext2, hlen2, hcount2, hids2, hdec2⟩ := hrest
      have heq : encode_json_fields ((k, v) :: fs) dict
          = ((i, (encode_json_value v d1).1)
              :: (encode_json_fields fs (encode_json_value v d1).2).1,
             (encode_json_fields fs (encode_json_value v d1).2).2) := by
        simp only [encode_json_fields, encode_json_object_field_eq k v dict hI]
      refine ⟨?_, ?_, ?_, ?_, ?_⟩
      · rw [heq]
        exact dictExtends_trans hIext (dictExtends_trans hext1 hext2)
      · rw [heq]
        simp only [List.map_cons, hlen1, hlen2]
      · rw [heq]
        simp only [List.length_cons, hcount2]
      · rw [heq]
        intro e he
        simp only at he
        rcases List.mem_cons.mp he with rfl | hmem
        · have h1 := dictExtends_length (dictExtends_trans hext1 hext2)
          simp only
          omega
        · exact hids2 e hmem
      · intro dict2 hext hd2 p hp
        rw [heq] at hext
        simp only at hext
        rw [heq] at hp
        simp only [List.zip_cons_cons] at hp
        rcases List.mem_cons.mp hp with rfl | hmem
        · refine ⟨hlen1, ?_, ?_⟩
          · have hg := getD_of_dictExtends
              (dictExtends_trans hext1 (dictExtends_trans hext2 hext)) hIlt
            simp only
            rw [hg, hIgetD]
          · intro fuel rest hsz
            exact hdec1 dict2 fuel rest (dictExtends_trans hext2 hext) hd2 hsz
        · exact hdec2 dict2 hext hd2 p hmem

/-! ### Decoding each primitive encoding -/

theorem decodeV_null (dict : List String) (fuel : Nat) (rest : List Nat) :
    decodeV dict (fuel + 1) (tagNull :: rest) = some (.null, rest) := by
  simp [decodeV, tagNull]

theorem decodeV_false (dict : List String) (fuel : Nat) (rest : List Nat) :
    decodeV dict (fuel + 1) (tagFalse :: rest) = some (.bool false, rest) := by
  simp [decodeV, tagNull, tagFalse]

theorem decodeV_true (dict : List String) (fuel : Nat) (rest : List Nat) :
    decodeV dict (fuel + 1) (tagTrue :: rest) = some (.bool true, rest) := by
  simp [decodeV, tagNull, tagFalse, tagTrue]

theorem decodeV_appendInt (dict : List String) (fuel : Nat) (i : Int)
    (h : intFits 8 i) (rest : List Nat) :
    decodeV dict (fuel + 1) (appendInt i ++ rest) = some (.num (.intLit i), rest) := by
  unfold appendInt
  by_cases h1 : intFits 1 i
  · rw [show intWidth i = 1 by simp [intWidth, h1]]
    simp only [intTag, tagInt8, List.cons_append]
    simp only [decodeV, tagNull, tagFalse, tagTrue, tagInt8, tagInt16, tagInt32,
      tagInt64, tagFloat64, tagStrLong, tagArray, tagObject]
    norm_num
    rw [List.take_left' (encIntBytes_length 1 i), ← List.drop_one,
      List.drop_left' (encIntBytes_length 1 i)]
    exact ⟨decIntBytes_encIntBytes 1 i (by norm_num) h1, rfl⟩
  · by_cases h2 : intFits 2 i
    · rw [show intWidth i = 2 by simp [intWidth, h1, h2]]
      simp only [intTag, tagInt16, List.cons_append]
      simp only [decodeV, tagNull, tagFalse, tagTrue, tagInt8, tagInt16, tagInt32,
        tagInt64, tagFloat64, tagStrLong, tagArray, tagObject]
      norm_num
      rw [List.take_left' (encIntBytes_length 2 i), List.drop_left' (encIntBytes_length 2 i),
        decIntBytes_encIntBytes 2 i (by norm_num) h2]
      exact ⟨rfl, rfl⟩
    · by_cases h4 : intFits 4 i
      · rw [show intWidth i = 4 by simp [intWidth, h1, h2, h4]]
        simp only [intTag, tagInt32, List.cons_append]
        simp only [decodeV, tagNull, tagFalse, tagTrue, tagInt8, tagInt16, tagInt32,
          tagInt64, tagFloat64, tagStrLong, tagArray, tagObject]
        norm_num
        rw [List.take_left' (encIntBytes_length 4 i), List.drop_left' (encIntBytes_length 4 i),
          decIntBytes_encIntBytes 4 i (by norm_num) h4]
        exact ⟨rfl, rfl⟩
      · rw [show intWidth i = 8 by simp [intWidth, h1, h2, h4]]
        simp only [intTag, tagInt64, List.cons_append]
        simp only [decodeV, tagNull, tagFalse, tagTrue, tagInt8, tagInt16, tagInt32,
          tagInt64, tagFloat64, tagStrLong, tagArray, tagObject]
        norm_num
        rw [List.take_left' (encIntBytes_length 8 i), List.drop_left' (encIntBytes_length 8 i),
          decIntBytes_encIntBytes 8 i (by norm_num) h]
        exact ⟨rfl, rfl⟩

theorem decodeV_appendFloat (dict : List String) (fuel : Nat) (bits : Nat)
    (h : bits < 2 ^ 64) (rest : List Nat) :
    decodeV dict (fuel + 1) (appendFloat bits ++ rest)
      = some (.num (.floatLit bits), rest) := by
  unfold appendFloat
  simp only [List.cons_append]
  simp only [decodeV, tagNull, tagFalse, tagTrue, tagInt8, tagInt16, tagInt32,
    tagInt64, tagFloat64, tagStrLong, tagArray, tagObject]
  norm_num
  rw [List.take_left' (writeLE_length 8 bits), List.drop_left' (writeLE_length 8 bits),
    readLE_writeLE 8 bits (by
      have h256 : (256 : Nat) ^ 8 = 2 ^ 64 := by norm_num
      omega)]
  exact ⟨rfl, rfl⟩

theorem decodeV_appendStr (dict : List String) (fuel : Nat) (s : String)
    (h : (strBytes s).length < 2 ^ 32) (rest : List Nat) :
    decodeV dict (fuel + 1) (appendStr s ++ rest) = some (.str s, rest) := by
  unfold appendStr
  by_cases hlen : (strBytes s).length ≤ 63
  · rw [if_pos hlen]
    simp only [List.cons_append]
    simp only [decodeV, tagNull, tagFalse, tagTrue, tagInt8, tagInt16, tagInt32,
      tagInt64, tagFloat64, tagStrLong, tagArray, tagObject]
    rw [if_neg (by omega), if_neg (by omega), if_neg (by omega),
      if_neg (by intro hco; omega), if_neg (by omega), if_neg (by omega),
      if_neg (by intro hco; omega), if_neg (by omega),
      if_pos (by omega : 0x40 ≤ 0x40 + (strBytes s).length
        ∧ 0x40 + (strBytes s).length < 0x80)]
    rw [show 0x40 + (strBytes s).length - 0x40 = (strBytes s).length by omega]
    rw [List.take_left' rfl, List.drop_left' rfl, utf8Decode_strBytes]
    rfl
  · rw [if_neg hlen]
    simp only [List.cons_append, List.append_assoc]
    simp only [decodeV, tagNull, tagFalse, tagTrue, tagInt8, tagInt16, tagInt32,
      tagInt64, tagFloat64, tagStrLong, tagArray, tagObject]
    rw [if_neg (by omega), if_neg (by omega), if_neg (by omega),
      if_neg (by intro hco; omega), if_neg (by omega), if_neg (by omega),
      if_neg (by intro hco; omega), if_neg (by omega),
      if_neg (by omega : ¬(0x40 ≤ 8 ∧ 8 < 0x80)), if_pos trivial]
    rw [List.take_left' (writeLE_length 4 (strBytes s).length),
      List.drop_left' (writeLE_length 4 (strBytes s).length),
      readLE_writeLE 4 (strBytes s).length (by
        have h256 : (256 : Nat) ^ 4 = 2 ^ 32 := by norm_num
        omega),
      List.take_left' rfl, List.drop_left' rfl, utf8Decode_strBytes]
    rfl

/-! ### Decoding container encodings -/

theorem decodeV_arrayBytes (dict : List String) (fuel : Nat)
    (bufs : List (List Nat)) (xs : List Json) (rest : List Nat)
    (hn : bufs.length = xs.length)
    (hlens : bufs.map List.length = xs.map encLen)
    (hcnt : xs.length < 2 ^ 32)
    (hsum : encLenList xs < 2 ^ 32)
    (hdec : decodeSlices dict fuel bufs = some xs) :
    decodeV dict (fuel + 1) (arrayBytes bufs ++ rest) = some (.arr xs, rest) := by
  have h2324 : (256 : Nat) ^ 4 = 2 ^ 32 := by norm_num
  have hsum' : (bufs.map List.length).sum < 2 ^ 32 := by
    rw [hlens, ← encLenList_eq_sum]
    exact hsum
  have hflat : bufs.flatten.length = (bufs.map List.length).sum :=
    List.length_flatten bufs
  unfold arrayBytes offsetsBytes
  simp only [List.cons_append, List.append_assoc]
  simp only [decodeV, tagNull, tagFalse, tagTrue, tagInt8, tagInt16, tagInt32,
    tagInt64, tagFloat64, tagStrLong, tagArray, tagObject]
  rw [if_neg (by omega), if_neg (by omega), if_neg (by omega),
    if_neg (by intro hco; omega), if_neg (by omega), if_neg (by omega),
    if_neg (by intro hco; omega), if_neg (by omega),
    if_neg (by omega : ¬(0x40 ≤ 16 ∧ 16 < 0x80)), if_neg (by omega), if_pos trivial]
  rw [List.drop_one, List.tail_cons,
    List.take_left' (writeLE_length 4 bufs.length),
    List.drop_left' (writeLE_length 4 bufs.length),
    readLE_writeLE 4 bufs.length (by omega),
    show bufs.length + 1 = (cumsum (bufs.map List.length)).length by
      rw [cumsum_length, List.length_map],
    readEntries_flatten 4 (cumsum (bufs.map List.length)) _ (fun v hv => by
      have := cumsum_le_sum (bufs.map List.length) v hv
      omega),
    cumsum_getLastD,
    drop_flatten_writeLE 4 (cumsum (bufs.map List.length)),
    List.take_left' hflat, List.drop_left' hflat,
    heapSlices_cumsum, hdec]
  rfl

theorem readEntries_flatten' (w : Nat) (vals : List Nat) (tail : List Nat)
    (cnt : Nat) (hc : cnt = vals.length) (h : ∀ v ∈ vals, v < 256 ^ w) :
    readEntries w cnt ((vals.map (writeLE w)).flatten ++ tail) = vals := by
  subst hc
  exact readEntries_flatten w vals tail h

theorem drop_flatten_writeLE' (w : Nat) (vals : List Nat) (tail : List Nat)
    (cnt : Nat) (hc : cnt = vals.length) :
    (((vals.map (writeLE w)).flatten ++ tail)).drop (w * cnt) = tail := by
  subst hc
  exact drop_flatten_writeLE w vals tail

theorem readEntries_map_flatten {γ : Type} (w : Nat) (l : List γ) (g : γ → Nat)
    (tail : List Nat) (cnt : Nat) (hc : cnt = l.length)
    (h : ∀ r ∈ l, g r < 256 ^ w) :
    readEntries w cnt ((l.map (fun r => writeLE w (g r))).flatten ++ tail)
      = l.map g := by
  subst hc
  have hb : ∀ v ∈ l.map g, v < 256 ^ w := by
    intro v hv
    obtain ⟨r, hr, rfl⟩ := List.mem_map.mp hv
    exact h r hr
  have heq := readEntries_flatten w (l.map g) tail hb
  rw [List.map_map] at heq
  simpa [Function.comp, List.length_map] using heq

theorem drop_map_flatten {γ : Type} (w : Nat) (l : List γ) (g : γ → Nat)
    (tail : List Nat) (cnt : Nat) (hc : cnt = l.length) :
    ((l.map (fun r => writeLE w (g r))).flatten ++ tail).drop (w * cnt) = tail := by
  subst hc
  have heq := drop_flatten_writeLE w (l.map g) tail
  rw [List.map_map] at heq
  simpa [Function.comp, List.length_map] using heq

theorem heapSlices_cumsum_map {γ : Type} (l : List γ) (g : γ → List Nat) :
    heapSlices ((l.map g).flatten) (cumsum (l.map (fun r => (g r).length)))
      = l.map g := by
  have heq := heapSlices_cumsum (l.map g)
  rw [List.map_map] at heq
  simpa [Function.comp] using heq

theorem decodeV_objectBytes (dict : List String) (fuel : Nat)
    (zl : List ((Nat × List Nat) × (String × Json))) (rest : List Nat)
    (hcnt : zl.length < 2 ^ 32)
    (hsum : encLenFields (zl.map Prod.snd) < 2 ^ 32)
    (hlens : ∀ r ∈ zl, r.1.2.length = encLen r.2.2)
    (hidlt : ∀ r ∈ zl, r.1.1 < dict.length)
    (hdlen : dict.length < 2 ^ 32)
    (hkeys : ∀ r ∈ zl, dict.getD r.1.1 "" = r.2.1)
    (hknd : ((zl.map Prod.snd).map Prod.fst).Nodup)
    (hdec : ∀ r ∈ zl, decodeV dict fuel r.1.2 = some (r.2.2, [])) :
    decodeV dict (fuel + 1) (objectBytes (zl.map Prod.fst) ++ rest)
      = some (.obj (zl.map Prod.snd), rest) := by
  have h2324 : (256 : Nat) ^ 4 = 2 ^ 32 := by norm_num
  have hznd : (zl.map (fun r => r.1.1)).Nodup := by
    apply @ids_nodup_of_keys _ dict zl ((zl.map Prod.snd).map Prod.fst) ?hres hknd
    rw [List.map_map]
    exact List.map_congr_left (fun r hr => hkeys r hr)
  have hperm : (sortKeyed (fun r => r.1.1) zl).Perm zl := sortKeyed_perm _ zl
  have hsortmap : (sortKeyed (fun r => r.1.1) zl).map Prod.fst
      = sortById (zl.map Prod.fst) := by
    rw [sortById]
    exact map_sortKeyed Prod.fst (fun r => r.1.1) Prod.fst (fun a => rfl) zl
  have hsndnd : ((sortKeyed (fun r => r.1.1) zl).map (fun r => r.1.1)).Nodup :=
    ((hperm.map (fun r => r.1.1)).nodup_iff).mpr hznd
  have hslen : (sortKeyed (fun r => r.1.1) zl).length = zl.length := hperm.length_eq
  have hsortlen : (sortById (zl.map Prod.fst)).length = zl.length := by
    rw [← hsortmap, List.length_map, hslen]
  -- sum of the sorted payload lengths
  have hsum2 : ((sortById (zl.map Prod.fst)).map (fun e => e.2.length)).sum
      = encLenFields (zl.map Prod.snd) := by
    rw [← hsortmap, List.map_map]
    have hp2 := (hperm.map (fun r => r.1.2.length)).sum_eq
    have hcongr : zl.map (fun r => r.1.2.length)
        = zl.map (fun r => encLen r.2.2) :=
      List.map_congr_left (fun r hr => hlens r hr)
    have hef : encLenFields (zl.map Prod.snd)
        = ((zl.map Prod.snd).map (fun f => encLen f.2)).sum :=
      encLenFields_eq_sum _
    rw [List.map_map] at hef
    calc ((sortKeyed (fun r => r.1.1) zl).map
            ((fun e => e.2.length) ∘ Prod.fst)).sum
        = (zl.map (fun r => r.1.2.length)).sum := hp2
    _ = (zl.map (fun r => encLen r.2.2)).sum := by rw [hcongr]
    _ = encLenFields (zl.map Prod.snd) := by rw [hef]; rfl
  -- the sorted payload bytes
  have hplen : (((sortById (zl.map Prod.fst)).map Prod.snd).flatten).length
      = ((sortById (zl.map Prod.fst)).map (fun e => e.2.length)).sum := by
    rw [List.length_flatten, List.map_map]
    rfl
  -- decoding the sorted slices
  have hds : decodeSlices dict fuel ((sortById (zl.map Prod.fst)).map Prod.snd)
      = some ((sortKeyed (fun r => r.1.1) zl).map (fun r => r.2.2)) := by
    have hz := decodeSlices_forall dict fuel
      ((sortKeyed (fun r => r.1.1) zl).map (fun r => (r.1.2, r.2.2)))
      (by
        intro p hp
        obtain ⟨r, hr, rfl⟩ := List.mem_map.mp hp
        exact hdec r (hperm.mem_iff.mp hr))
    rw [List.map_map, List.map_map] at hz
    rw [← hsortmap, List.map_map]
    exact hz
  unfold objectBytes offsetsBytes
  simp only [List.cons_append, List.append_assoc]
  simp only [decodeV, tagNull, tagFalse, tagTrue, tagInt8, tagInt16, tagInt32,
    tagInt64, tagFloat64, tagStrLong, tagArray, tagObject]
  rw [if_neg (by omega), if_neg (by omega), if_neg (by omega),
    if_neg (by intro hco; omega), if_neg (by omega), if_neg (by omega),
    if_neg (by intro hco; omega), if_neg (by omega),
    if_neg (by omega : ¬(0x40 ≤ 17 ∧ 17 < 0x80)), if_neg (by omega),
    if_neg (by omega), if_pos trivial]
  rw [List.drop_one, List.tail_cons]
  simp only [List.length_map]
  rw [List.take_left' (writeLE_length 4 zl.length),
    List.drop_left' (writeLE_length 4 zl.length),
    readLE_writeLE 4 zl.length (by omega)]
  rw [readEntries_map_flatten 4 (sortById (zl.map Prod.fst)) (fun e => e.1) _
      zl.length hsortlen.symm
      (fun r hr => by
        have hmem : r ∈ (sortKeyed (fun q => q.1.1) zl).map Prod.fst := by
          rw [hsortmap]; exact hr
        obtain ⟨q, hq, rfl⟩ := List.mem_map.mp hmem
        have h1 := hidlt q (hperm.mem_iff.mp hq)
        show q.1.1 < 256 ^ 4
        omega)]
  rw [drop_map_flatten 4 (sortById (zl.map Prod.fst)) (fun e => e.1) _
      zl.length hsortlen.symm]
  rw [readEntries_map_flatten 4 (zl.map Prod.fst)
      (fun e => posOfId e.1 (sortById (zl.map Prod.fst))) _
      zl.length (List.length_map _ _).symm
      (fun r hr => by
        obtain ⟨q, hq, rfl⟩ := List.mem_map.mp hr
        obtain ⟨hplt, _⟩ := posOfId_recover (sortKeyed (fun x => x.1.1) zl) hsndnd
          q.1 q.2 (by
            rw [show (q.1, q.2) = q from rfl]
            exact hperm.mem_iff.mpr hq)
        rw [hsortmap] at hplt
        rw [hslen] at hplt
        show posOfId q.1.1 (sortById (zl.map Prod.fst)) < 256 ^ 4
        omega)]
  rw [drop_map_flatten 4 (zl.map Prod.fst)
      (fun e => posOfId e.1 (sortById (zl.map Prod.fst))) _
      zl.length (List.length_map _ _).symm]
  rw [readEntries_flatten' 4
      (cumsum ((sortById (zl.map Prod.fst)).map (fun e => e.2.length))) _
      (zl.length + 1)
      (by rw [cumsum_length, List.length_map, hsortlen])
      (fun v hv => by
        have := cumsum_le_sum _ v hv
        rw [hsum2] at this
        omega)]
  rw [drop_flatten_writeLE' 4
      (cumsum ((sortById (zl.map Prod.fst)).map (fun e => e.2.length))) _
      (zl.length + 1)
      (by rw [cumsum_length, List.length_map, hsortlen])]
  rw [cumsum_getLastD]
  rw [List.take_left' hplen, List.drop_left' hplen]
  rw [heapSlices_cumsum_map (sortById (zl.map Prod.fst)) Prod.snd]
  rw [hds]
  refine congrArg (fun fl => some (Json.obj fl, rest)) ?_
  rw [List.map_map, List.map_map]
  apply List.map_congr_left
  intro r hr
  obtain ⟨hplt, hpget⟩ := posOfId_recover (sortKeyed (fun x => x.1.1) zl) hsndnd
    r.1 r.2 (by
      rw [show (r.1, r.2) = r from rfl]
      exact hperm.mem_iff.mpr hr)
  rw [hsortmap] at hpget hplt
  have hids : ((sortById (zl.map Prod.fst)).map (fun e => e.1)).getD
      (posOfId r.1.1 (sortById (zl.map Prod.fst))) 0 = r.1.1 := by
    rw [List.getD_eq_getElem?_getD, ← hsortmap, List.map_map,
      List.getElem?_map, ← hsortmap] at *
    rw [hpget]
    rfl
  have hvs : ((sortKeyed (fun x => x.1.1) zl).map (fun q => q.2.2)).getD
      (posOfId r.1.1 (sortById (zl.map Prod.fst))) Json.null = r.2.2 := by
    rw [List.getD_eq_getElem?_getD, List.getElem?_map, ← hsortmap]
    rw [← hsortmap] at hpget
    rw [hpget]
    rfl
  show (dict.getD _ "", _) = r.2
  rw [hids, hvs, hkeys r hr]

/-! ### The main round-trip induction -/

theorem sum_map_writeLE_len (w : Nat) (vals : List Nat) :
    (List.map List.length (vals.map (writeLE w))).sum = w * vals.length := by
  rw [← List.length_flatten]
  exact flatten_writeLE_length w vals

theorem sum_len_map_writeLE {γ : Type} (w : Nat) (l : List γ) (g : γ → Nat) :
    ((l.map (fun r => writeLE w (g r))).flatten).length = w * l.length := by
  have heq := flatten_writeLE_length w (l.map g)
  rw [List.map_map] at heq
  simpa [Function.comp] using heq

theorem encOk_all : ∀ (N : Nat) (v : Json), jsize v ≤ N →
    ∀ dict, wfJson v = true → EncOk v dict := by
  intro N
  induction N using Nat.strong_induction_on with
  | _ N IH =>
    intro v hN dict hwf
    cases v with
    | null =>
        refine ⟨dictExtends_refl dict, rfl, ?_⟩
        intro dict2 fuel rest _ _ hfuel
        obtain ⟨f, rfl⟩ : ∃ f, fuel = f + 1 :=
          ⟨fuel - 1, by simp [jsize] at hfuel; omega⟩
        simp only [encode_json_value, List.cons_append, List.nil_append]
        exact decodeV_null dict2 f rest
    | bool b =>
        cases b
        · refine ⟨dictExtends_refl dict, rfl, ?_⟩
          intro dict2 fuel rest _ _ hfuel
          obtain ⟨f, rfl⟩ : ∃ f, fuel = f + 1 :=
            ⟨fuel - 1, by simp [jsize] at hfuel; omega⟩
          simp only [encode_json_value, List.cons_append, List.nil_append]
          exact decodeV_false dict2 f rest
        · refine ⟨dictExtends_refl dict, rfl, ?_⟩
          intro dict2 fuel rest _ _ hfuel
          obtain ⟨f, rfl⟩ : ∃ f, fuel = f + 1 :=
            ⟨fuel - 1, by simp [jsize] at hfuel; omega⟩
          simp only [encode_json_value, List.cons_append, List.nil_append]
          exact decodeV_true dict2 f rest
    | num n =>
        cases n with
        | intLit i =>
            simp only [wfJson, decide_eq_true_eq] at hwf
            have hI : JNum.isI64 (.intLit i) = true := by
              simp only [JNum.isI64, decide_eq_true_eq]
              omega
            refine ⟨?_, ?_, ?_⟩
            · simp only [encode_json_value, hI, if_pos]
              exact dictExtends_refl dict
            · simp [encode_json_value, encLen, appendNum, hI]
            · intro dict2 fuel rest _ _ hfuel
              obtain ⟨f, rfl⟩ : ∃ f, fuel = f + 1 :=
                ⟨fuel - 1, by simp [jsize] at hfuel; omega⟩
              simp only [encode_json_value, hI, if_pos]
              exact decodeV_appendInt dict2 f i (by unfold intFits; omega) rest
        | floatLit bits =>
            simp only [wfJson, decide_eq_true_eq] at hwf
            have hI : JNum.isI64 (.floatLit bits) = false := rfl
            refine ⟨?_, ?_, ?_⟩
            · simp only [encode_json_value, hI, Bool.false_eq_true, if_neg]
              exact dictExtends_refl dict
            · simp [encode_json_value, encLen, appendNum, hI]
            · intro dict2 fuel rest _ _ hfuel
              obtain ⟨f, rfl⟩ : ∃ f, fuel = f + 1 :=
                ⟨fuel - 1, by simp [jsize] at hfuel; omega⟩
              simp only [encode_json_value, hI, Bool.false_eq_true, if_neg]
              exact decodeV_appendFloat dict2 f bits hwf rest
    | str s =>
        simp only [wfJson, decide_eq_true_eq] at hwf
        refine ⟨dictExtends_refl dict, rfl, ?_⟩
        intro dict2 fuel rest _ _ hfuel
        obtain ⟨f, rfl⟩ : ∃ f, fuel = f + 1 :=
          ⟨fuel - 1, by simp [jsize] at hfuel; omega⟩
        simp only [encode_json_value]
        exact decodeV_appendStr dict2 f s hwf rest
    | arr xs =>
        simp only [wfJson, Bool.and_eq_true, decide_eq_true_eq] at hwf
        obtain ⟨⟨hwfl, hcnt⟩, hsum⟩ := hwf
        have hIHx : ∀ x ∈ xs, ∀ d, EncOk x d := by
          intro x hx d
          have hx1 : jsize x < N := by
            have := jsize_le_of_mem hx
            simp only [jsize] at hN
            omega
          exact IH (jsize x) hx1 x (Nat.le_refl _) d (wfList_mem hwfl x hx)
        obtain ⟨hext, hlens, hcount, hdecs⟩ := elemsOk_of xs hIHx dict
        have henc : encode_json_value (.arr xs) dict
            = (arrayBytes (encode_json_elems xs dict).1,
               (encode_json_elems xs dict).2) := by
          simp only [encode_json_value]
        refine ⟨?_, ?_, ?_⟩
        · rw [henc]
          exact hext
        · rw [henc]
          unfold arrayBytes offsetsBytes
          simp only [List.length_cons, List.length_append, writeLE_length,
            List.length_flatten]
          rw [hlens, sum_map_writeLE_len 4 (cumsum (List.map encLen xs)),
            cumsum_length, List.length_map]
          simp only [encLen]
          rw [encLenList_eq_sum]
          omega
        · intro dict2 fuel rest hext2 hd2 hfuel
          rw [henc] at hext2 ⊢
          simp only at hext2 ⊢
          obtain ⟨f, rfl⟩ : ∃ f, fuel = f + 1 :=
            ⟨fuel - 1, by have := jsize_pos (.arr xs); omega⟩
          apply decodeV_arrayBytes dict2 f _ xs rest hcount hlens hcnt hsum
          apply hdecs dict2 f hext2 hd2
          intro x hx
          have := jsize_le_of_mem hx
          simp only [jsize] at hfuel
          omega
    | obj fs =>
        simp only [wfJson, Bool.and_eq_true, decide_eq_true_eq] at hwf
        obtain ⟨⟨⟨hwff, hcnt⟩, hsum⟩, hnd⟩ := hwf
        have hIHf : ∀ f ∈ fs, ∀ d, EncOk f.2 d := by
          intro f hf d
          have hf1 : jsize f.2 < N := by
            have := jsize_le_of_memF hf
            simp only [jsize] at hN
            omega
          exact IH (jsize f.2) hf1 f.2 (Nat.le_refl _) d (wfFields_mem hwff f hf)
        obtain ⟨hext, hlens, hcount, hids, hzip⟩ := fieldsOk_of fs hIHf dict
        have henc : encode_json_value (.obj fs) dict
            = (objectBytes (encode_json_fields fs dict).1,
               (encode_json_fields fs dict).2) := by
          simp only [encode_json_value]
        have hsortperm : (sortById (encode_json_fields fs dict).1).Perm
            (encode_json_fields fs dict).1 := sortKeyed_perm _ _
        refine ⟨?_, ?_, ?_⟩
        · rw [henc]
          exact hext
        · rw [henc]
          have hsortlen : (sortById (encode_json_fields fs dict).1).length
              = fs.length := by
            rw [hsortperm.length_eq, hcount]
          have hsortsum : ((sortById (encode_json_fields fs dict).1).map
              (fun e => e.2.length)).sum = encLenFields fs := by
            rw [(hsortperm.map (fun e => e.2.length)).sum_eq, hlens,
              ← encLenFields_eq_sum]
          have hd : (((sortById (encode_json_fields fs dict).1).map
                Prod.snd).flatten).length
              = ((sortById (encode_json_fields fs dict).1).map
                  (fun e => e.2.length)).sum := by
            rw [List.length_flatten, List.map_map]
            rfl
          unfold objectBytes offsetsBytes
          simp only [List.length_cons, List.length_append, writeLE_length]
          rw [sum_len_map_writeLE 4 (sortById (encode_json_fields fs dict).1)
              (fun e => e.1),
            sum_len_map_writeLE 4 (encode_json_fields fs dict).1
              (fun e => posOfId e.1 (sortById (encode_json_fields fs dict).1)),
            flatten_writeLE_length, cumsum_length, List.length_map,
            hd, hsortsum, hsortlen, hcount]
          simp only [encLen]
          omega
        · intro dict2 fuel rest hext2 hd2 hfuel
          rw [henc] at hext2 ⊢
          simp only at hext2 ⊢
          obtain ⟨f, rfl⟩ : ∃ f, fuel = f + 1 :=
            ⟨fuel - 1, by have := jsize_pos (.obj fs); omega⟩
          have hzfst : ((encode_json_fields fs dict).1.zip fs).map Prod.fst
              = (encode_json_fields fs dict).1 :=
            List.map_fst_zip _ _ (by rw [hcount])
          have hzsnd : ((encode_json_fields fs dict).1.zip fs).map Prod.snd
              = fs :=
            List.map_snd_zip _ _ (by rw [hcount])
          have hzlen : ((encode_json_fields fs dict).1.zip fs).length
              = fs.length := by
            rw [List.length_zip _ _, hcount]
            simp
          have hzp := hzip dict2 hext2 hd2
          have hobj := decodeV_objectBytes dict2 f
            ((encode_json_fields fs dict).1.zip fs) rest
            (by rw [hzlen]; exact hcnt)
            (by rw [hzsnd]; exact hsum)
            (fun r hr => (hzp r hr).1)
            (fun r hr => by
              have hmem := (List.of_mem_zip hr).1
              have h1 := hids r.1 hmem
              have h2 := dictExtends_length hext2
              omega)
            hd2
            (fun r hr => (hzp r hr).2.1)
            (by rw [hzsnd]; exact hnd)
            (fun r hr => by
              have hd := (hzp r hr).2.2 f []
              rw [List.append_nil] at hd
              apply hd
              have hmem := (List.of_mem_zip hr).2
              have := jsize_le_of_memF hmem
              simp only [jsize] at hfuel
              omega)
          rw [hzfst, hzsnd] at hobj
          exact hobj

/-! ### Metadata round trip -/

theorem heapLen_eq_sum (dict : List String) :
    heapLen dict = (dict.map (fun s => (strBytes s).length)).sum := by
  unfold heapLen
  rw [List.length_flatten, List.map_map]
  rfl

theorem minByteWidth_spec (m : Nat) (h : m < 2 ^ 32) :
    m < 256 ^ minByteWidth m ∧ 1 ≤ minByteWidth m ∧ minByteWidth m < 16 := by
  unfold minByteWidth
  split_ifs with h1 h2 h3 <;> refine ⟨by norm_num; omega, by norm_num, by norm_num⟩

theorem mapM_utf8_strBytes (dict : List String) :
    (dict.map strBytes).mapM
      (fun sl => (utf8Decode sl).map (fun cs => String.mk cs)) = some dict := by
  induction dict with
  | nil => rfl
  | cons s ds ih =>
      simp only [List.map_cons, List.mapM_cons, utf8Decode_strBytes,
        Option.map_some', ih]
      rfl

theorem decodeMeta_encodeMeta (dict : List String)
    (h : max (heapLen dict) dict.length < 2 ^ 32) :
    decodeMeta (encodeMeta dict) = some dict := by
  obtain ⟨hm, hw1, hw16⟩ := minByteWidth_spec (max (heapLen dict) dict.length) h
  set w := minByteWidth (max (heapLen dict) dict.length) with hwdef
  have hmod : (0x10 + w) % 16 = w := by omega
  have hnw : dict.length < 256 ^ w := by
    have : dict.length ≤ max (heapLen dict) dict.length := le_max_right _ _
    omega
  have hhw : heapLen dict < 256 ^ w := by
    have : heapLen dict ≤ max (heapLen dict) dict.length := le_max_left _ _
    omega
  unfold encodeMeta
  rw [← hwdef]
  rw [show ((0x10 + w) :: writeLE w dict.length
        ++ ((cumsum (dict.map fun s => (strBytes s).length)).map (writeLE w)).flatten
        ++ (dict.map strBytes).flatten)
      = ((0x10 + w) :: (writeLE w dict.length
        ++ (((cumsum (dict.map fun s => (strBytes s).length)).map (writeLE w)).flatten
        ++ (dict.map strBytes).flatten))) from by simp]
  rw [decodeMeta]
  simp only [hmod]
  rw [List.take_left' (writeLE_length w dict.length),
    List.drop_left' (writeLE_length w dict.length),
    readLE_writeLE w dict.length hnw,
    readEntries_flatten' w
      (cumsum (dict.map (fun s => (strBytes s).length))) _
      (dict.length + 1)
      (by rw [cumsum_length, List.length_map])
      (fun v hv => by
        have h1 := cumsum_le_sum _ v hv
        rw [← heapLen_eq_sum] at h1
        omega),
    drop_flatten_writeLE' w
      (cumsum (dict.map (fun s => (strBytes s).length))) _
      (dict.length + 1)
      (by rw [cumsum_length, List.length_map])]
  rw [show (dict.map strBytes).flatten
      = ((dict.map strBytes).flatten ++ [] : List Nat) from by simp] at *
  rw [show cumsum (dict.map (fun s => (strBytes s).length))
      = cumsum ((dict.map strBytes).map List.length) from by
    rw [List.map_map]; rfl]
  rw [List.append_nil, heapSlices_cumsum]
  exact mapM_utf8_strBytes dict

/-! ### Reader-level round trip -/

theorem readVariant_encode (v : Json) (dict0 : List String) (hwf : wfJson v = true)
    (hmeta : max (heapLen (encode_json_value v dict0).2)
      (encode_json_value v dict0).2.length < 2 ^ 32) :
    readVariant (encodeMeta (encode_json_value v dict0).2)
      (encode_json_value v dict0).1 = some v := by
  obtain ⟨hext, hlen, hdec⟩ := encOk_all (jsize v) v (Nat.le_refl _) dict0 hwf
  have hdlen : (encode_json_value v dict0).2.length < 2 ^ 32 := by
    have := le_max_right (heapLen (encode_json_value v dict0).2)
      (encode_json_value v dict0).2.length
    omega
  have hfuel : jsize v ≤ (encode_json_value v dict0).1.length + 1 := by
    have h1 := jsize_le_encLen (jsize v) v (Nat.le_refl _)
    omega
  have hd := hdec (encode_json_value v dict0).2
    ((encode_json_value v dict0).1.length + 1) []
    (dictExtends_refl _) hdlen hfuel
  rw [List.append_nil] at hd
  simp only [readVariant, decodeMeta_encodeMeta _ hmeta, hd]

/-! ### The external JSON parser

Modelled from the spec: the front-end's upstream parser
(`serde_json::from_slice`) consumes the whole input and either returns a
value, fails with an unexpected-end-of-input error (`Error::is_eof()`,
reported when the input is a truncated document), or fails hard.  The
model implements the JSON grammar over `List Char`; error messages are
abstracted to the two categories the front-end distinguishes. -/

/-- Error category of the external parser: `eof` for unexpected end of
input, `bad` for every other parse failure. -/
inductive JErr where
  | eof
  | bad
deriving Repr, DecidableEq

/-- JSON insignificant whitespace. -/
def isWsChar (c : Char) : Bool :=
  c = ' ' || c = '\t' || c = '\n' || c = '\r'

/-- Drop leading whitespace. -/
def skipWs : List Char → List Char
  | [] => []
  | c :: r => if isWsChar c then skipWs r else c :: r

/-- Value of a hexadecimal digit. -/
def hexVal (c : Char) : Option Nat :=
  if '0' ≤ c ∧ c ≤ '9' then some (c.toNat - 48)
  else if 'a' ≤ c ∧ c ≤ 'f' then some (c.toNat - 87)
  else if 'A' ≤ c ∧ c ≤ 'F' then some (c.toNat - 55)
  else none

/-- Value of a 4-digit hex escape. -/
def hex4 (a b c d : Char) : Option Nat :=
  match hexVal a, hexVal b, hexVal c, hexVal d with
  | some ha, some hb, some hc, some hd => some (((ha * 16 + hb) * 16 + hc) * 16 + hd)
  | _, _, _, _ => none

/-- Code point of a UTF-16 surrogate pair. -/
def surrPair (n m : Nat) : Nat :=
  0x10000 + (n - 0xD800) * 0x400 + (m - 0xDC00)

/-- Single-character string escapes. -/
def escChar (c : Char) : Option Char :=
  if c = '"' then some '"'
  else if c = '\\' then some '\\'
  else if c = '/' then some '/'
  else if c = 'b' then some (Char.ofNat 8)
  else if c = 'f' then some (Char.ofNat 12)
  else if c = 'n' then some '\n'
  else if c = 'r' then some (Char.ofNat 13)
  else if c = 't' then some '\t'
  else none

mutual

/-- Parse the body of a string literal after the opening quote, returning
the content and the input after the closing quote. Unterminated strings and
truncated escapes give `eof`; bad escapes, lone surrogates and raw control
characters give `bad`. -/
def parseStringBody : List Char → Except JErr (List Char × List Char)
  | [] => .error .eof
  | c :: r =>
    if c = '"' then .ok ([], r)
    else if c = '\\' then psbEsc r
    else if c.toNat < 0x20 then .error .bad
    else (parseStringBody r).map (fun p => (c :: p.1, p.2))

/-- After a backslash: unicode escape, or single-character escape. -/
def psbEsc : List Char → Except JErr (List Char × List Char)
  | [] => .error .eof
  | e :: r1 =>
    if e = 'u' then psbU r1
    else
      match escChar e with
      | some ec => (parseStringBody r1).map (fun p => (ec :: p.1, p.2))
      | none => .error .bad

/-- After a backslash-u: four hex digits; a high surrogate must be followed
by a low-surrogate escape. -/
def psbU : List Char → Except JErr (List Char × List Char)
  | a :: b :: c2 :: d :: r2 =>
    (match hex4 a b c2 d with
    | none => .error .bad
    | some n =>
      if n < 0xD800 ∨ 0xE000 ≤ n then
        (parseStringBody r2).map (fun p => (Char.ofNat n :: p.1, p.2))
      else if 0xDC00 ≤ n then .error .bad
      else psbLow n r2)
  | _ => .error .eof

/-- After a high surrogate `n`: expect a second backslash-u escape. -/
def psbLow (n : Nat) : List Char → Except JErr (List Char × List Char)
  | [] => .error .eof
  | c3 :: r2a =>
    if c3 = '\\' then
      (match r2a with
      | [] => .error .eof
      | c4 :: r2b => if c4 = 'u' then psbLowU n r2b else .error .bad)
    else .error .bad

/-- The low-surrogate hex digits after the second backslash-u. -/
def psbLowU (n : Nat) : List Char → Except JErr (List Char × List Char)
  | e2 :: f2 :: g2 :: h2 :: r3 =>
    (match hex4 e2 f2 g2 h2 with
    | none => .error .bad
    | some m =>
      if 0xDC00 ≤ m ∧ m < 0xE000 then
        (parseStringBody r3).map (fun p => (Char.ofNat (surrPair n m) :: p.1, p.2))
      else .error .bad)
  | _ => .error .eof

end

/-- Value of a decimal digit. -/
def digVal (c : Char) : Option Nat :=
  if '0' ≤ c ∧ c ≤ '9' then some (c.toNat - 48) else none

/-- Consume a maximal run of decimal digits. -/
def takeDigits : List Char → List Nat × List Char
  | [] => ([], [])
  | c :: r =>
    match digVal c with
    | some d => ((d :: (takeDigits r).1), (takeDigits r).2)
    | none => ([], c :: r)

/-- Numeric value of a digit run. -/
def digitsToNat (ds : List Nat) : Nat :=
  ds.foldl (fun a d => a * 10 + d) 0

/-- Number produced for an integer literal: within the i64/u64 range the
parser keeps it exact, beyond that it falls back to the nearest double
(serde_json's behaviour without arbitrary precision). -/
def mkIntNum (neg : Bool) (m : Nat) : JNum :=
  if neg then
    if m ≤ 2 ^ 63 then .intLit (-(m : Int)) else .floatLit (f64OfInt (-(m : Int)))
  else
    if m < 2 ^ 64 then .intLit (m : Int) else .floatLit (f64OfInt (m : Int))

/-- Parse the digits of an exponent (after `e`/`E` and optional sign). -/
def parseExpDigits (neg : Bool) (mant : Nat) (fracLen : Nat) (eneg : Bool) :
    List Char → Except JErr (JNum × List Char)
  | [] => .error .eof
  | c :: r =>
    match digVal c with
    | none => .error .bad
    | some d =>
      let p := takeDigits r
      let e := digitsToNat (d :: p.1)
      .ok (.floatLit (f64OfDecimal neg mant
        ((if eneg then -(e : Int) else (e : Int)) - (fracLen : Int))), p.2)

/-- Parse an optional exponent part; without one, an integer literal stays
exact and a fractional literal becomes a double. -/
def parseExpPart (neg : Bool) (mant : Nat) (fracLen : Nat) (isFloat : Bool) :
    List Char → Except JErr (JNum × List Char)
  | [] =>
      if isFloat then .ok (.floatLit (f64OfDecimal neg mant (-(fracLen : Int))), [])
      else .ok (mkIntNum neg mant, [])
  | c :: r =>
    if c = 'e' ∨ c = 'E' then
      match r with
      | '+' :: r1 => parseExpDigits neg mant fracLen false r1
      | '-' :: r1 => parseExpDigits neg mant fracLen true r1
      | _ => parseExpDigits neg mant fracLen false r
    else
      if isFloat then .ok (.floatLit (f64OfDecimal neg mant (-(fracLen : Int))), c :: r)
      else .ok (mkIntNum neg mant, c :: r)

/-- Parse an optional fraction, then an optional exponent, after the
integer part `ip`. -/
def parseNumTail (neg : Bool) (ip : Nat) : List Char → Except JErr (JNum × List Char)
  | '.' :: r =>
    (match r with
    | [] => .error .eof
    | c :: r1 =>
      match digVal c with
      | none => .error .bad
      | some d =>
        let p := takeDigits r1
        let fds := d :: p.1
        parseExpPart neg (ip * 10 ^ fds.length + digitsToNat fds) fds.length true p.2)
  | s => parseExpPart neg ip 0 false s

/-- Parse a number after the optional minus sign; the input starts at the
first (expected) digit. A leading zero may not be followed by a digit. -/
def parseNumberAfterSign (neg : Bool) : List Char → Except JErr (JNum × List Char)
  | [] => .error .eof
  | c :: r =>
    match digVal c with
    | none => .error .bad
    | some d0 =>
      if d0 = 0 then
        match r with
        | c2 :: r2 =>
            if (digVal c2).isSome then .error .bad
            else parseNumTail neg 0 (c2 :: r2)
        | [] => parseNumTail neg 0 []
      else
        let p := takeDigits r
        parseNumTail neg (digitsToNat (d0 :: p.1)) p.2

/-- Insert into an insertion-ordered string map: an existing key keeps its
position and its value is replaced; a new key is appended. -/
def objInsert : List (String × Json) → String → Json → List (String × Json)
  | [], k, v => [(k, v)]
  | (k', v') :: fs, k, v =>
      if k' = k then (k', v) :: fs else (k', v') :: objInsert fs k v

/-- Match an exact keyword continuation (`ull`, `rue`, `alse`). -/
def expectLit : List Char → List Char → Except JErr (List Char)
  | [], rest => .ok rest
  | _ :: _, [] => .error .eof
  | e :: es, c :: r => if c = e then expectLit es r else .error .bad

mutual

/-- Parse one JSON value (with leading whitespace); `none` means the fuel
ran out, which never happens for the fuel supplied by `from_slice`. -/
def parseValue : Nat → List Char → Option (Except JErr (Json × List Char))
  | 0, _ => none
  | fuel + 1, s =>
    match skipWs s with
    | [] => some (.error .eof)
    | c :: r =>
      if c = 'n' then
        some ((expectLit ['u', 'l', 'l'] r).map (fun rest => (Json.null, rest)))
      else if c = 't' then
        some ((expectLit ['r', 'u', 'e'] r).map (fun rest => (Json.bool true, rest)))
      else if c = 'f' then
        some ((expectLit ['a', 'l', 's', 'e'] r).map (fun rest => (Json.bool false, rest)))
      else if c = '"' then
        some ((parseStringBody r).map (fun p => (Json.str (String.mk p.1), p.2)))
      else if c = '-' then
        some ((parseNumberAfterSign true r).map (fun p => (Json.num p.1, p.2)))
      else if (digVal c).isSome then
        some ((parseNumberAfterSign false (c :: r)).map (fun p => (Json.num p.1, p.2)))
      else if c = '[' then
        (match skipWs r with
        | [] => some (.error .eof)
        | c2 :: r2 =>
          if c2 = ']' then some (.ok (.arr [], r2))
          else parseElems fuel (c2 :: r2) [])
      else if c = '{' then
        (match skipWs r with
        | [] => some (.error .eof)
        | c2 :: r2 =>
          if c2 = '}' then some (.ok (.obj [], r2))
          else parseMembers fuel (c2 :: r2) [])
      else some (.error .bad)

/-- Parse array elements starting at a value, accumulating in order. -/
def parseElems : Nat → List Char → List Json → Option (Except JErr (Json × List Char))
  | 0, _, _ => none
  | fuel + 1, s, acc =>
    match parseValue fuel s with
    | none => none
    | some (.error e) => some (.error e)
    | some (.ok (v, r)) =>
      match skipWs r with
      | [] => some (.error .eof)
      | c2 :: r2 =>
        if c2 = ',' then parseElems fuel r2 (acc ++ [v])
        else if c2 = ']' then some (.ok (.arr (acc ++ [v]), r2))
        else some (.error .bad)

/-- Parse object members starting at a key quote, accumulating with the
insertion-order map semantics of the external parser. -/
def parseMembers : Nat → List Char → List (String × Json) →
    Option (Except JErr (Json × List Char))
  | 0, _, _ => none
  | fuel + 1, s, acc =>
    match s with
    | [] => some (.error .eof)
    | c0 :: r0 =>
      if c0 = '"' then
        (match parseStringBody r0 with
        | .error e => some (.error e)
        | .ok (kcs, r1) =>
          match skipWs r1 with
          | [] => some (.error .eof)
          | c1 :: r2 =>
            if c1 = ':' then
              (match parseValue fuel r2 with
              | none => none
              | some (.error e) => some (.error e)
              | some (.ok (v, r3)) =>
                match skipWs r3 with
                | [] => some (.error .eof)
                | c3 :: r4 =>
                  if c3 = ',' then
                    (match skipWs r4 with
                    | [] => some (.error .eof)
                    | c5 :: r5 =>
                      if c5 = '"' then
                        parseMembers fuel (c5 :: r5) (objInsert acc (String.mk kcs) v)
                      else some (.error .bad))
                  else if c3 = '}' then
                    some (.ok (.obj (objInsert acc (String.mk kcs) v), r4))
                  else some (.error .bad))
            else some (.error .bad))
      else some (.error .bad)

end

/-- The external parser on a whole input: parse one value, then only
whitespace may remain. -/
def from_slice (s : List Char) : Except JErr Json :=
  match parseValue (2 * s.length + 2) s with
  | none => .error .bad
  | some (.error e) => .error e
  | some (.ok (v, r)) => if skipWs r = [] then .ok v else .error .bad

/-! ### The front-end entry points (translated from `json.rs`)

Sinks are in-memory byte buffers (as in every caller in the sources);
their contents before the call are passed explicitly, and writes append.
`ArrowError` messages are abstracted to the error kind. -/

/-- Error kinds of `ArrowError` produced by this module. -/
inductive AErr where
  | parseErr
  | invalidArg
deriving Repr, DecidableEq

/-- Mirrors `json_to_variant` (json.rs lines 38–51): parse the input; on
failure return the `Parse` error before the builder is even created; on
success drive the builder and finish it. `m0`/`v0` are the sink contents
before the call. -/
def json_to_variant (json_data : List Char) (m0 v0 : List Nat) :
    Except AErr Unit × List Nat × List Nat :=
  match from_slice json_data with
  | .error _ => (.error .parseErr, m0, v0)
  | .ok j =>
    let r := encode_json_value j []
    (.ok (), m0 ++ encodeMeta r.2, v0 ++ r.1)

/-- `ParserState` (json.rs lines 199–202). -/
inductive ParserState where
  | parsing
  | finished
deriving Repr, DecidableEq

/-- The streaming `JsonParser` (json.rs lines 190–196). The dictionary is
the builder state reachable through the metadata sink; the spec describes
it as shared across builder sessions against the same sink. -/
structure JsonParser where
  dict : List String
  metaSink : List Nat
  valueSink : List Nat
  buffer : List Char
  state : ParserState
deriving Repr

/-- `JsonParser::new` (json.rs lines 204–213); modelled from the spec, the
builder continues the dictionary behind the shared metadata sink. -/
def JsonParser.new (dict0 : List String) (m0 v0 : List Nat) : JsonParser :=
  { dict := dict0, metaSink := m0, valueSink := v0, buffer := [], state := .parsing }

/-- `JsonParser::try_parse` (json.rs lines 231–249): a complete parse
encodes the value and clears the buffer; unexpected end of input is
expected (more data may come); any other failure is a parse error. -/
def JsonParser.try_parse (p : JsonParser) : Except AErr Unit × JsonParser :=
  match from_slice p.buffer with
  | .ok value =>
      let r := encode_json_value value p.dict
      (.ok (), { p with dict := r.2, valueSink := p.valueSink ++ r.1, buffer := [] })
  | .error .eof => (.ok (), p)
  | .error .bad => (.error .parseErr, p)

/-- `JsonParser::push` (json.rs lines 216–228). -/
def JsonParser.push (p : JsonParser) (data : List Char) :
    Except AErr Unit × JsonParser :=
  match p.state with
  | .finished => (.error .invalidArg, p)
  | .parsing => JsonParser.try_parse { p with buffer := p.buffer ++ data }

/-- `JsonParser::finish` (json.rs lines 252–268): a non-empty buffer must
parse (any failure, including unexpected end of input, is a parse error and
the builder is not finished); then the builder's `finish` writes the
metadata buffer. -/
def JsonParser.finish (p : JsonParser) : Except AErr Unit × JsonParser :=
  if p.buffer.isEmpty then
    (.ok (), { p with state := .finished, metaSink := p.metaSink ++ encodeMeta p.dict })
  else
    match from_slice p.buffer with
    | .ok value =>
        let r := encode_json_value value p.dict
        (.ok (),
          { p with
              state := .finished
              dict := r.2
              valueSink := p.valueSink ++ r.1
              metaSink := p.metaSink ++ encodeMeta r.2 })
    | .error _ => (.error .parseErr, { p with state := .finished })

/-- Drive a parser over a chunk list the way the callers do: push each
chunk, stop at the first error, then finish. Returns the outcome and the
final metadata/value sink contents. -/
def runChunksGo (p : JsonParser) : List (List Char) →
    Except AErr Unit × List Nat × List Nat
  | [] =>
    let r := p.finish
    (r.1, r.2.metaSink, r.2.valueSink)
  | c :: cs =>
    let r := p.push c
    match r.1 with
    | .ok _ => runChunksGo r.2 cs
    | .error e => (.error e, r.2.metaSink, r.2.valueSink)

/-- A whole streaming session from a fresh parser and empty sinks. -/
def runChunks (chunks : List (List Char)) : Except AErr Unit × List Nat × List Nat :=
  runChunksGo (JsonParser.new [] [] []) chunks

/-! ### Chunk-streaming lemmas -/

theorem from_slice_nil : from_slice [] = .error .eof := rfl

/-- Pushing one chunk and finishing equals finishing with the chunk
appended to the buffer: the sinks and outcome agree in every parse case. -/
theorem runChunksGo_single (p : JsonParser) (b : List Char)
    (hst : p.state = .parsing) :
    runChunksGo p [b] = runChunksGo { p with buffer := p.buffer ++ b } [] := by
  cases hfs : from_slice (p.buffer ++ b) with
  | ok value =>
      have hne : (p.buffer ++ b).isEmpty = false := by
        cases hb : p.buffer ++ b with
        | nil =>
            rw [hb, from_slice_nil] at hfs
            cases hfs
        | cons x xs => rfl
      simp [runChunksGo, JsonParser.push, hst, JsonParser.try_parse,
        JsonParser.finish, hfs, hne]
  | error e =>
      cases e with
      | eof =>
          simp [runChunksGo, JsonParser.push, hst, JsonParser.try_parse, hfs]
      | bad =>
          have hne : (p.buffer ++ b).isEmpty = false := by
            cases hb : p.buffer ++ b with
            | nil =>
                rw [hb, from_slice_nil] at hfs
                cases hfs
            | cons x xs => rfl
          simp [runChunksGo, JsonParser.push, hst, JsonParser.try_parse,
            JsonParser.finish, hfs, hne]

/-- With every intermediate accumulated prefix still incomplete, a chunked
run collapses to the single-chunk run. -/
theorem runChunksGo_collapse : ∀ (cs : List (List Char)) (p : JsonParser),
    p.state = .parsing →
    (∀ k, k + 1 < cs.length →
      from_slice (p.buffer ++ (cs.take (k + 1)).flatten) = .error .eof) →
    runChunksGo p cs = runChunksGo p [cs.flatten] := by
  intro cs
  induction cs with
  | nil =>
      intro p hst _
      rw [show (List.flatten ([] : List (List Char))) = [] from rfl,
        runChunksGo_single p [] hst]
      simp
  | cons c cs ih =>
      intro p hst hpre
      cases cs with
      | nil =>
          simp only [List.flatten_cons, List.flatten_nil, List.append_nil]
      | cons c2 cs2 =>
          have h0 := hpre 0 (by simp only [List.length_cons]; omega)
          simp only [List.take_succ_cons, List.take_zero, List.flatten_cons,
            List.flatten_nil, List.append_nil] at h0
          have hpush : p.push c = (.ok (), { p with buffer := p.buffer ++ c }) := by
            simp only [JsonParser.push, hst, JsonParser.try_parse, h0]
          rw [show runChunksGo p (c :: c2 :: cs2)
              = runChunksGo { p with buffer := p.buffer ++ c } (c2 :: cs2) from by
            simp only [runChunksGo, hpush]]
          rw [ih { p with buffer := p.buffer ++ c } hst (by
            intro k hk
            have := hpre (k + 1) (by simp only [List.length_cons] at hk ⊢; omega)
            simpa [List.take_succ_cons, List.flatten_cons, List.append_assoc] using this)]
          rw [runChunksGo_single p ((c :: c2 :: cs2).flatten) hst,
            runChunksGo_single { p with buffer := p.buffer ++ c }
              ((c2 :: cs2).flatten) hst]
          simp [List.append_assoc]

/-! ### Integer-width lemmas -/

/-- The chosen width always represents the value when 8 bytes do. -/
theorem intWidth_fits (i : Int) (h : intFits 8 i) : intFits (intWidth i) i := by
  unfold intWidth
  split_ifs with h1 h2 h4 <;> assumption

/-- The chosen width is the smallest valid width that fits. -/
theorem intWidth_min (i : Int) (w : Nat) (hw : w = 1 ∨ w = 2 ∨ w = 4 ∨ w = 8)
    (h : intFits w i) : intWidth i ≤ w := by
  unfold intWidth
  rcases hw with rfl | rfl | rfl | rfl <;> split_ifs <;> omega

/-- The reader decodes an integer encoding of any of the four widths back
to the encoded value. -/
theorem decodeV_intEnc (dict : List String) (fuel : Nat) (w : Nat) (i : Int)
    (hw : w = 1 ∨ w = 2 ∨ w = 4 ∨ w = 8) (h : intFits w i) (rest : List Nat) :
    decodeV dict (fuel + 1) (intTag w :: (encIntBytes w i ++ rest))
      = some (.num (.intLit i), rest) := by
  rcases hw with rfl | rfl | rfl | rfl
  · simp only [intTag, tagInt8]
    simp only [decodeV, tagNull, tagFalse, tagTrue, tagInt8, tagInt16, tagInt32,
      tagInt64, tagFloat64, tagStrLong, tagArray, tagObject]
    norm_num
    rw [List.take_left' (encIntBytes_length 1 i), ← List.drop_one,
      List.drop_left' (encIntBytes_length 1 i)]
    exact ⟨decIntBytes_encIntBytes 1 i (by norm_num) h, rfl⟩
  · simp only [intTag, tagInt16]
    simp only [decodeV, tagNull, tagFalse, tagTrue, tagInt8, tagInt16, tagInt32,
      tagInt64, tagFloat64, tagStrLong, tagArray, tagObject]
    norm_num
    rw [List.take_left' (encIntBytes_length 2 i), List.drop_left' (encIntBytes_length 2 i),
      decIntBytes_encIntBytes 2 i (by norm_num) h]
    exact ⟨rfl, rfl⟩
  · simp only [intTag, tagInt32]
    simp only [decodeV, tagNull, tagFalse, tagTrue, tagInt8, tagInt16, tagInt32,
      tagInt64, tagFloat64, tagStrLong, tagArray, tagObject]
    norm_num
    rw [List.take_left' (encIntBytes_length 4 i), List.drop_left' (encIntBytes_length 4 i),
      decIntBytes_encIntBytes 4 i (by norm_num) h]
    exact ⟨rfl, rfl⟩
  · simp only [intTag, tagInt64]
    simp only [decodeV, tagNull, tagFalse, tagTrue, tagInt8, tagInt16, tagInt32,
      tagInt64, tagFloat64, tagStrLong, tagArray, tagObject]
    norm_num
    rw [List.take_left' (encIntBytes_length 8 i), List.drop_left' (encIntBytes_length 8 i),
      decIntBytes_encIntBytes 8 i (by norm_num) h]
    exact ⟨rfl, rfl⟩

/-! ### Shared-dictionary sessions

Modelled from the spec (§3): several builds may share one metadata sink;
each `JsonParser` session continues the dictionary behind that sink. A
session pushes one whole document and finishes; what it adds to the value
sink and how the dictionary grows is all the claim needs. -/

/-- One session: fresh parser over the shared dictionary, one push of the
whole document, then finish. Returns the value bytes written and the grown
dictionary. -/
def runSession (doc : List Char) (dict0 : List String) : List Nat × List String :=
  let p := JsonParser.new dict0 [] []
  let r1 := (p.push doc).2
  let r2 := r1.finish.2
  (r2.valueSink, r2.dict)

/-- Consecutive sessions threading the shared dictionary; returns each
session's value bytes and the final dictionary. -/
def runSessions (dict0 : List String) : List (List Char) → List (List Nat) × List String
  | [] => ([], dict0)
  | d :: ds =>
    let r := runSession d dict0
    let rest := runSessions r.2 ds
    (r.1 :: rest.1, rest.2)

theorem runSession_ok (doc : List Char) (dict0 : List String) (J : Json)
    (h : from_slice doc = .ok J) :
    runSession doc dict0
      = ((encode_json_value J dict0).1, (encode_json_value J dict0).2) := by
  simp [runSession, JsonParser.new, JsonParser.push, JsonParser.try_parse,
    JsonParser.finish, h]

theorem runSession_err (doc : List Char) (dict0 : List String) (e : JErr)
    (h : from_slice doc = .error e) : runSession doc dict0 = ([], dict0) := by
  cases e with
  | eof =>
      by_cases hd : doc.isEmpty
      · simp [runSession, JsonParser.new, JsonParser.push, JsonParser.try_parse,
          JsonParser.finish, h, hd]
      · simp [runSession, JsonParser.new, JsonParser.push, JsonParser.try_parse,
          JsonParser.finish, h, hd]
  | bad =>
      have hne : ¬doc.isEmpty := by
        intro hc
        rw [List.isEmpty_iff.mp hc, from_slice_nil] at h
        cases h
      simp [runSession, JsonParser.new, JsonParser.push, JsonParser.try_parse,
        JsonParser.finish, h, hne]

/-- Element loops only grow the dictionary. -/
theorem elems_extends_of (xs : List Json)
    (hall : ∀ x ∈ xs, ∀ d, dictExtends d (encode_json_value x d).2) :
    ∀ dict, dictExtends dict (encode_json_elems xs dict).2 := by
  induction xs with
  | nil => intro d; exact dictExtends_refl d
  | cons x xs ih =>
      intro d
      have h1 : dictExtends d (encode_json_array_element x d).2 := by
        rw [encode_json_array_element_eq]
        exact hall x (List.mem_cons_self x xs) d
      have h2 := ih (fun y hy => hall y (List.mem_cons_of_mem _ hy))
        (encode_json_array_element x d).2
      exact dictExtends_trans h1 h2

/-- Field loops only grow the dictionary. -/
theorem fields_extends_of (fs : List (String × Json))
    (hall : ∀ f ∈ fs, ∀ d, dictExtends d (encode_json_value f.2 d).2) :
    ∀ dict, dictExtends dict (encode_json_fields fs dict).2 := by
  induction fs with
  | nil => intro d; exact dictExtends_refl d
  | cons f fs ih =>
      intro d
      obtain ⟨i, d1, hik⟩ : ∃ i d1, internKey d f.1 = (i, d1) := ⟨_, _, rfl⟩
      have hd1 : dictExtends d d1 := by
        have h := internKey_extends d f.1
        rw [hik] at h
        exact h
      have h1 : dictExtends d (encode_json_object_field f.1 f.2 d).2 := by
        rw [encode_json_object_field_eq f.1 f.2 d hik]
        exact dictExtends_trans hd1 (hall f (List.mem_cons_self f fs) d1)
      have h2 := ih (fun g hg => hall g (List.mem_cons_of_mem _ hg))
        (encode_json_object_field f.1 f.2 d).2
      have hshape : encode_json_fields (f :: fs) d
          = (let r1 := encode_json_object_field f.1 f.2 d
             let r2 := encode_json_fields fs r1.2
             (r1.1 :: r2.1, r2.2)) := by
        cases f
        rfl
      rw [hshape]
      exact dictExtends_trans h1 h2

/-- Encoding any value (well-formed or not) only grows the dictionary. -/
theorem encode_value_extends : ∀ (N : Nat) (v : Json), jsize v ≤ N →
    ∀ dict, dictExtends dict (encode_json_value v dict).2 := by
  intro N
  induction N using Nat.strong_induction_on with
  | _ N ih =>
      intro v hsz dict
      cases v with
      | null => exact dictExtends_refl dict
      | bool b => cases b <;> exact dictExtends_refl dict
      | num n =>
          by_cases hn : n.isI64 <;>
            simp only [encode_json_value, hn, if_true, if_false] <;>
            exact dictExtends_refl dict
      | str s => exact dictExtends_refl dict
      | arr xs =>
          have hN1 : N - 1 < N := by
            have := jsize_pos (.arr xs)
            omega
          have hlt : jsizeList xs ≤ N - 1 := by
            simp only [jsize] at hsz
            omega
          exact elems_extends_of xs
            (fun x hx d => ih (N - 1) hN1 x (le_trans (jsize_le_of_mem hx) hlt) d)
            dict
      | obj fs =>
          have hN1 : N - 1 < N := by
            have := jsize_pos (.obj fs)
            omega
          have hlt : jsizeFields fs ≤ N - 1 := by
            simp only [jsize] at hsz
            omega
          exact fields_extends_of fs
            (fun f hf d => ih (N - 1) hN1 f.2 (le_trans (jsize_le_of_memF hf) hlt) d)
            dict

/-- One session only grows the shared dictionary. -/
theorem runSession_extends (doc : List Char) (dict0 : List String) :
    dictExtends dict0 (runSession doc dict0).2 := by
  cases hfs : from_slice doc with
  | ok J =>
      rw [runSession_ok doc dict0 J hfs]
      exact encode_value_extends (jsize J) J (Nat.le_refl _) dict0
  | error e =>
      rw [runSession_err doc dict0 e hfs]
      exact dictExtends_refl dict0

/-- A whole session sequence only grows the shared dictionary. -/
theorem runSessions_extends : ∀ (docs : List (List Char)) (dict0 : List String),
    dictExtends dict0 (runSessions dict0 docs).2 := by
  intro docs
  induction docs with
  | nil => intro dict0; exact dictExtends_refl dict0
  | cons d ds ih =>
      intro dict0
      exact dictExtends_trans (runSession_extends d dict0)
        (ih (runSession d dict0).2)

/-- A dictionary id survives appending entries. -/
theorem dictIdOf_append {d : List String} {k : String} {i : Nat}
    (h : dictIdOf d k = some i) (e : List String) :
    dictIdOf (d ++ e) k = some i := by
  induction d generalizing i with
  | nil => cases h
  | cons s rest ih =>
      by_cases hs : s = k
      · simp only [dictIdOf, hs, if_true, List.cons_append] at h ⊢
        exact h
      · simp only [dictIdOf, hs, if_false, List.cons_append] at h ⊢
        obtain ⟨j, hj, hji⟩ := Option.map_eq_some'.mp h
        show Option.map (fun x => x + 1) (dictIdOf (rest ++ e) k) = some i
        rw [ih hj]
        simp [hji]

/-! ### Parser metatheory: extending the input

A hard parse error, and a successful parse that stops strictly before the
end of the input, are both decided by the bytes already seen: appending
further bytes cannot change them. Unexpected end of input is the only
verdict that more data can revise. These lemmas establish that, first for
the non-recursive helpers, then for the mutual parser by induction on
fuel. -/

theorem skipWs_extend {r : List Char} {c : Char} {r2 : List Char}
    (t : List Char) (h : skipWs r = c :: r2) :
    skipWs (r ++ t) = c :: (r2 ++ t) := by
  induction r with
  | nil => cases h
  | cons x xs ih =>
      by_cases hx : isWsChar x
      · simp only [skipWs, hx, if_true] at h
        simp only [List.cons_append, skipWs, hx, if_true]
        exact ih h
      · simp only [skipWs, hx, if_false] at h
        simp only [List.cons_append, skipWs, hx, if_false]
        cases h
        rfl

theorem skipWs_length (s : List Char) : (skipWs s).length ≤ s.length := by
  induction s with
  | nil => simp [skipWs]
  | cons x xs ih =>
      by_cases hx : isWsChar x
      · simp only [skipWs, hx, if_true]
        simp only [List.length_cons]
        omega
      · simp [skipWs, hx]

theorem expectLit_extend_ok : ∀ (es r rest t : List Char),
    expectLit es r = .ok rest → expectLit es (r ++ t) = .ok (rest ++ t) := by
  intro es
  induction es with
  | nil =>
      intro r rest t h
      cases h
      rfl
  | cons e es ih =>
      intro r rest t h
      cases r with
      | nil => cases h
      | cons c r1 =>
          by_cases hc : c = e
          · simp only [expectLit, hc, if_true] at h ⊢
            exact ih r1 rest t h
          · simp only [expectLit, hc, if_false] at h
            cases h

theorem expectLit_extend_bad : ∀ (es r t : List Char),
    expectLit es r = .error .bad → expectLit es (r ++ t) = .error .bad := by
  intro es
  induction es with
  | nil =>
      intro r t h
      cases h
  | cons e es ih =>
      intro r t h
      cases r with
      | nil => cases h
      | cons c r1 =>
          by_cases hc : c = e
          · simp only [expectLit, hc, if_true] at h ⊢
            exact ih r1 t h
          · simp only [List.cons_append, expectLit, hc, if_false]

theorem expectLit_length : ∀ (es r rest : List Char),
    expectLit es r = .ok rest → rest.length ≤ r.length := by
  intro es
  induction es with
  | nil =>
      intro r rest h
      cases h
      exact Nat.le_refl _
  | cons e es ih =>
      intro r rest h
      cases r with
      | nil => cases h
      | cons c r1 =>
          by_cases hc : c = e
          · simp only [expectLit, hc, if_true] at h
            have := ih r1 rest h
            simp only [List.length_cons]
            omega
          · simp only [expectLit, hc, if_false] at h
            cases h

theorem takeDigits_extend : ∀ (s : List Char) {ds : List Nat} {c : Char}
    {r : List Char} (t : List Char), takeDigits s = (ds, c :: r) →
    takeDigits (s ++ t) = (ds, c :: (r ++ t)) := by
  intro s
  induction s with
  | nil =>
      intro ds c r t h
      cases h
  | cons x xs ih =>
      intro ds c r t h
      cases hd : digVal x with
      | some d =>
          simp only [takeDigits, hd] at h
          obtain ⟨h1, h2⟩ := Prod.mk.injEq .. ▸ h
          cases hx : takeDigits xs with
          | mk ds2 rest2 =>
              rw [hx] at h1 h2
              simp only at h1 h2
              have hih := ih t (by rw [hx, h2])
              simp only [List.cons_append, takeDigits, hd]
              rw [show xs.append t = xs ++ t from rfl, hih, ← h1]
      | none =>
          simp only [takeDigits, hd] at h
          obtain ⟨h1, h2⟩ := Prod.mk.injEq .. ▸ h
          injection h2 with hxc hxr
          subst hxc hxr
          simp only [List.cons_append, takeDigits, hd, ← h1]
          rfl

theorem takeDigits_length : ∀ (s : List Char), (takeDigits s).2.length ≤ s.length := by
  intro s
  induction s with
  | nil => simp [takeDigits]
  | cons x xs ih =>
      cases hd : digVal x with
      | some d =>
          simp only [takeDigits, hd, List.length_cons]
          omega
      | none => simp [takeDigits, hd]

/-! ### String-body stepping equations -/

theorem psb_nil : parseStringBody [] = .error .eof := rfl

theorem psb_cons (c : Char) (r : List Char) :
    parseStringBody (c :: r)
      = if c = '"' then .ok ([], r)
        else if c = '\\' then psbEsc r
        else if c.toNat < 0x20 then .error .bad
        else (parseStringBody r).map (fun p => (c :: p.1, p.2)) := by
  rw [parseStringBody.eq_def]

theorem psbEsc_nil : psbEsc [] = .error .eof := rfl

theorem psbEsc_cons (e : Char) (r1 : List Char) :
    psbEsc (e :: r1)
      = if e = 'u' then psbU r1
        else
          match escChar e with
          | some ec => (parseStringBody r1).map (fun p => (ec :: p.1, p.2))
          | none => .error .bad := by
  rw [psbEsc.eq_def]

theorem psbU_four (a b c2 d : Char) (r2 : List Char) :
    psbU (a :: b :: c2 :: d :: r2)
      = (match hex4 a b c2 d with
        | none => .error .bad
        | some n =>
          if n < 0xD800 ∨ 0xE000 ≤ n then
            (parseStringBody r2).map (fun p => (Char.ofNat n :: p.1, p.2))
          else if 0xDC00 ≤ n then .error .bad
          else psbLow n r2) := by
  rw [psbU.eq_def]

theorem psbLow_nil (n : Nat) : psbLow n [] = .error .eof := rfl

theorem psbLow_cons (n : Nat) (c3 : Char) (r2a : List Char) :
    psbLow n (c3 :: r2a)
      = if c3 = '\\' then
          (match r2a with
          | [] => .error .eof
          | c4 :: r2b => if c4 = 'u' then psbLowU n r2b else .error .bad)
        else .error .bad := by
  rw [psbLow.eq_def]

theorem psbLowU_four (n : Nat) (e2 f2 g2 h2 : Char) (r3 : List Char) :
    psbLowU n (e2 :: f2 :: g2 :: h2 :: r3)
      = (match hex4 e2 f2 g2 h2 with
        | none => .error .bad
        | some m =>
          if 0xDC00 ≤ m ∧ m < 0xE000 then
            (parseStringBody r3).map (fun p => (Char.ofNat (surrPair n m) :: p.1, p.2))
          else .error .bad) := by
  rw [psbLowU.eq_def]

/-! ### String-body extension and consumption -/

/-- Complete or hard-failing string-body parses are unchanged by appending
input, for all five mutual stages at once. -/
theorem psb_extend : ∀ (N : Nat),
    (∀ s : List Char, s.length ≤ N → ∀ t : List Char,
      (∀ cs rest, parseStringBody s = .ok (cs, rest) →
          parseStringBody (s ++ t) = .ok (cs, rest ++ t)) ∧
      (parseStringBody s = .error .bad →
          parseStringBody (s ++ t) = .error .bad)) ∧
    (∀ s : List Char, s.length ≤ N → ∀ t : List Char,
      (∀ cs rest, psbEsc s = .ok (cs, rest) → psbEsc (s ++ t) = .ok (cs, rest ++ t)) ∧
      (psbEsc s = .error .bad → psbEsc (s ++ t) = .error .bad)) ∧
    (∀ s : List Char, s.length ≤ N → ∀ t : List Char,
      (∀ cs rest, psbU s = .ok (cs, rest) → psbU (s ++ t) = .ok (cs, rest ++ t)) ∧
      (psbU s = .error .bad → psbU (s ++ t) = .error .bad)) ∧
    (∀ (n : Nat) (s : List Char), s.length ≤ N → ∀ t : List Char,
      (∀ cs rest, psbLow n s = .ok (cs, rest) →
          psbLow n (s ++ t) = .ok (cs, rest ++ t)) ∧
      (psbLow n s = .error .bad → psbLow n (s ++ t) = .error .bad)) ∧
    (∀ (n : Nat) (s : List Char), s.length ≤ N → ∀ t : List Char,
      (∀ cs rest, psbLowU n s = .ok (cs, rest) →
          psbLowU n (s ++ t) = .ok (cs, rest ++ t)) ∧
      (psbLowU n s = .error .bad → psbLowU n (s ++ t) = .error .bad)) := by
  intro N
  induction N using Nat.strong_induction_on with
  | _ N ih =>
    have ihp : ∀ (M : Nat), M < N → ∀ s : List Char, s.length ≤ M →
        ∀ t : List Char,
        (∀ cs rest, parseStringBody s = .ok (cs, rest) →
            parseStringBody (s ++ t) = .ok (cs, rest ++ t)) ∧
        (parseStringBody s = .error .bad →
            parseStringBody (s ++ t) = .error .bad) :=
      fun M hM => (ih M hM).1
    refine ⟨?_, ?_, ?_, ?_, ?_⟩
    · -- parseStringBody
      intro s hN t
      cases s with
      | nil =>
          constructor
          · intro cs rest h
            rw [psb_nil] at h
            cases h
          · intro h
            rw [psb_nil] at h
            cases h
      | cons c r =>
        have hr : r.length ≤ N - 1 := by
          simp only [List.length_cons] at hN
          omega
        have hN1 : N - 1 < N := by
          simp only [List.length_cons] at hN
          omega
        by_cases hq : c = '"'
        · constructor
          · intro cs rest h
            rw [psb_cons, if_pos hq] at h
            injection h with h1
            injection h1 with hcs hrest
            subst hcs hrest
            rw [List.cons_append, psb_cons, if_pos hq]
          · intro h
            rw [psb_cons, if_pos hq] at h
            cases h
        · by_cases hb : c = '\\'
          · constructor
            · intro cs rest h
              rw [psb_cons, if_neg hq, if_pos hb] at h
              rw [List.cons_append, psb_cons, if_neg hq, if_pos hb]
              exact ((ih (N - 1) hN1).2.1 r hr t).1 cs rest h
            · intro h
              rw [psb_cons, if_neg hq, if_pos hb] at h
              rw [List.cons_append, psb_cons, if_neg hq, if_pos hb]
              exact ((ih (N - 1) hN1).2.1 r hr t).2 h
          · by_cases hctl : c.toNat < 0x20
            · constructor
              · intro cs rest h
                rw [psb_cons, if_neg hq, if_neg hb, if_pos hctl] at h
                cases h
              · intro h
                rw [List.cons_append, psb_cons, if_neg hq, if_neg hb, if_pos hctl]
            · constructor
              · intro cs rest h
                rw [psb_cons, if_neg hq, if_neg hb, if_neg hctl] at h
                rw [List.cons_append, psb_cons, if_neg hq, if_neg hb, if_neg hctl]
                cases hps : parseStringBody r with
                | ok p =>
                    rw [hps] at h
                    cases p with
                    | mk pcs prest =>
                      simp only [Except.map] at h
                      injection h with h1
                      injection h1 with hcs hrest
                      subst hcs hrest
                      rw [(ihp (N - 1) hN1 r hr t).1 pcs prest hps]
                      rfl
                | error e2 =>
                    rw [hps] at h
                    simp only [Except.map] at h
                    cases h
              · intro h
                rw [psb_cons, if_neg hq, if_neg hb, if_neg hctl] at h
                rw [List.cons_append, psb_cons, if_neg hq, if_neg hb, if_neg hctl]
                cases hps : parseStringBody r with
                | ok p =>
                    rw [hps] at h
                    simp only [Except.map] at h
                    cases h
                | error e2 =>
                    rw [hps] at h
                    simp only [Except.map] at h
                    injection h with h1
                    subst h1
                    rw [(ihp (N - 1) hN1 r hr t).2 hps]
                    rfl
    · -- psbEsc
      intro s hN t
      cases s with
      | nil =>
          constructor
          · intro cs rest h
            rw [psbEsc_nil] at h
            cases h
          · intro h
            rw [psbEsc_nil] at h
            cases h
      | cons e r1 =>
        have hr : r1.length ≤ N - 1 := by
          simp only [List.length_cons] at hN
          omega
        have hN1 : N - 1 < N := by
          simp only [List.length_cons] at hN
          omega
        by_cases hu : e = 'u'
        · constructor
          · intro cs rest h
            rw [psbEsc_cons, if_pos hu] at h
            rw [List.cons_append, psbEsc_cons, if_pos hu]
            exact ((ih (N - 1) hN1).2.2.1 r1 hr t).1 cs rest h
          · intro h
            rw [psbEsc_cons, if_pos hu] at h
            rw [List.cons_append, psbEsc_cons, if_pos hu]
            exact ((ih (N - 1) hN1).2.2.1 r1 hr t).2 h
        · cases he : escChar e with
          | none =>
              constructor
              · intro cs rest h
                rw [psbEsc_cons, if_neg hu] at h
                rw [he] at h
                cases h
              · intro h
                rw [List.cons_append, psbEsc_cons, if_neg hu, he]
          | some ec =>
            constructor
            · intro cs rest h
              rw [psbEsc_cons, if_neg hu, he] at h
              rw [List.cons_append, psbEsc_cons, if_neg hu, he]
              cases hps : parseStringBody r1 with
              | ok p =>
                  rw [hps] at h
                  cases p with
                  | mk pcs prest =>
                    simp only [Except.map] at h
                    injection h with h1
                    injection h1 with hcs hrest
                    subst hcs hrest
                    rw [(ihp (N - 1) hN1 r1 hr t).1 pcs prest hps]
                    rfl
              | error e2 =>
                  rw [hps] at h
                  simp only [Except.map] at h
                  cases h
            · intro h
              rw [psbEsc_cons, if_neg hu, he] at h
              rw [List.cons_append, psbEsc_cons, if_neg hu, he]
              cases hps : parseStringBody r1 with
              | ok p =>
                  rw [hps] at h
                  simp only [Except.map] at h
                  cases h
              | error e2 =>
                  rw [hps] at h
                  simp only [Except.map] at h
                  injection h with h1
                  subst h1
                  rw [(ihp (N - 1) hN1 r1 hr t).2 hps]
                  rfl
    · -- psbU
      intro s hN t
      match s with
      | [] =>
          exact ⟨(fun cs rest h => nomatch h), (fun h => nomatch h)⟩
      | [a] =>
          exact ⟨(fun cs rest h => nomatch h), (fun h => nomatch h)⟩
      | [a, b] =>
          exact ⟨(fun cs rest h => nomatch h), (fun h => nomatch h)⟩
      | [a, b, c2] =>
          exact ⟨(fun cs rest h => nomatch h), (fun h => nomatch h)⟩
      | a :: b :: c2 :: d :: r2 =>
        have hr : r2.length ≤ N - 1 := by
          simp only [List.length_cons] at hN
          omega
        have hN1 : N - 1 < N := by
          simp only [List.length_cons] at hN
          omega
        cases hx : hex4 a b c2 d with
        | none =>
            constructor
            · intro cs rest h
              rw [psbU_four, hx] at h
              cases h
            · intro h
              simp only [List.cons_append]
              rw [psbU_four, hx]
        | some n =>
          by_cases hn1 : n < 0xD800 ∨ 0xE000 ≤ n
          · constructor
            · intro cs rest h
              rw [psbU_four, hx] at h
              simp only [hn1, if_pos] at h
              simp only [List.cons_append]
              rw [psbU_four, hx]
              simp only [hn1, if_pos]
              cases hps : parseStringBody r2 with
              | ok p =>
                  rw [hps] at h
                  cases p with
                  | mk pcs prest =>
                    simp only [Except.map] at h
                    injection h with h1
                    injection h1 with hcs hrest
                    subst hcs hrest
                    rw [(ihp (N - 1) hN1 r2 hr t).1 pcs prest hps]
                    rfl
              | error e2 =>
                  rw [hps] at h
                  simp only [Except.map] at h
                  cases h
            · intro h
              rw [psbU_four, hx] at h
              simp only [hn1, if_pos] at h
              simp only [List.cons_append]
              rw [psbU_four, hx]
              simp only [hn1, if_pos]
              cases hps : parseStringBody r2 with
              | ok p =>
                  rw [hps] at h
                  simp only [Except.map] at h
                  cases h
              | error e2 =>
                  rw [hps] at h
                  simp only [Except.map] at h
                  injection h with h1
                  subst h1
                  rw [(ihp (N - 1) hN1 r2 hr t).2 hps]
                  rfl
          · by_cases hn2 : 0xDC00 ≤ n
            · constructor
              · intro cs rest h
                rw [psbU_four, hx] at h
                simp only [hn1, hn2, if_neg, if_pos, if_false] at h
                cases h
              · intro h
                simp only [List.cons_append]
                rw [psbU_four, hx]
                simp only [hn1, hn2, if_neg, if_pos, if_false]
            · constructor
              · intro cs rest h
                rw [psbU_four, hx] at h
                simp only [hn1, hn2, if_neg, if_false] at h
                simp only [List.cons_append]
                rw [psbU_four, hx]
                simp only [hn1, hn2, if_neg, if_false]
                exact ((ih (N - 1) hN1).2.2.2.1 n r2 hr t).1 cs rest h
              · intro h
                rw [psbU_four, hx] at h
                simp only [hn1, hn2, if_neg, if_false] at h
                simp only [List.cons_append]
                rw [psbU_four, hx]
                simp only [hn1, hn2, if_neg, if_false]
                exact ((ih (N - 1) hN1).2.2.2.1 n r2 hr t).2 h
    · -- psbLow
      intro n s hN t
      cases s with
      | nil =>
          constructor
          · intro cs rest h
            rw [psbLow_nil] at h
            cases h
          · intro h
            rw [psbLow_nil] at h
            cases h
      | cons c3 r2a =>
        by_cases h3 : c3 = '\\'
        · cases r2a with
          | nil =>
              constructor
              · intro cs rest h
                rw [psbLow_cons, if_pos h3] at h
                cases h
              · intro h
                rw [psbLow_cons, if_pos h3] at h
                cases h
          | cons c4 r2b =>
            have hr : r2b.length ≤ N - 1 := by
              simp only [List.length_cons] at hN
              omega
            have hN1 : N - 1 < N := by
              simp only [List.length_cons] at hN
              omega
            by_cases h4 : c4 = 'u'
            · constructor
              · intro cs rest h
                rw [psbLow_cons, if_pos h3] at h
                simp only [h4, if_pos] at h
                simp only [List.cons_append]
                rw [psbLow_cons, if_pos h3]
                simp only [h4, if_pos]
                exact ((ih (N - 1) hN1).2.2.2.2 n r2b hr t).1 cs rest h
              · intro h
                rw [psbLow_cons, if_pos h3] at h
                simp only [h4, if_pos] at h
                simp only [List.cons_append]
                rw [psbLow_cons, if_pos h3]
                simp only [h4, if_pos]
                exact ((ih (N - 1) hN1).2.2.2.2 n r2b hr t).2 h
            · constructor
              · intro cs rest h
                rw [psbLow_cons, if_pos h3] at h
                simp only [h4, if_false, if_neg] at h
                cases h
              · intro h
                simp only [List.cons_append]
                rw [psbLow_cons, if_pos h3]
                simp only [h4, if_false, if_neg]
        · constructor
          · intro cs rest h
            rw [psbLow_cons, if_neg h3] at h
            cases h
          · intro h
            simp only [List.cons_append]
            rw [psbLow_cons, if_neg h3]
    · -- psbLowU
      intro n s hN t
      match s with
      | [] =>
          exact ⟨(fun cs rest h => nomatch h), (fun h => nomatch h)⟩
      | [e2] =>
          exact ⟨(fun cs rest h => nomatch h), (fun h => nomatch h)⟩
      | [e2, f2] =>
          exact ⟨(fun cs rest h => nomatch h), (fun h => nomatch h)⟩
      | [e2, f2, g2] =>
          exact ⟨(fun cs rest h => nomatch h), (fun h => nomatch h)⟩
      | e2 :: f2 :: g2 :: h2 :: r3 =>
        have hr : r3.length ≤ N - 1 := by
          simp only [List.length_cons] at hN
          omega
        have hN1 : N - 1 < N := by
          simp only [List.length_cons] at hN
          omega
        cases hx : hex4 e2 f2 g2 h2 with
        | none =>
            constructor
            · intro cs rest h
              rw [psbLowU_four, hx] at h
              cases h
            · intro h
              simp only [List.cons_append]
              rw [psbLowU_four, hx]
        | some m =>
          by_cases hm : 0xDC00 ≤ m ∧ m < 0xE000
          · constructor
            · intro cs rest h
              rw [psbLowU_four, hx] at h
              simp only [hm, if_pos] at h
              simp only [List.cons_append]
              rw [psbLowU_four, hx]
              simp only [hm, if_pos]
              cases hps : parseStringBody r3 with
              | ok p =>
                  rw [hps] at h
                  cases p with
                  | mk pcs prest =>
                    simp only [Except.map] at h
                    injection h with h1
                    injection h1 with hcs hrest
                    subst hcs hrest
                    rw [(ihp (N - 1) hN1 r3 hr t).1 pcs prest hps]
                    rfl
              | error e3 =>
                  rw [hps] at h
                  simp only [Except.map] at h
                  cases h
            · intro h
              rw [psbLowU_four, hx] at h
              simp only [hm, if_pos] at h
              simp only [List.cons_append]
              rw [psbLowU_four, hx]
              simp only [hm, if_pos]
              cases hps : parseStringBody r3 with
              | ok p =>
                  rw [hps] at h
                  simp only [Except.map] at h
                  cases h
              | error e3 =>
                  rw [hps] at h
                  simp only [Except.map] at h
                  injection h with h1
                  subst h1
                  rw [(ihp (N - 1) hN1 r3 hr t).2 hps]
                  rfl
          · constructor
            · intro cs rest h
              rw [psbLowU_four, hx] at h
              simp only [hm, if_neg, if_false] at h
              cases h
            · intro h
              simp only [List.cons_append]
              rw [psbLowU_four, hx]
              simp only [hm, if_neg, if_false]

/-- A successful string-body parse consumes at least the closing quote:
the rest is never longer than the input, for all five mutual stages. -/
theorem psb_length : ∀ (N : Nat),
    (∀ s : List Char, s.length ≤ N → ∀ cs rest,
      parseStringBody s = .ok (cs, rest) → rest.length ≤ s.length) ∧
    (∀ s : List Char, s.length ≤ N → ∀ cs rest,
      psbEsc s = .ok (cs, rest) → rest.length ≤ s.length) ∧
    (∀ s : List Char, s.length ≤ N → ∀ cs rest,
      psbU s = .ok (cs, rest) → rest.length ≤ s.length) ∧
    (∀ (n : Nat) (s : List Char), s.length ≤ N → ∀ cs rest,
      psbLow n s = .ok (cs, rest) → rest.length ≤ s.length) ∧
    (∀ (n : Nat) (s : List Char), s.length ≤ N → ∀ cs rest,
      psbLowU n s = .ok (cs, rest) → rest.length ≤ s.length) := by
  intro N
  induction N using Nat.strong_induction_on with
  | _ N ih =>
    refine ⟨?_, ?_, ?_, ?_, ?_⟩
    · intro s hN cs rest h
      cases s with
      | nil => rw [psb_nil] at h; cases h
      | cons c r =>
        have hr : r.length ≤ N - 1 := by
          simp only [List.length_cons] at hN
          omega
        have hN1 : N - 1 < N := by
          simp only [List.length_cons] at hN
          omega
        rw [psb_cons] at h
        by_cases hq : c = '"'
        · rw [if_pos hq] at h
          injection h with h1
          injection h1 with hcs hrest
          subst hrest
          simp
        · rw [if_neg hq] at h
          by_cases hb : c = '\\'
          · rw [if_pos hb] at h
            have := ((ih (N - 1) hN1).2.1) r hr cs rest h
            simp only [List.length_cons]
            omega
          · rw [if_neg hb] at h
            by_cases hctl : c.toNat < 0x20
            · rw [if_pos hctl] at h
              cases h
            · rw [if_neg hctl] at h
              cases hps : parseStringBody r with
              | ok p =>
                  rw [hps] at h
                  simp only [Except.map] at h
                  injection h with h1
                  injection h1 with hcs hrest
                  subst hrest
                  have := ((ih (N - 1) hN1).1) r hr p.1 p.2 hps
                  simp only [List.length_cons]
                  omega
              | error e2 =>
                  rw [hps] at h
                  simp only [Except.map] at h
                  cases h
    · intro s hN cs rest h
      cases s with
      | nil => rw [psbEsc_nil] at h; cases h
      | cons e r1 =>
        have hr : r1.length ≤ N - 1 := by
          simp only [List.length_cons] at hN
          omega
        have hN1 : N - 1 < N := by
          simp only [List.length_cons] at hN
          omega
        rw [psbEsc_cons] at h
        by_cases hu : e = 'u'
        · rw [if_pos hu] at h
          have := ((ih (N - 1) hN1).2.2.1) r1 hr cs rest h
          simp only [List.length_cons]
          omega
        · rw [if_neg hu] at h
          cases he : escChar e with
          | none =>
              rw [he] at h
              cases h
          | some ec =>
              rw [he] at h
              cases hps : parseStringBody r1 with
              | ok p =>
                  rw [hps] at h
                  simp only [Except.map] at h
                  injection h with h1
                  injection h1 with hcs hrest
                  subst hrest
                  have := ((ih (N - 1) hN1).1) r1 hr p.1 p.2 hps
                  simp only [List.length_cons]
                  omega
              | error e2 =>
                  rw [hps] at h
                  simp only [Except.map] at h
                  cases h
    · intro s hN cs rest h
      match s, h with
      | a :: b :: c2 :: d :: r2, h =>
        have hr : r2.length ≤ N - 1 := by
          simp only [List.length_cons] at hN
          omega
        have hN1 : N - 1 < N := by
          simp only [List.length_cons] at hN
          omega
        cases hx : hex4 a b c2 d with
        | none =>
            rw [psbU_four, hx] at h
            cases h
        | some n =>
            rw [psbU_four, hx] at h
            by_cases hn1 : n < 0xD800 ∨ 0xE000 ≤ n
            · simp only [hn1, if_pos] at h
              cases hps : parseStringBody r2 with
              | ok p =>
                  rw [hps] at h
                  simp only [Except.map] at h
                  injection h with h1
                  injection h1 with hcs hrest
                  subst hrest
                  have := ((ih (N - 1) hN1).1) r2 hr p.1 p.2 hps
                  simp only [List.length_cons]
                  omega
              | error e2 =>
                  rw [hps] at h
                  simp only [Except.map] at h
                  cases h
            · by_cases hn2 : 0xDC00 ≤ n
              · simp only [hn1, hn2, if_neg, if_pos, if_false] at h
                cases h
              · simp only [hn1, hn2, if_neg, if_false] at h
                have := ((ih (N - 1) hN1).2.2.2.1) n r2 hr cs rest h
                simp only [List.length_cons]
                omega
    · intro n s hN cs rest h
      cases s with
      | nil => rw [psbLow_nil] at h; cases h
      | cons c3 r2a =>
        rw [psbLow_cons] at h
        by_cases h3 : c3 = '\\'
        · rw [if_pos h3] at h
          cases r2a with
          | nil => cases h
          | cons c4 r2b =>
            have hr : r2b.length ≤ N - 1 := by
              simp only [List.length_cons] at hN
              omega
            have hN1 : N - 1 < N := by
              simp only [List.length_cons] at hN
              omega
            by_cases h4 : c4 = 'u'
            · simp only [h4, if_pos] at h
              have := ((ih (N - 1) hN1).2.2.2.2) n r2b hr cs rest h
              simp only [List.length_cons]
              omega
            · simp only [h4, if_false, if_neg] at h
              cases h
        · rw [if_neg h3] at h
          cases h
    · intro n s hN cs rest h
      match s, h with
      | e2 :: f2 :: g2 :: h2 :: r3, h =>
        have hr : r3.length ≤ N - 1 := by
          simp only [List.length_cons] at hN
          omega
        have hN1 : N - 1 < N := by
          simp only [List.length_cons] at hN
          omega
        cases hx : hex4 e2 f2 g2 h2 with
        | none =>
            rw [psbLowU_four, hx] at h
            cases h
        | some m =>
            rw [psbLowU_four, hx] at h
            by_cases hm : 0xDC00 ≤ m ∧ m < 0xE000
            · simp only [hm, if_pos] at h
              cases hps : parseStringBody r3 with
              | ok p =>
                  rw [hps] at h
                  simp only [Except.map] at h
                  injection h with h1
                  injection h1 with hcs hrest
                  subst hrest
                  have := ((ih (N - 1) hN1).1) r3 hr p.1 p.2 hps
                  simp only [List.length_cons]
                  omega
              | error e3 =>
                  rw [hps] at h
                  simp only [Except.map] at h
                  cases h
            · simp only [hm, if_neg, if_false] at h
              cases h

/-! ### Number-chain extension and consumption -/

theorem ped_extend_ok (neg : Bool) (mant fracLen : Nat) (eneg : Bool) :
    ∀ (s : List Char) {num : JNum} {c : Char} {r : List Char} (t : List Char),
    parseExpDigits neg mant fracLen eneg s = .ok (num, c :: r) →
    parseExpDigits neg mant fracLen eneg (s ++ t) = .ok (num, c :: (r ++ t)) := by
  intro s num c r t h
  cases s with
  | nil => cases h
  | cons c0 r0 =>
      cases hd : digVal c0 with
      | none =>
          simp only [parseExpDigits, hd] at h
          cases h
      | some d =>
          simp only [parseExpDigits, hd] at h ⊢
          cases hq : takeDigits r0 with
          | mk ds rest0 =>
              rw [hq] at h
              simp only at h
              injection h with h1
              injection h1 with hnum hrest
              subst hnum
              subst hrest
              rw [List.cons_append]
              simp only [parseExpDigits, hd]
              rw [takeDigits_extend r0 t hq]

theorem ped_extend_bad (neg : Bool) (mant fracLen : Nat) (eneg : Bool) :
    ∀ (s : List Char) (t : List Char),
    parseExpDigits neg mant fracLen eneg s = .error .bad →
    parseExpDigits neg mant fracLen eneg (s ++ t) = .error .bad := by
  intro s t h
  cases s with
  | nil => cases h
  | cons c0 r0 =>
      cases hd : digVal c0 with
      | none =>
          rw [List.cons_append]
          simp only [parseExpDigits, hd]
      | some d =>
          simp only [parseExpDigits, hd] at h
          cases hq : takeDigits r0 with
          | mk ds rest0 =>
              rw [hq] at h
              simp only at h
              cases h

theorem ped_length (neg : Bool) (mant fracLen : Nat) (eneg : Bool) :
    ∀ (s : List Char) {num : JNum} {rest : List Char},
    parseExpDigits neg mant fracLen eneg s = .ok (num, rest) →
    rest.length ≤ s.length := by
  intro s num rest h
  cases s with
  | nil => cases h
  | cons c0 r0 =>
      cases hd : digVal c0 with
      | none =>
          simp only [parseExpDigits, hd] at h
          cases h
      | some d =>
          simp only [parseExpDigits, hd] at h
          injection h with h1
          injection h1 with hnum hrest
          subst hrest
          have := takeDigits_length r0
          simp only [List.length_cons]
          omega

theorem pep_extend_ok (neg : Bool) (mant fracLen : Nat) (isFloat : Bool) :
    ∀ (s : List Char) {num : JNum} {c : Char} {r : List Char} (t : List Char),
    parseExpPart neg mant fracLen isFloat s = .ok (num, c :: r) →
    parseExpPart neg mant fracLen isFloat (s ++ t) = .ok (num, c :: (r ++ t)) := by
  intro s num c r t h
  cases s with
  | nil =>
      simp only [parseExpPart] at h
      cases isFloat <;> simp only [if_true, if_false, Bool.false_eq_true] at h <;>
        (injection h with h1; injection h1 with hnum hrest; cases hrest)
  | cons c0 r0 =>
      by_cases he : c0 = 'e' ∨ c0 = 'E'
      · simp only [parseExpPart, he, if_pos] at h
        rw [List.cons_append]
        simp only [parseExpPart, he, if_pos]
        cases r0 with
        | nil =>
            simp only at h
            cases h
        | cons c1 r1 =>
            by_cases hp : c1 = '+'
            · subst hp
              simp only at h ⊢
              exact ped_extend_ok neg mant fracLen false r1 t h
            · by_cases hm : c1 = '-'
              · subst hm
                simp only at h ⊢
                exact ped_extend_ok neg mant fracLen true r1 t h
              · split at h
                · next heq =>
                    injection heq with hc
                    exact absurd hc hp
                · next heq =>
                    injection heq with hc
                    exact absurd hc hm
                · split
                  · next heq =>
                      injection heq with hc
                      exact absurd hc hp
                  · next heq =>
                      injection heq with hc
                      exact absurd hc hm
                  · exact ped_extend_ok neg mant fracLen false (c1 :: r1) t h
      · simp only [parseExpPart, he, if_neg, if_false] at h
        rw [List.cons_append]
        simp only [parseExpPart, he, if_neg, if_false]
        cases isFloat with
        | true =>
            simp only [if_true] at h ⊢
            injection h with h1
            injection h1 with hnum hrest
            subst hnum
            cases hrest
            rfl
        | false =>
            simp only [Bool.false_eq_true, if_false] at h ⊢
            injection h with h1
            injection h1 with hnum hrest
            subst hnum
            cases hrest
            rfl

theorem pep_extend_bad (neg : Bool) (mant fracLen : Nat) (isFloat : Bool) :
    ∀ (s : List Char) (t : List Char),
    parseExpPart neg mant fracLen isFloat s = .error .bad →
    parseExpPart neg mant fracLen isFloat (s ++ t) = .error .bad := by
  intro s t h
  cases s with
  | nil =>
      simp only [parseExpPart] at h
      cases isFloat <;> simp only [if_true, if_false, Bool.false_eq_true] at h <;>
        cases h
  | cons c0 r0 =>
      by_cases he : c0 = 'e' ∨ c0 = 'E'
      · simp only [parseExpPart, he, if_pos] at h
        rw [List.cons_append]
        simp only [parseExpPart, he, if_pos]
        cases r0 with
        | nil =>
            simp only at h
            cases h
        | cons c1 r1 =>
            by_cases hp : c1 = '+'
            · subst hp
              simp only at h ⊢
              exact ped_extend_bad neg mant fracLen false r1 t h
            · by_cases hm : c1 = '-'
              · subst hm
                simp only at h ⊢
                exact ped_extend_bad neg mant fracLen true r1 t h
              · split at h
                · next heq =>
                    injection heq with hc
                    exact absurd hc hp
                · next heq =>
                    injection heq with hc
                    exact absurd hc hm
                · split
                  · next heq =>
                      injection heq with hc
                      exact absurd hc hp
                  · next heq =>
                      injection heq with hc
                      exact absurd hc hm
                  · exact ped_extend_bad neg mant fracLen false (c1 :: r1) t h
      · simp only [parseExpPart, he, if_neg, if_false] at h
        cases isFloat <;> simp only [if_true, if_false, Bool.false_eq_true] at h <;>
          cases h

theorem pep_length (neg : Bool) (mant fracLen : Nat) (isFloat : Bool) :
    ∀ (s : List Char) {num : JNum} {rest : List Char},
    parseExpPart neg mant fracLen isFloat s = .ok (num, rest) →
    rest.length ≤ s.length := by
  intro s num rest h
  cases s with
  | nil =>
      simp only [parseExpPart] at h
      cases isFloat <;> simp only [if_true, if_false, Bool.false_eq_true] at h <;>
        (injection h with h1; injection h1 with hnum hrest; subst hrest; simp)
  | cons c0 r0 =>
      by_cases he : c0 = 'e' ∨ c0 = 'E'
      · simp only [parseExpPart, he, if_pos] at h
        cases r0 with
        | nil =>
            simp only at h
            cases h
        | cons c1 r1 =>
            by_cases hp : c1 = '+'
            · subst hp
              simp only at h
              have := ped_length neg mant fracLen false r1 h
              simp only [List.length_cons]
              omega
            · by_cases hm : c1 = '-'
              · subst hm
                simp only at h
                have := ped_length neg mant fracLen true r1 h
                simp only [List.length_cons]
                omega
              · split at h
                · next heq =>
                    injection heq with hc
                    exact absurd hc hp
                · next heq =>
                    injection heq with hc
                    exact absurd hc hm
                · have := ped_length neg mant fracLen false (c1 :: r1) h
                  simp only [List.length_cons] at this ⊢
                  omega
      · simp only [parseExpPart, he, if_neg, if_false] at h
        cases isFloat <;> simp only [if_true, if_false, Bool.false_eq_true] at h <;>
          (injection h with h1; injection h1 with hnum hrest; subst hrest;
            exact Nat.le_refl _)

theorem pnt_nil (neg : Bool) (ip : Nat) :
    parseNumTail neg ip [] = .ok (mkIntNum neg ip, []) := rfl

theorem pnt_not_dot (neg : Bool) (ip : Nat) (c : Char) (r : List Char)
    (h : ¬c = '.') :
    parseNumTail neg ip (c :: r) = parseExpPart neg ip 0 false (c :: r) := by
  rw [parseNumTail.eq_def]
  split
  · next heq =>
      injection heq with hc
      exact absurd hc h
  · rfl

theorem pnt_extend_ok (neg : Bool) (ip : Nat) :
    ∀ (s : List Char) {num : JNum} {c : Char} {r : List Char} (t : List Char),
    parseNumTail neg ip s = .ok (num, c :: r) →
    parseNumTail neg ip (s ++ t) = .ok (num, c :: (r ++ t)) := by
  intro s num c r t h
  cases s with
  | nil =>
      rw [pnt_nil] at h
      injection h with h1
      injection h1 with hnum hrest
      cases hrest
  | cons c0 r0 =>
      by_cases hdot : c0 = '.'
      · subst hdot
        cases r0 with
        | nil =>
            simp only [parseNumTail] at h
            cases h
        | cons c1 r1 =>
            cases hd : digVal c1 with
            | none =>
                simp only [parseNumTail, hd] at h
                cases h
            | some d =>
                simp only [parseNumTail, hd] at h
                rw [List.cons_append, List.cons_append]
                simp only [parseNumTail, hd]
                cases hq : takeDigits r1 with
                | mk ds rest1 =>
                    rw [hq] at h
                    simp only at h
                    cases rest1 with
                    | nil =>
                        rw [show parseExpPart neg
                            (ip * 10 ^ (d :: ds).length + digitsToNat (d :: ds))
                            (d :: ds).length true [] = .ok (.floatLit
                              (f64OfDecimal neg
                                (ip * 10 ^ (d :: ds).length + digitsToNat (d :: ds))
                                (-((d :: ds).length : Int))), []) from rfl] at h
                        injection h with h1
                        injection h1 with hnum hrest
                        cases hrest
                    | cons c2 r2 =>
                        rw [takeDigits_extend r1 t hq]
                        simp only
                        exact pep_extend_ok neg _ _ true (c2 :: r2) t h
      · rw [pnt_not_dot neg ip c0 r0 hdot] at h
        rw [List.cons_append, pnt_not_dot neg ip c0 _ hdot]
        have := pep_extend_ok neg ip 0 false (c0 :: r0) t h
        rw [List.cons_append] at this
        exact this

theorem pnt_extend_bad (neg : Bool) (ip : Nat) :
    ∀ (s : List Char) (t : List Char),
    parseNumTail neg ip s = .error .bad →
    parseNumTail neg ip (s ++ t) = .error .bad := by
  intro s t h
  cases s with
  | nil =>
      rw [pnt_nil] at h
      cases h
  | cons c0 r0 =>
      by_cases hdot : c0 = '.'
      · subst hdot
        cases r0 with
        | nil =>
            simp only [parseNumTail] at h
            cases h
        | cons c1 r1 =>
            cases hd : digVal c1 with
            | none =>
                rw [List.cons_append, List.cons_append]
                simp only [parseNumTail, hd]
            | some d =>
                simp only [parseNumTail, hd] at h
                rw [List.cons_append, List.cons_append]
                simp only [parseNumTail, hd]
                cases hq : takeDigits r1 with
                | mk ds rest1 =>
                    rw [hq] at h
                    simp only at h
                    cases rest1 with
                    | nil =>
                        rw [show parseExpPart neg
                            (ip * 10 ^ (d :: ds).length + digitsToNat (d :: ds))
                            (d :: ds).length true [] = .ok (.floatLit
                              (f64OfDecimal neg
                                (ip * 10 ^ (d :: ds).length + digitsToNat (d :: ds))
                                (-((d :: ds).length : Int))), []) from rfl] at h
                        cases h
                    | cons c2 r2 =>
                        rw [takeDigits_extend r1 t hq]
                        simp only
                        exact pep_extend_bad neg _ _ true (c2 :: r2) t h
      · rw [pnt_not_dot neg ip c0 r0 hdot] at h
        rw [List.cons_append, pnt_not_dot neg ip c0 _ hdot]
        have := pep_extend_bad neg ip 0 false (c0 :: r0) t h
        rw [List.cons_append] at this
        exact this

theorem pnt_length (neg : Bool) (ip : Nat) :
    ∀ (s : List Char) {num : JNum} {rest : List Char},
    parseNumTail neg ip s = .ok (num, rest) → rest.length ≤ s.length := by
  intro s num rest h
  cases s with
  | nil =>
      rw [pnt_nil] at h
      injection h with h1
      injection h1 with hnum hrest
      subst hrest
      exact Nat.le_refl _
  | cons c0 r0 =>
      by_cases hdot : c0 = '.'
      · subst hdot
        cases r0 with
        | nil =>
            simp only [parseNumTail] at h
            cases h
        | cons c1 r1 =>
            cases hd : digVal c1 with
            | none =>
                simp only [parseNumTail, hd] at h
                cases h
            | some d =>
                simp only [parseNumTail, hd] at h
                have hpl := pep_length neg
                  (ip * 10 ^ (d :: (takeDigits r1).1).length
                    + digitsToNat (d :: (takeDigits r1).1))
                  (d :: (takeDigits r1).1).length true (takeDigits r1).2 h
                have htl := takeDigits_length r1
                simp only [List.length_cons]
                omega
      · rw [pnt_not_dot neg ip c0 r0 hdot] at h
        exact pep_length neg ip 0 false (c0 :: r0) h

theorem pnas_extend_ok (neg : Bool) :
    ∀ (s : List Char) {num : JNum} {c : Char} {r : List Char} (t : List Char),
    parseNumberAfterSign neg s = .ok (num, c :: r) →
    parseNumberAfterSign neg (s ++ t) = .ok (num, c :: (r ++ t)) := by
  intro s num c r t h
  cases s with
  | nil => cases h
  | cons c0 r0 =>
      cases hd : digVal c0 with
      | none =>
          simp only [parseNumberAfterSign, hd] at h
          cases h
      | some d0 =>
          simp only [parseNumberAfterSign, hd] at h
          rw [List.cons_append]
          simp only [parseNumberAfterSign, hd]
          by_cases h0 : d0 = 0
          · simp only [h0, if_pos] at h ⊢
            cases r0 with
            | nil =>
                rw [pnt_nil] at h
                injection h with h1
                injection h1 with hnum hrest
                cases hrest
            | cons c2 r2 =>
                simp only [List.cons_append]
                by_cases hd2 : (digVal c2).isSome
                · simp only [hd2, if_pos] at h
                  cases h
                · simp only [hd2, if_neg, Bool.not_eq_true, if_false] at h ⊢
                  have := pnt_extend_ok neg 0 (c2 :: r2) t h
                  rw [List.cons_append] at this
                  exact this
          · simp only [h0, if_neg, if_false] at h ⊢
            cases hq : takeDigits r0 with
            | mk ds rest0 =>
                rw [hq] at h
                simp only at h
                cases rest0 with
                | nil =>
                    rw [pnt_nil] at h
                    injection h with h1
                    injection h1 with hnum hrest
                    cases hrest
                | cons c2 r2 =>
                    rw [takeDigits_extend r0 t hq]
                    simp only
                    exact pnt_extend_ok neg (digitsToNat (d0 :: ds)) (c2 :: r2) t h

theorem pnas_extend_bad (neg : Bool) :
    ∀ (s : List Char) (t : List Char),
    parseNumberAfterSign neg s = .error .bad →
    parseNumberAfterSign neg (s ++ t) = .error .bad := by
  intro s t h
  cases s with
  | nil => cases h
  | cons c0 r0 =>
      cases hd : digVal c0 with
      | none =>
          rw [List.cons_append]
          simp only [parseNumberAfterSign, hd]
      | some d0 =>
          simp only [parseNumberAfterSign, hd] at h
          rw [List.cons_append]
          simp only [parseNumberAfterSign, hd]
          by_cases h0 : d0 = 0
          · simp only [h0, if_pos] at h ⊢
            cases r0 with
            | nil =>
                rw [pnt_nil] at h
                cases h
            | cons c2 r2 =>
                simp only [List.cons_append]
                by_cases hd2 : (digVal c2).isSome
                · simp only [hd2, if_pos] at h ⊢
                · simp only [hd2, if_neg, Bool.not_eq_true, if_false] at h ⊢
                  have := pnt_extend_bad neg 0 (c2 :: r2) t h
                  rw [List.cons_append] at this
                  exact this
          · simp only [h0, if_neg, if_false] at h ⊢
            cases hq : takeDigits r0 with
            | mk ds rest0 =>
                rw [hq] at h
                simp only at h
                cases rest0 with
                | nil =>
                    rw [pnt_nil] at h
                    cases h
                | cons c2 r2 =>
                    rw [takeDigits_extend r0 t hq]
                    simp only
                    exact pnt_extend_bad neg (digitsToNat (d0 :: ds)) (c2 :: r2) t h

theorem pnas_length (neg : Bool) :
    ∀ (s : List Char) {num : JNum} {rest : List Char},
    parseNumberAfterSign neg s = .ok (num, rest) → rest.length < s.length := by
  intro s num rest h
  cases s with
  | nil => cases h
  | cons c0 r0 =>
      cases hd : digVal c0 with
      | none =>
          simp only [parseNumberAfterSign, hd] at h
          cases h
      | some d0 =>
          simp only [parseNumberAfterSign, hd] at h
          by_cases h0 : d0 = 0
          · simp only [h0, if_pos] at h
            cases r0 with
            | nil =>
                rw [pnt_nil] at h
                injection h with h1
                injection h1 with hnum hrest
                subst hrest
                simp
            | cons c2 r2 =>
                by_cases hd2 : (digVal c2).isSome
                · simp only [hd2, if_pos] at h
                  cases h
                · simp only [hd2, if_neg, Bool.not_eq_true, if_false] at h
                  have := pnt_length neg 0 (c2 :: r2) h
                  simp only [List.length_cons] at this ⊢
                  omega
          · simp only [h0, if_neg, if_false] at h
            have hpl := pnt_length neg (digitsToNat (d0 :: (takeDigits r0).1))
              (takeDigits r0).2 h
            have htl := takeDigits_length r0
            simp only [List.length_cons]
            omega

/-! ### Parser fuel monotonicity -/

/-- A settled parse (success or failure) is stable under extra fuel, for
the three mutual parsers at once. -/
theorem parse_mono : ∀ (fuel : Nat),
    (∀ s x, parseValue fuel s = some x → parseValue (fuel + 1) s = some x) ∧
    (∀ s acc x, parseElems fuel s acc = some x →
        parseElems (fuel + 1) s acc = some x) ∧
    (∀ s acc x, parseMembers fuel s acc = some x →
        parseMembers (fuel + 1) s acc = some x) := by
  intro fuel
  induction fuel with
  | zero =>
      refine ⟨?_, ?_, ?_⟩
      · intro s x h
        cases h
      · intro s acc x h
        cases h
      · intro s acc x h
        cases h
  | succ fuel ih =>
      obtain ⟨ihv, ihe, ihm⟩ := ih
      refine ⟨?_, ?_, ?_⟩
      · intro s x h
        simp only [parseValue] at h ⊢
        cases hsw : skipWs s with
        | nil =>
            simp only [hsw] at h ⊢
            exact h
        | cons c r =>
            simp only [hsw] at h ⊢
            by_cases hn : c = 'n'
            · rw [if_pos hn] at h ⊢
              exact h
            · rw [if_neg hn] at h ⊢
              by_cases ht : c = 't'
              · rw [if_pos ht] at h ⊢
                exact h
              · rw [if_neg ht] at h ⊢
                by_cases hf : c = 'f'
                · rw [if_pos hf] at h ⊢
                  exact h
                · rw [if_neg hf] at h ⊢
                  by_cases hq : c = '"'
                  · rw [if_pos hq] at h ⊢
                    exact h
                  · rw [if_neg hq] at h ⊢
                    by_cases hms : c = '-'
                    · rw [if_pos hms] at h ⊢
                      exact h
                    · rw [if_neg hms] at h ⊢
                      by_cases hdg : (digVal c).isSome = true
                      · rw [if_pos hdg] at h ⊢
                        exact h
                      · rw [if_neg hdg] at h ⊢
                        by_cases hlb : c = '['
                        · rw [if_pos hlb] at h ⊢
                          cases hsw2 : skipWs r with
                          | nil =>
                              simp only [hsw2] at h ⊢
                              exact h
                          | cons c2 r2 =>
                              simp only [hsw2] at h ⊢
                              by_cases hrb : c2 = ']'
                              · rw [if_pos hrb] at h ⊢
                                exact h
                              · rw [if_neg hrb] at h ⊢
                                exact ihe (c2 :: r2) [] x h
                        · rw [if_neg hlb] at h ⊢
                          by_cases hcb : c = '{'
                          · rw [if_pos hcb] at h ⊢
                            cases hsw2 : skipWs r with
                            | nil =>
                                simp only [hsw2] at h ⊢
                                exact h
                            | cons c2 r2 =>
                                simp only [hsw2] at h ⊢
                                by_cases hrb : c2 = '}'
                                · rw [if_pos hrb] at h ⊢
                                  exact h
                                · rw [if_neg hrb] at h ⊢
                                  exact ihm (c2 :: r2) [] x h
                          · rw [if_neg hcb] at h ⊢
                            exact h
      · intro s acc x h
        simp only [parseElems] at h ⊢
        cases hpv : parseValue fuel s with
        | none =>
            rw [hpv] at h
            cases h
        | some res =>
            rw [hpv] at h
            rw [ihv s res hpv]
            cases res with
            | error e =>
                simp only at h ⊢
                exact h
            | ok vr =>
                cases vr with
                | mk v r =>
                    simp only at h ⊢
                    cases hsw : skipWs r with
                    | nil =>
                        simp only [hsw] at h ⊢
                        exact h
                    | cons c2 r2 =>
                        simp only [hsw] at h ⊢
                        by_cases hcm : c2 = ','
                        · rw [if_pos hcm] at h ⊢
                          exact ihe r2 (acc ++ [v]) x h
                        · rw [if_neg hcm] at h ⊢
                          by_cases hrb : c2 = ']'
                          · rw [if_pos hrb] at h ⊢
                            exact h
                          · rw [if_neg hrb] at h ⊢
                            exact h
      · intro s acc x h
        simp only [parseMembers] at h ⊢
        cases s with
        | nil =>
            simp only at h ⊢
            exact h
        | cons c0 r0 =>
            simp only at h ⊢
            by_cases hq0 : c0 = '"'
            · rw [if_pos hq0] at h ⊢
              cases hpb : parseStringBody r0 with
              | error e =>
                  simp only [hpb] at h ⊢
                  exact h
              | ok kp =>
                  cases kp with
                  | mk kcs r1 =>
                    simp only [hpb] at h ⊢
                    cases hsw : skipWs r1 with
                    | nil =>
                        simp only [hsw] at h ⊢
                        exact h
                    | cons c1 r2 =>
                        simp only [hsw] at h ⊢
                        by_cases hcl : c1 = ':'
                        · rw [if_pos hcl] at h ⊢
                          cases hpv : parseValue fuel r2 with
                          | none =>
                              rw [hpv] at h
                              cases h
                          | some res =>
                              rw [hpv] at h
                              rw [ihv r2 res hpv]
                              cases res with
                              | error e =>
                                  simp only at h ⊢
                                  exact h
                              | ok vr =>
                                  cases vr with
                                  | mk v r3 =>
                                    simp only at h ⊢
                                    cases hsw3 : skipWs r3 with
                                    | nil =>
                                        simp only [hsw3] at h ⊢
                                        exact h
                                    | cons c3 r4 =>
                                        simp only [hsw3] at h ⊢
                                        by_cases hc3 : c3 = ','
                                        · rw [if_pos hc3] at h ⊢
                                          cases hsw4 : skipWs r4 with
                                          | nil =>
                                              simp only [hsw4] at h ⊢
                                              exact h
                                          | cons c5 r5 =>
                                              simp only [hsw4] at h ⊢
                                              by_cases h5 : c5 = '"'
                                              · rw [if_pos h5] at h ⊢
                                                exact ihm (c5 :: r5) _ x h
                                              · rw [if_neg h5] at h ⊢
                                                exact h
                                        · rw [if_neg hc3] at h ⊢
                                          by_cases hcb : c3 = '}'
                                          · rw [if_pos hcb] at h ⊢
                                            exact h
                                          · rw [if_neg hcb] at h ⊢
                                            exact h
                        · rw [if_neg hcl] at h ⊢
                          exact h
            · rw [if_neg hq0] at h ⊢
              exact h

/-- Fuel monotonicity, lifted to any larger fuel. -/
theorem parseValue_mono_le (f1 f2 : Nat) (hle : f1 ≤ f2) :
    ∀ {s x}, parseValue f1 s = some x → parseValue f2 s = some x := by
  induction f2 with
  | zero =>
      intro s x h
      have hf : f1 = 0 := by omega
      subst hf
      exact h
  | succ f2 ih =>
      intro s x h
      by_cases heq : f1 = f2 + 1
      · subst heq
        exact h
      · exact (parse_mono f2).1 s x (ih (by omega) h)

/-! ### Parser consumption -/

/-- A successful parse consumes at least one character, for the three
mutual parsers at once. -/
theorem parse_consume : ∀ (fuel : Nat),
    (∀ s v r, parseValue fuel s = some (.ok (v, r)) → r.length < s.length) ∧
    (∀ s acc v r, parseElems fuel s acc = some (.ok (v, r)) → r.length < s.length) ∧
    (∀ s acc v r, parseMembers fuel s acc = some (.ok (v, r)) →
        r.length < s.length) := by
  intro fuel
  induction fuel with
  | zero =>
      refine ⟨?_, ?_, ?_⟩
      · intro s v r h
        cases h
      · intro s acc v r h
        cases h
      · intro s acc v r h
        cases h
  | succ fuel ih =>
      obtain ⟨ihv, ihe, ihm⟩ := ih
      refine ⟨?_, ?_, ?_⟩
      · intro s v r h
        simp only [parseValue] at h
        cases hsw : skipWs s with
        | nil =>
            simp only [hsw] at h
            cases h
        | cons c rr =>
            have hlen : rr.length + 1 ≤ s.length := by
              have := skipWs_length s
              rw [hsw] at this
              simpa using this
            simp only [hsw] at h
            by_cases hn : c = 'n'
            · rw [if_pos hn] at h
              injection h with h1
              cases hel : expectLit ['u', 'l', 'l'] rr with
              | error e =>
                  rw [hel] at h1
                  cases h1
              | ok rest =>
                  rw [hel] at h1
                  simp only [Except.map] at h1
                  injection h1 with h2
                  injection h2 with hv hr
                  subst hr
                  have := expectLit_length ['u', 'l', 'l'] rr rest hel
                  omega
            · rw [if_neg hn] at h
              by_cases ht : c = 't'
              · rw [if_pos ht] at h
                injection h with h1
                cases hel : expectLit ['r', 'u', 'e'] rr with
                | error e =>
                    rw [hel] at h1
                    cases h1
                | ok rest =>
                    rw [hel] at h1
                    simp only [Except.map] at h1
                    injection h1 with h2
                    injection h2 with hv hr
                    subst hr
                    have := expectLit_length ['r', 'u', 'e'] rr rest hel
                    omega
              · rw [if_neg ht] at h
                by_cases hf : c = 'f'
                · rw [if_pos hf] at h
                  injection h with h1
                  cases hel : expectLit ['a', 'l', 's', 'e'] rr with
                  | error e =>
                      rw [hel] at h1
                      cases h1
                  | ok rest =>
                      rw [hel] at h1
                      simp only [Except.map] at h1
                      injection h1 with h2
                      injection h2 with hv hr
                      subst hr
                      have := expectLit_length ['a', 'l', 's', 'e'] rr rest hel
                      omega
                · rw [if_neg hf] at h
                  by_cases hq : c = '"'
                  · rw [if_pos hq] at h
                    injection h with h1
                    cases hps : parseStringBody rr with
                    | error e =>
                        rw [hps] at h1
                        cases h1
                    | ok p =>
                        rw [hps] at h1
                        cases p with
                        | mk cs rest =>
                          simp only [Except.map] at h1
                          injection h1 with h2
                          injection h2 with hv hr
                          subst hr
                          have := (psb_length rr.length).1 rr (Nat.le_refl _)
                            cs rest hps
                          omega
                  · rw [if_neg hq] at h
                    by_cases hms : c = '-'
                    · rw [if_pos hms] at h
                      injection h with h1
                      cases hpn : parseNumberAfterSign true rr with
                      | error e =>
                          rw [hpn] at h1
                          cases h1
                      | ok p =>
                          rw [hpn] at h1
                          cases p with
                          | mk num rest =>
                            simp only [Except.map] at h1
                            injection h1 with h2
                            injection h2 with hv hr
                            subst hr
                            have := pnas_length true rr hpn
                            omega
                    · rw [if_neg hms] at h
                      by_cases hdg : (digVal c).isSome = true
                      · rw [if_pos hdg] at h
                        injection h with h1
                        cases hpn : parseNumberAfterSign false (c :: rr) with
                        | error e =>
                            rw [hpn] at h1
                            cases h1
                        | ok p =>
                            rw [hpn] at h1
                            cases p with
                            | mk num rest =>
                              simp only [Except.map] at h1
                              injection h1 with h2
                              injection h2 with hv hr
                              subst hr
                              have := pnas_length false (c :: rr) hpn
                              simp only [List.length_cons] at this
                              omega
                      · rw [if_neg hdg] at h
                        by_cases hlb : c = '['
                        · rw [if_pos hlb] at h
                          cases hsw2 : skipWs rr with
                          | nil =>
                              simp only [hsw2] at h
                              cases h
                          | cons c2 r2 =>
                              have hlen2 : r2.length + 1 ≤ rr.length := by
                                have := skipWs_length rr
                                rw [hsw2] at this
                                simpa using this
                              simp only [hsw2] at h
                              by_cases hrb : c2 = ']'
                              · rw [if_pos hrb] at h
                                injection h with h1
                                injection h1 with h2
                                injection h2 with hv hr
                                subst hr
                                omega
                              · rw [if_neg hrb] at h
                                have := ihe (c2 :: r2) [] v r h
                                simp only [List.length_cons] at this
                                omega
                        · rw [if_neg hlb] at h
                          by_cases hcb : c = '{'
                          · rw [if_pos hcb] at h
                            cases hsw2 : skipWs rr with
                            | nil =>
                                simp only [hsw2] at h
                                cases h
                            | cons c2 r2 =>
                                have hlen2 : r2.length + 1 ≤ rr.length := by
                                  have := skipWs_length rr
                                  rw [hsw2] at this
                                  simpa using this
                                simp only [hsw2] at h
                                by_cases hrb : c2 = '}'
                                · rw [if_pos hrb] at h
                                  injection h with h1
                                  injection h1 with h2
                                  injection h2 with hv hr
                                  subst hr
                                  omega
                                · rw [if_neg hrb] at h
                                  have := ihm (c2 :: r2) [] v r h
                                  simp only [List.length_cons] at this
                                  omega
                          · rw [if_neg hcb] at h
                            injection h with h1
                            cases h1
      · intro s acc v r h
        simp only [parseElems] at h
        cases hpv : parseValue fuel s with
        | none =>
            rw [hpv] at h
            cases h
        | some res =>
            rw [hpv] at h
            cases res with
            | error e =>
                simp only at h
                injection h with h1
                cases h1
            | ok vr =>
                cases vr with
                | mk v0 r0 =>
                    simp only at h
                    have hv0 := ihv s v0 r0 hpv
                    cases hsw : skipWs r0 with
                    | nil =>
                        simp only [hsw] at h
                        injection h with h1
                        cases h1
                    | cons c2 r2 =>
                        have hlen2 : r2.length + 1 ≤ r0.length := by
                          have := skipWs_length r0
                          rw [hsw] at this
                          simpa using this
                        simp only [hsw] at h
                        by_cases hcm : c2 = ','
                        · rw [if_pos hcm] at h
                          have := ihe r2 (acc ++ [v0]) v r h
                          omega
                        · rw [if_neg hcm] at h
                          by_cases hrb : c2 = ']'
                          · rw [if_pos hrb] at h
                            injection h with h1
                            injection h1 with h2
                            injection h2 with hv hr
                            subst hr
                            omega
                          · rw [if_neg hrb] at h
                            injection h with h1
                            cases h1
      · intro s acc v r h
        simp only [parseMembers] at h
        cases s with
        | nil =>
            simp only at h
            injection h with h1
            cases h1
        | cons c0 r0 =>
            simp only at h
            by_cases hq0 : c0 = '"'
            · rw [if_pos hq0] at h
              cases hpb : parseStringBody r0 with
              | error e =>
                  simp only [hpb] at h
                  injection h with h1
                  cases h1
              | ok kp =>
                  cases kp with
                  | mk kcs r1 =>
                    have hr1 := (psb_length r0.length).1 r0 (Nat.le_refl _)
                      kcs r1 hpb
                    simp only [hpb] at h
                    cases hsw : skipWs r1 with
                    | nil =>
                        simp only [hsw] at h
                        injection h with h1
                        cases h1
                    | cons c1 r2 =>
                        have hlen2 : r2.length + 1 ≤ r1.length := by
                          have := skipWs_length r1
                          rw [hsw] at this
                          simpa using this
                        simp only [hsw] at h
                        by_cases hcl : c1 = ':'
                        · rw [if_pos hcl] at h
                          cases hpv : parseValue fuel r2 with
                          | none =>
                              rw [hpv] at h
                              cases h
                          | some res =>
                              rw [hpv] at h
                              cases res with
                              | error e =>
                                  simp only at h
                                  injection h with h1
                                  cases h1
                              | ok vr =>
                                  cases vr with
                                  | mk v0 r3 =>
                                    simp only at h
                                    have hr3 := ihv r2 v0 r3 hpv
                                    cases hsw3 : skipWs r3 with
                                    | nil =>
                                        simp only [hsw3] at h
                                        injection h with h1
                                        cases h1
                                    | cons c3 r4 =>
                                        have hlen4 : r4.length + 1 ≤ r3.length := by
                                          have := skipWs_length r3
                                          rw [hsw3] at this
                                          simpa using this
                                        simp only [hsw3] at h
                                        by_cases hc3 : c3 = ','
                                        · rw [if_pos hc3] at h
                                          cases hsw4 : skipWs r4 with
                                          | nil =>
                                              simp only [hsw4] at h
                                              injection h with h1
                                              cases h1
                                          | cons c5 r5 =>
                                              have hlen5 : r5.length + 1 ≤ r4.length := by
                                                have := skipWs_length r4
                                                rw [hsw4] at this
                                                simpa using this
                                              simp only [hsw4] at h
                                              by_cases h5 : c5 = '"'
                                              · rw [if_pos h5] at h
                                                have := ihm (c5 :: r5) _ v r h
                                                simp only [List.length_cons] at this ⊢
                                                omega
                                              · rw [if_neg h5] at h
                                                injection h with h1
                                                cases h1
                                        · rw [if_neg hc3] at h
                                          by_cases hcb : c3 = '}'
                                          · rw [if_pos hcb] at h
                                            injection h with h1
                                            injection h1 with h2
                                            injection h2 with hv hr
                                            subst hr
                                            simp only [List.length_cons]
                                            omega
                                          · rw [if_neg hcb] at h
                                            injection h with h1
                                            cases h1
                        · rw [if_neg hcl] at h
                          injection h with h1
                          cases h1
            · rw [if_neg hq0] at h
              injection h with h1
              cases h1

/-! ### Parser fuel sufficiency -/

/-- Twice the input length plus a constant is enough fuel: the parser never
runs out before settling, for the three mutual parsers at once. -/
theorem parse_suff : ∀ (fuel : Nat),
    (∀ s, 2 * s.length + 1 ≤ fuel → parseValue fuel s ≠ none) ∧
    (∀ s acc, 2 * s.length + 2 ≤ fuel → parseElems fuel s acc ≠ none) ∧
    (∀ s acc, 2 * s.length + 2 ≤ fuel → parseMembers fuel s acc ≠ none) := by
  intro fuel
  induction fuel with
  | zero =>
      refine ⟨?_, ?_, ?_⟩
      · intro s hb
        omega
      · intro s acc hb
        omega
      · intro s acc hb
        omega
  | succ fuel ih =>
      obtain ⟨ihv, ihe, ihm⟩ := ih
      refine ⟨?_, ?_, ?_⟩
      · intro s hb
        simp only [parseValue]
        cases hsw : skipWs s with
        | nil => simp [hsw]
        | cons c rr =>
            have hlen : rr.length + 1 ≤ s.length := by
              have := skipWs_length s
              rw [hsw] at this
              simpa using this
            simp only [hsw]
            by_cases hn : c = 'n'
            · rw [if_pos hn]
              simp
            · rw [if_neg hn]
              by_cases ht : c = 't'
              · rw [if_pos ht]
                simp
              · rw [if_neg ht]
                by_cases hf : c = 'f'
                · rw [if_pos hf]
                  simp
                · rw [if_neg hf]
                  by_cases hq : c = '"'
                  · rw [if_pos hq]
                    simp
                  · rw [if_neg hq]
                    by_cases hms : c = '-'
                    · rw [if_pos hms]
                      simp
                    · rw [if_neg hms]
                      by_cases hdg : (digVal c).isSome = true
                      · rw [if_pos hdg]
                        simp
                      · rw [if_neg hdg]
                        by_cases hlb : c = '['
                        · rw [if_pos hlb]
                          cases hsw2 : skipWs rr with
                          | nil => simp [hsw2]
                          | cons c2 r2 =>
                              have hlen2 : r2.length + 1 ≤ rr.length := by
                                have := skipWs_length rr
                                rw [hsw2] at this
                                simpa using this
                              simp only [hsw2]
                              by_cases hrb : c2 = ']'
                              · rw [if_pos hrb]
                                simp
                              · rw [if_neg hrb]
                                exact ihe (c2 :: r2) [] (by
                                  simp only [List.length_cons]
                                  omega)
                        · rw [if_neg hlb]
                          by_cases hcb : c = '{'
                          · rw [if_pos hcb]
                            cases hsw2 : skipWs rr with
                            | nil => simp [hsw2]
                            | cons c2 r2 =>
                                have hlen2 : r2.length + 1 ≤ rr.length := by
                                  have := skipWs_length rr
                                  rw [hsw2] at this
                                  simpa using this
                                simp only [hsw2]
                                by_cases hrb : c2 = '}'
                                · rw [if_pos hrb]
                                  simp
                                · rw [if_neg hrb]
                                  exact ihm (c2 :: r2) [] (by
                                    simp only [List.length_cons]
                                    omega)
                          · rw [if_neg hcb]
                            simp
      · intro s acc hb
        simp only [parseElems]
        cases hpv : parseValue fuel s with
        | none =>
            exact absurd hpv (ihv s (by omega))
        | some res =>
            cases res with
            | error e => simp [hpv]
            | ok vr =>
                cases vr with
                | mk v r0 =>
                    have hv0 := (parse_consume fuel).1 s v r0 hpv
                    simp only [hpv]
                    cases hsw : skipWs r0 with
                    | nil => simp [hsw]
                    | cons c2 r2 =>
                        have hlen2 : r2.length + 1 ≤ r0.length := by
                          have := skipWs_length r0
                          rw [hsw] at this
                          simpa using this
                        simp only [hsw]
                        by_cases hcm : c2 = ','
                        · rw [if_pos hcm]
                          exact ihe r2 (acc ++ [v]) (by omega)
                        · rw [if_neg hcm]
                          by_cases hrb : c2 = ']'
                          · rw [if_pos hrb]
                            simp
                          · rw [if_neg hrb]
                            simp
      · intro s acc hb
        simp only [parseMembers]
        cases s with
        | nil => simp
        | cons c0 r0 =>
            simp only
            by_cases hq0 : c0 = '"'
            · rw [if_pos hq0]
              cases hpb : parseStringBody r0 with
              | error e => simp [hpb]
              | ok kp =>
                  cases kp with
                  | mk kcs r1 =>
                    have hr1 := (psb_length r0.length).1 r0 (Nat.le_refl _)
                      kcs r1 hpb
                    simp only [hpb]
                    cases hsw : skipWs r1 with
                    | nil => simp [hsw]
                    | cons c1 r2 =>
                        have hlen2 : r2.length + 1 ≤ r1.length := by
                          have := skipWs_length r1
                          rw [hsw] at this
                          simpa using this
                        simp only [hsw]
                        by_cases hcl : c1 = ':'
                        · rw [if_pos hcl]
                          cases hpv : parseValue fuel r2 with
                          | none =>
                              exact absurd hpv (ihv r2 (by
                                simp only [List.length_cons] at hb ⊢
                                omega))
                          | some res =>
                              cases res with
                              | error e => simp [hpv]
                              | ok vr =>
                                  cases vr with
                                  | mk v r3 =>
                                    have hr3 := (parse_consume fuel).1 r2 v r3 hpv
                                    simp only [hpv]
                                    cases hsw3 : skipWs r3 with
                                    | nil => simp [hsw3]
                                    | cons c3 r4 =>
                                        have hlen4 : r4.length + 1 ≤ r3.length := by
                                          have := skipWs_length r3
                                          rw [hsw3] at this
                                          simpa using this
                                        simp only [hsw3]
                                        by_cases hc3 : c3 = ','
                                        · rw [if_pos hc3]
                                          cases hsw4 : skipWs r4 with
                                          | nil => simp [hsw4]
                                          | cons c5 r5 =>
                                              have hlen5 : r5.length + 1 ≤ r4.length := by
                                                have := skipWs_length r4
                                                rw [hsw4] at this
                                                simpa using this
                                              simp only [hsw4]
                                              by_cases h5 : c5 = '"'
                                              · rw [if_pos h5]
                                                exact ihm (c5 :: r5) _ (by
                                                  simp only [List.length_cons] at hb ⊢
                                                  omega)
                                              · rw [if_neg h5]
                                                simp
                                        · rw [if_neg hc3]
                                          by_cases hcb : c3 = '}'
                                          · rw [if_pos hcb]
                                            simp
                                          · rw [if_neg hcb]
                                            simp
                        · rw [if_neg hcl]
                          simp
            · rw [if_neg hq0]
              simp

/-! ### Parser input extension -/

/-- Result of a parse, as it stands after the input is extended by `t`. -/
def extRes (t : List Char) : Except JErr (Json × List Char) → Except JErr (Json × List Char)
  | .ok (v, r) => .ok (v, r ++ t)
  | .error e => .error e

/-- Results that appending input cannot revise: hard errors, and successes
that stop strictly before the end of the input. -/
def presStable : Except JErr (Json × List Char) → Prop
  | .ok (_, r) => r ≠ []
  | .error e => e = .bad

/-- A stable result is preserved when the input is extended, for the three
mutual parsers at once: only an unexpected-end-of-input verdict, or a
success that consumed the whole input, can be revised by more data. -/
theorem parse_extend (t : List Char) : ∀ (fuel : Nat),
    (∀ s x, parseValue fuel s = some x → presStable x →
        parseValue fuel (s ++ t) = some (extRes t x)) ∧
    (∀ s acc x, parseElems fuel s acc = some x → presStable x →
        parseElems fuel (s ++ t) acc = some (extRes t x)) ∧
    (∀ s acc x, parseMembers fuel s acc = some x → presStable x →
        parseMembers fuel (s ++ t) acc = some (extRes t x)) := by
  intro fuel
  induction fuel with
  | zero =>
      refine ⟨?_, ?_, ?_⟩
      · intro s x h
        cases h
      · intro s acc x h
        cases h
      · intro s acc x h
        cases h
  | succ fuel ih =>
      obtain ⟨ihv, ihe, ihm⟩ := ih
      refine ⟨?_, ?_, ?_⟩
      · intro s x h hst
        simp only [parseValue] at h ⊢
        cases hsw : skipWs s with
        | nil =>
            simp only [hsw] at h
            injection h with h1
            subst h1
            simp [presStable] at hst
        | cons c rr =>
            simp only [hsw, skipWs_extend t hsw] at h ⊢
            by_cases hn : c = 'n'
            · rw [if_pos hn] at h ⊢
              injection h with h1
              subst h1
              cases hel : expectLit ['u', 'l', 'l'] rr with
              | ok rest =>
                  rw [expectLit_extend_ok ['u', 'l', 'l'] rr rest t hel]
                  simp [Except.map, extRes]
              | error e =>
                  rw [hel] at hst
                  cases e with
                  | eof => simp [Except.map, presStable] at hst
                  | bad =>
                      rw [expectLit_extend_bad ['u', 'l', 'l'] rr t hel]
                      simp [Except.map, extRes]
            · rw [if_neg hn] at h ⊢
              by_cases ht : c = 't'
              · rw [if_pos ht] at h ⊢
                injection h with h1
                subst h1
                cases hel : expectLit ['r', 'u', 'e'] rr with
                | ok rest =>
                    rw [expectLit_extend_ok ['r', 'u', 'e'] rr rest t hel]
                    simp [Except.map, extRes]
                | error e =>
                    rw [hel] at hst
                    cases e with
                    | eof => simp [Except.map, presStable] at hst
                    | bad =>
                        rw [expectLit_extend_bad ['r', 'u', 'e'] rr t hel]
                        simp [Except.map, extRes]
              · rw [if_neg ht] at h ⊢
                by_cases hf : c = 'f'
                · rw [if_pos hf] at h ⊢
                  injection h with h1
                  subst h1
                  cases hel : expectLit ['a', 'l', 's', 'e'] rr with
                  | ok rest =>
                      rw [expectLit_extend_ok ['a', 'l', 's', 'e'] rr rest t hel]
                      simp [Except.map, extRes]
                  | error e =>
                      rw [hel] at hst
                      cases e with
                      | eof => simp [Except.map, presStable] at hst
                      | bad =>
                          rw [expectLit_extend_bad ['a', 'l', 's', 'e'] rr t hel]
                          simp [Except.map, extRes]
                · rw [if_neg hf] at h ⊢
                  by_cases hq : c = '"'
                  · rw [if_pos hq] at h ⊢
                    injection h with h1
                    subst h1
                    cases hps : parseStringBody rr with
                    | ok p =>
                        obtain ⟨pcs, prest⟩ := p
                        rw [((psb_extend rr.length).1 rr (Nat.le_refl _) t).1
                          pcs prest hps]
                        simp [Except.map, extRes]
                    | error e =>
                        rw [hps] at hst
                        cases e with
                        | eof => simp [Except.map, presStable] at hst
                        | bad =>
                            rw [((psb_extend rr.length).1 rr (Nat.le_refl _) t).2 hps]
                            simp [Except.map, extRes]
                  · rw [if_neg hq] at h ⊢
                    by_cases hms : c = '-'
                    · rw [if_pos hms] at h ⊢
                      injection h with h1
                      subst h1
                      cases hpn : parseNumberAfterSign true rr with
                      | ok p =>
                          obtain ⟨pnum, prest⟩ := p
                          rw [hpn] at hst
                          simp only [Except.map, presStable] at hst
                          cases prest with
                          | nil => simp at hst
                          | cons c1 r1 =>
                              rw [pnas_extend_ok true rr t hpn]
                              simp [Except.map, extRes]
                      | error e =>
                          rw [hpn] at hst
                          cases e with
                          | eof => simp [Except.map, presStable] at hst
                          | bad =>
                              rw [pnas_extend_bad true rr t hpn]
                              simp [Except.map, extRes]
                    · rw [if_neg hms] at h ⊢
                      by_cases hdg : (digVal c).isSome = true
                      · rw [if_pos hdg] at h ⊢
                        injection h with h1
                        subst h1
                        cases hpn : parseNumberAfterSign false (c :: rr) with
                        | ok p =>
                            obtain ⟨pnum, prest⟩ := p
                            rw [hpn] at hst
                            simp only [Except.map, presStable] at hst
                            cases prest with
                            | nil => simp at hst
                            | cons c1 r1 =>
                                have hx := pnas_extend_ok false (c :: rr) t hpn
                                rw [List.cons_append] at hx
                                rw [hx]
                                simp [Except.map, extRes]
                        | error e =>
                            rw [hpn] at hst
                            cases e with
                            | eof => simp [Except.map, presStable] at hst
                            | bad =>
                                have hx := pnas_extend_bad false (c :: rr) t hpn
                                rw [List.cons_append] at hx
                                rw [hx]
                                simp [Except.map, extRes]
                      · rw [if_neg hdg] at h ⊢
                        by_cases hlb : c = '['
                        · rw [if_pos hlb] at h ⊢
                          cases hsw2 : skipWs rr with
                          | nil =>
                              simp only [hsw2] at h
                              injection h with h1
                              subst h1
                              simp [presStable] at hst
                          | cons c2 r2 =>
                              simp only [hsw2, skipWs_extend t hsw2] at h ⊢
                              by_cases hrb : c2 = ']'
                              · rw [if_pos hrb] at h ⊢
                                injection h with h1
                                subst h1
                                simp [extRes]
                              · rw [if_neg hrb] at h ⊢
                                exact ihe (c2 :: r2) [] x h hst
                        · rw [if_neg hlb] at h ⊢
                          by_cases hcb : c = '{'
                          · rw [if_pos hcb] at h ⊢
                            cases hsw2 : skipWs rr with
                            | nil =>
                                simp only [hsw2] at h
                                injection h with h1
                                subst h1
                                simp [presStable] at hst
                            | cons c2 r2 =>
                                simp only [hsw2, skipWs_extend t hsw2] at h ⊢
                                by_cases hrb : c2 = '}'
                                · rw [if_pos hrb] at h ⊢
                                  injection h with h1
                                  subst h1
                                  simp [extRes]
                                · rw [if_neg hrb] at h ⊢
                                  exact ihm (c2 :: r2) [] x h hst
                          · rw [if_neg hcb] at h ⊢
                            injection h with h1
                            subst h1
                            simp [extRes]
      · intro s acc x h hst
        simp only [parseElems] at h ⊢
        cases hpv : parseValue fuel s with
        | none =>
            rw [hpv] at h
            cases h
        | some res =>
            rw [hpv] at h
            cases res with
            | error e =>
                simp only at h
                injection h with h1
                subst h1
                cases e with
                | eof => simp [presStable] at hst
                | bad =>
                    rw [ihv s (.error .bad) hpv (by simp [presStable])]
                    simp [extRes]
            | ok vr =>
                cases vr with
                | mk v r0 =>
                    simp only at h
                    cases hsw : skipWs r0 with
                    | nil =>
                        simp only [hsw] at h
                        injection h with h1
                        subst h1
                        simp [presStable] at hst
                    | cons c2 r2 =>
                        have hr0 : r0 ≠ [] := by
                          intro hc
                          rw [hc] at hsw
                          cases hsw
                        have hext := ihv s (.ok (v, r0)) hpv (by
                          simpa [presStable] using hr0)
                        simp only [extRes] at hext
                        rw [hext]
                        simp only [hsw, skipWs_extend t hsw] at h ⊢
                        by_cases hcm : c2 = ','
                        · rw [if_pos hcm] at h ⊢
                          exact ihe r2 (acc ++ [v]) x h hst
                        · rw [if_neg hcm] at h ⊢
                          by_cases hrb : c2 = ']'
                          · rw [if_pos hrb] at h ⊢
                            injection h with h1
                            subst h1
                            simp [extRes]
                          · rw [if_neg hrb] at h ⊢
                            injection h with h1
                            subst h1
                            simp [extRes]
      · intro s acc x h hst
        simp only [parseMembers] at h ⊢
        cases s with
        | nil =>
            simp only at h
            injection h with h1
            subst h1
            simp [presStable] at hst
        | cons c0 r0 =>
            simp only [List.cons_append] at h ⊢
            by_cases hq0 : c0 = '"'
            · rw [if_pos hq0] at h ⊢
              cases hpb : parseStringBody r0 with
              | error e =>
                  simp only [hpb] at h
                  injection h with h1
                  subst h1
                  cases e with
                  | eof => simp [presStable] at hst
                  | bad =>
                      rw [((psb_extend r0.length).1 r0 (Nat.le_refl _) t).2 hpb]
                      simp [extRes]
              | ok kp =>
                  cases kp with
                  | mk kcs r1 =>
                    rw [((psb_extend r0.length).1 r0 (Nat.le_refl _) t).1
                      kcs r1 hpb]
                    simp only [hpb] at h
                    cases hsw : skipWs r1 with
                    | nil =>
                        simp only [hsw] at h
                        injection h with h1
                        subst h1
                        simp [presStable] at hst
                    | cons c1 r2 =>
                        simp only [hsw, skipWs_extend t hsw] at h ⊢
                        by_cases hcl : c1 = ':'
                        · rw [if_pos hcl] at h ⊢
                          cases hpv : parseValue fuel r2 with
                          | none =>
                              rw [hpv] at h
                              cases h
                          | some res =>
                              rw [hpv] at h
                              cases res with
                              | error e =>
                                  simp only at h
                                  injection h with h1
                                  subst h1
                                  cases e with
                                  | eof => simp [presStable] at hst
                                  | bad =>
                                      rw [ihv r2 (.error .bad) hpv
                                        (by simp [presStable])]
                                      simp [extRes]
                              | ok vr =>
                                  cases vr with
                                  | mk v r3 =>
                                    simp only at h
                                    cases hsw3 : skipWs r3 with
                                    | nil =>
                                        simp only [hsw3] at h
                                        injection h with h1
                                        subst h1
                                        simp [presStable] at hst
                                    | cons c3 r4 =>
                                        have hr3 : r3 ≠ [] := by
                                          intro hc
                                          rw [hc] at hsw3
                                          cases hsw3
                                        have hext := ihv r2 (.ok (v, r3)) hpv (by
                                          simpa [presStable] using hr3)
                                        simp only [extRes] at hext
                                        rw [hext]
                                        simp only [hsw3, skipWs_extend t hsw3]
                                          at h ⊢
                                        by_cases hc3 : c3 = ','
                                        · rw [if_pos hc3] at h ⊢
                                          cases hsw4 : skipWs r4 with
                                          | nil =>
                                              simp only [hsw4] at h
                                              injection h with h1
                                              subst h1
                                              simp [presStable] at hst
                                          | cons c5 r5 =>
                                              simp only [hsw4,
                                                skipWs_extend t hsw4] at h ⊢
                                              by_cases h5 : c5 = '"'
                                              · rw [if_pos h5] at h ⊢
                                                exact ihm (c5 :: r5) _ x h hst
                                              · rw [if_neg h5] at h ⊢
                                                injection h with h1
                                                subst h1
                                                simp [extRes]
                                        · rw [if_neg hc3] at h ⊢
                                          by_cases hcb : c3 = '}'
                                          · rw [if_pos hcb] at h ⊢
                                            injection h with h1
                                            subst h1
                                            simp [extRes]
                                          · rw [if_neg hcb] at h ⊢
                                            injection h with h1
                                            subst h1
                                            simp [extRes]
                        · rw [if_neg hcl] at h ⊢
                          injection h with h1
                          subst h1
                          simp [extRes]
            · rw [if_neg hq0] at h ⊢
              injection h with h1
              subst h1
              simp [extRes]

/-! ### Prefixes of valid documents -/

/-- If some extension of `b` parses as a complete document, then `b`
itself either already parses or fails only with unexpected end of input —
never with a hard error. -/
theorem from_slice_prefix (b t : List Char) (doc : Json)
    (ht : from_slice (b ++ t) = .ok doc) :
    (∃ v, from_slice b = .ok v) ∨ from_slice b = .error .eof := by
  cases hpv : parseValue (2 * b.length + 2) b with
  | none =>
      exact absurd hpv ((parse_suff (2 * b.length + 2)).1 b (by omega))
  | some res =>
      cases res with
      | error e =>
          cases e with
          | eof =>
              right
              simp [from_slice, hpv]
          | bad =>
              exfalso
              have hext := (parse_extend t (2 * b.length + 2)).1 b (.error .bad)
                hpv (by simp [presStable])
              simp only [extRes] at hext
              have hmono := parseValue_mono_le (2 * b.length + 2)
                (2 * (b ++ t).length + 2)
                (by rw [List.length_append]; omega) hext
              rw [from_slice, hmono] at ht
              simp at ht
      | ok vr =>
          cases vr with
          | mk v r =>
              cases hsw2 : skipWs r with
              | nil =>
                  left
                  exact ⟨v, by simp [from_slice, hpv, hsw2]⟩
              | cons c r2 =>
                  exfalso
                  have hr : r ≠ [] := by
                    intro hc
                    rw [hc] at hsw2
                    cases hsw2
                  have hext := (parse_extend t (2 * b.length + 2)).1 b
                    (.ok (v, r)) hpv (by simpa [presStable] using hr)
                  simp only [extRes] at hext
                  have hmono := parseValue_mono_le (2 * b.length + 2)
                    (2 * (b ++ t).length + 2)
                    (by rw [List.length_append]; omega) hext
                  rw [from_slice, hmono] at ht
                  simp [skipWs_extend t hsw2] at ht

/-! ### Claim theorems -/

/-- Claim C4: a byte slice the JSON parser rejects makes `json_to_variant`
return a `Parse` error, and a byte slice that parses as a JSON value makes
it return Ok. -/
theorem C4_json_to_variant_error_behaviour (bytes : List Char) (m0 v0 : List Nat) :
    ((∃ e, from_slice bytes = .error e) →
      (json_to_variant bytes m0 v0).1 = .error .parseErr) ∧
    (∀ j, from_slice bytes = .ok j → (json_to_variant bytes m0 v0).1 = .ok ()) := by
  constructor
  · rintro ⟨e, he⟩
    simp [json_to_variant, he]
  · intro j hj
    simp [json_to_variant, hj]

/-- Witness for C4 at the concrete inputs `x` (rejected) and `1` (parsed). -/
theorem C4_witness :
    (json_to_variant ['x'] [] []).1 = .error .parseErr ∧
    (json_to_variant ['1'] [] []).1 = .ok () := by
  constructor
  · exact (C4_json_to_variant_error_behaviour ['x'] [] []).1 ⟨.bad, rfl⟩
  · exact (C4_json_to_variant_error_behaviour ['1'] [] []).2
      (.num (.intLit 1)) rfl

/-- Claim C8: on a parse failure `json_to_variant` returns the `Parse`
error before the builder exists, leaving both sinks exactly as passed in. -/
theorem C8_sinks_unchanged_on_parse_error (bytes : List Char) (m0 v0 : List Nat)
    (e : JErr) (he : from_slice bytes = .error e) :
    json_to_variant bytes m0 v0 = (.error .parseErr, m0, v0) := by
  simp [json_to_variant, he]

/-- Witness for C8 at the concrete rejected input `x` with non-empty
sinks. -/
theorem C8_witness :
    json_to_variant ['x'] [7] [9] = (.error .parseErr, [7], [9]) :=
  C8_sinks_unchanged_on_parse_error ['x'] [7] [9] .bad rfl

/-- Claim C7: `push` on a finished parser returns the `Invalid argument`
error and returns the parser unchanged — in particular the buffer and both
sinks are untouched. -/
theorem C7_push_after_finish (p : JsonParser) (data : List Char)
    (h : p.state = .finished) :
    p.push data = (.error .invalidArg, p) := by
  simp [JsonParser.push, h]

/-- Witness for C7 on a concrete finished parser. -/
theorem C7_witness :
    (JsonParser.mk ["k"] [1] [2] ['{'] .finished).push ['x']
      = (.error .invalidArg, JsonParser.mk ["k"] [1] [2] ['{'] .finished) :=
  C7_push_after_finish _ _ rfl

/-- Claim C10: when the accumulated bytes parse as a complete value, `push`
encodes it immediately and clears the buffer; `finish` on the now-empty
buffer encodes no further value bytes and succeeds, as does `finish` on a
parser into which nothing was pushed. -/
theorem C10_push_encodes_immediately (p : JsonParser) (data : List Char) (v : Json)
    (hst : p.state = .parsing) (hok : from_slice (p.buffer ++ data) = .ok v) :
    (p.push data).1 = .ok () ∧
    (p.push data).2.buffer = [] ∧
    (p.push data).2.valueSink = p.valueSink ++ (encode_json_value v p.dict).1 ∧
    ((p.push data).2.finish).1 = .ok () ∧
    ((p.push data).2.finish).2.valueSink = (p.push data).2.valueSink ∧
    ∀ d m0 v0, ((JsonParser.new d m0 v0).finish).1 = .ok () := by
  have hpush : p.push data
      = (.ok (), { p with
          dict := (encode_json_value v p.dict).2
          valueSink := p.valueSink ++ (encode_json_value v p.dict).1
          buffer := [] }) := by
    simp only [JsonParser.push, hst, JsonParser.try_parse, hok]
  refine ⟨by rw [hpush], by rw [hpush], by rw [hpush], ?_, ?_, ?_⟩
  · rw [hpush]
    simp [JsonParser.finish]
  · rw [hpush]
    simp [JsonParser.finish]
  · intro d m0 v0
    simp [JsonParser.new, JsonParser.finish]

/-- Witness for C10 at the concrete document `[true]` split after `[tru`. -/
theorem C10_witness :
    ((JsonParser.new [] [] []).push ['[', 't', 'r', 'u']).1 = .ok () ∧
    (((JsonParser.new [] [] []).push ['[', 't', 'r', 'u']).2.push
      ['e', ']']).2.buffer = [] := by
  constructor
  · rfl
  · have h2 := C10_push_encodes_immediately
      (((JsonParser.new [] [] []).push ['[', 't', 'r', 'u']).2) ['e', ']']
      (.arr [.bool true]) rfl rfl
    exact h2.2.1

/-- Claim C2 (counterexample): the stream `12` split as `1`,`2` encodes two
values while the single-chunk split encodes one, so the produced buffers
differ between splits of the same stream. -/
theorem C2_counterexample :
    runChunks [['1'], ['2']] ≠ runChunks [['1', '2']] := by
  intro h
  have h2 : (runChunks [['1'], ['2']]).2.2 = (runChunks [['1', '2']]).2.2 :=
    congrArg (fun r => r.2.2) h
  exact absurd h2 (by decide)

/-- Claim C2 (amended): chunking invariance holds whenever every
intermediate accumulated prefix is still incomplete (the parser reports
unexpected end of input on it) — then any split produces exactly the
buffers of the single-chunk run. -/
theorem C2_chunking_invariance (chunks : List (List Char))
    (hpre : ∀ k, k + 1 < chunks.length →
      from_slice ((chunks.take (k + 1)).flatten) = .error .eof) :
    runChunks chunks = runChunks [chunks.flatten] := by
  unfold runChunks
  apply runChunksGo_collapse chunks (JsonParser.new [] [] []) rfl
  intro k hk
  have := hpre k hk
  simpa [JsonParser.new] using this

/-- Witness for C2 (amended): the document `{"a":1}` split into two
chunks. -/
theorem C2_witness :
    runChunks [['{', '"', 'a', '"'], [':', '1', '}']]
      = runChunks [['{', '"', 'a', '"', ':', '1', '}']] := by
  have h := C2_chunking_invariance [['{', '"', 'a', '"'], [':', '1', '}']]
    (by
      intro k hk
      simp only [List.length_cons, List.length_nil] at hk
      have hk0 : k = 0 := by omega
      subst hk0
      rfl)
  simpa using h

/-- Claim C6: every signed 64-bit integer, including both extremes, is
encoded by the builder with the smallest lossless integer width, any of
the four integer encodings decodes back to exactly the value, and the
full build/read round trip returns the value exactly. -/
theorem C6_i64_roundtrip (i : Int) (h1 : -(2 ^ 63) ≤ i) (h2 : i < 2 ^ 63) :
    readVariant (encodeMeta (encode_json_value (.num (.intLit i)) []).2)
        (encode_json_value (.num (.intLit i)) []).1 = some (.num (.intLit i)) ∧
    (encode_json_value (.num (.intLit i)) []).1
      = intTag (intWidth i) :: encIntBytes (intWidth i) i ∧
    intFits (intWidth i) i ∧
    (∀ w, w = 1 ∨ w = 2 ∨ w = 4 ∨ w = 8 → intFits w i → intWidth i ≤ w) ∧
    (∀ (dict : List String) (w fuel : Nat) (rest : List Nat),
      (w = 1 ∨ w = 2 ∨ w = 4 ∨ w = 8) → intFits w i →
      decodeV dict (fuel + 1) (intTag w :: (encIntBytes w i ++ rest))
        = some (.num (.intLit i), rest)) ∧
    (JNum.intLit i).asI64 = i := by
  have hfit8 : intFits 8 i := by
    unfold intFits
    norm_num
    norm_num at h1 h2
    omega
  have hisI64 : (JNum.intLit i).isI64 = true := by
    simp only [JNum.isI64, decide_eq_true_eq]
    exact ⟨h1, h2⟩
  have hwf : wfJson (.num (.intLit i)) = true := by
    simp only [wfJson, decide_eq_true_eq]
    exact ⟨h1, h2⟩
  have henc : encode_json_value (.num (.intLit i)) [] = (appendInt i, []) := by
    simp [encode_json_value, hisI64, JNum.asI64]
  have hmeta : max (heapLen (encode_json_value (.num (.intLit i)) []).2)
      (encode_json_value (.num (.intLit i)) []).2.length < 2 ^ 32 := by
    rw [henc]
    show max (heapLen []) ([] : List String).length < 2 ^ 32
    decide
  have hrt := readVariant_encode (.num (.intLit i)) [] hwf hmeta
  refine ⟨hrt, ?_, intWidth_fits i hfit8, fun w hw hf => intWidth_min i w hw hf,
    fun dict w fuel rest hw hf => decodeV_intEnc dict fuel w i hw hf rest, rfl⟩
  rw [henc]
  rfl

/-- Witness for C6 at the two signed 64-bit extremes. -/
theorem C6_witness :
    readVariant
        (encodeMeta (encode_json_value (.num (.intLit (-9223372036854775808))) []).2)
        (encode_json_value (.num (.intLit (-9223372036854775808))) []).1
      = some (.num (.intLit (-9223372036854775808))) ∧
    readVariant
        (encodeMeta (encode_json_value (.num (.intLit 9223372036854775807)) []).2)
        (encode_json_value (.num (.intLit 9223372036854775807)) []).1
      = some (.num (.intLit 9223372036854775807)) :=
  ⟨(C6_i64_roundtrip (-9223372036854775808) (by decide) (by decide)).1,
   (C6_i64_roundtrip 9223372036854775807 (by decide) (by decide)).1⟩

/-- Claim C9: an integer literal above the signed 64-bit range is kept as
an integer by the parser model, is not `is_i64`, and all three encoding
paths silently append it as a 64-bit float of its rounded value instead of
returning an error. -/
theorem C9_out_of_range_int_becomes_float (m : Nat) (d : List String) (key : String)
    (h1 : 2 ^ 63 ≤ m) (h2 : m < 2 ^ 64) :
    mkIntNum false m = .intLit (m : Int) ∧
    (JNum.intLit (m : Int)).isI64 = false ∧
    encode_json_value (.num (.intLit (m : Int))) d
      = (appendFloat (f64OfInt (m : Int)), d) ∧
    encode_json_array_element (.num (.intLit (m : Int))) d
      = (appendFloat (f64OfInt (m : Int)), d) ∧
    (encode_json_object_field key (.num (.intLit (m : Int))) d).1.2
      = appendFloat (f64OfInt (m : Int)) ∧
    appendFloat (f64OfInt (m : Int)) = tagFloat64 :: writeLE 8 (f64OfInt (m : Int)) := by
  have hbig : (2 : Int) ^ 63 ≤ (m : Int) := by exact_mod_cast h1
  have hfalse : (JNum.intLit (m : Int)).isI64 = false := by
    simp only [JNum.isI64, decide_eq_false_iff_not, not_and, not_lt]
    intro _
    exact hbig
  refine ⟨by simp [mkIntNum]; omega, hfalse, ?_, ?_, ?_, rfl⟩
  · simp [encode_json_value, hfalse, JNum.asF64]
  · simp [encode_json_array_element, hfalse, JNum.asF64]
  · cases hik : internKey d key with
    | mk iid d1 =>
        simp [encode_json_object_field, hik, hfalse, JNum.asF64]

/-- Witness for C9 at 18446744073709551615 = 2^64 − 1 (the value of the
repository's own overflow test), whose nearest double is 2^64. -/
theorem C9_witness :
    encode_json_value (.num (.intLit ((18446744073709551615 : Nat) : Int))) []
      = (appendFloat (f64OfInt ((18446744073709551615 : Nat) : Int)), []) ∧
    (encode_json_object_field "k"
        (.num (.intLit ((18446744073709551615 : Nat) : Int))) []).1.2
      = appendFloat (f64OfInt ((18446744073709551615 : Nat) : Int)) :=
  ⟨(C9_out_of_range_int_becomes_float 18446744073709551615 [] "k"
      (by decide) (by decide)).2.2.1,
   (C9_out_of_range_int_becomes_float 18446744073709551615 [] "k"
      (by decide) (by decide)).2.2.2.2.1⟩

/-- The concrete document used to witness the round trip: one value of
each supported type. -/
def c1Doc : List Char :=
  ['{', '"', 'a', '"', ':', '[', 'n', 'u', 'l', 'l', ',', 't', 'r', 'u', 'e', ',',
   '1', ',', '2', '.', '5', ',', '"', 's', '"', ']', ',', '"', 'b', '"', ':',
   '-', '7', '}']

/-- The value tree the parser model produces for `c1Doc`
(4612811918334230528 is the binary64 bit pattern of 2.5). -/
def c1Val : Json :=
  .obj [("a", .arr [.null, .bool true, .num (.intLit 1),
          .num (.floatLit 4612811918334230528), .str "s"]),
        ("b", .num (.intLit (-7)))]

/-- Claim C1: a document accepted by the parser, well-formed for the
supported type set and within the 4-byte metadata offset range, is turned
by `json_to_variant` into buffers the reader decodes back to a value
structurally equal to the parsed document — key order and the
integer/float distinction included. -/
theorem C1_roundtrip (bytes : List Char) (J : Json)
    (hp : from_slice bytes = .ok J) (hwf : wfJson J = true)
    (hmeta : max (heapLen (encode_json_value J []).2)
      (encode_json_value J []).2.length < 2 ^ 32) :
    (json_to_variant bytes [] []).1 = .ok () ∧
    readVariant (json_to_variant bytes [] []).2.1 (json_to_variant bytes [] []).2.2
      = some J := by
  have hj : json_to_variant bytes [] []
      = (.ok (), [] ++ encodeMeta (encode_json_value J []).2,
          [] ++ (encode_json_value J []).1) := by
    simp [json_to_variant, hp]
  constructor
  · rw [hj]
  · rw [hj]
    simp only [List.nil_append]
    exact readVariant_encode J [] hwf hmeta

/-- Witness for C1 on a concrete document holding every supported type. -/
theorem C1_witness :
    (json_to_variant c1Doc [] []).1 = .ok () ∧
    readVariant (json_to_variant c1Doc [] []).2.1 (json_to_variant c1Doc [] []).2.2
      = some c1Val :=
  C1_roundtrip c1Doc c1Val rfl (by decide) (by decide)

/-- Claim C5: across any session sequence sharing one metadata sink the
dictionary only grows — its length is non-decreasing and an id, once
assigned, never changes — and a session's value buffer for a parsed,
well-formed document decodes to that document against any later state of
the shared dictionary. -/
theorem C5_dictionary_stability (docs : List (List Char)) (dict0 : List String) :
    dictExtends dict0 (runSessions dict0 docs).2 ∧
    dict0.length ≤ (runSessions dict0 docs).2.length ∧
    (∀ name i, dictIdOf dict0 name = some i →
      dictIdOf (runSessions dict0 docs).2 name = some i) ∧
    (∀ (doc : List Char) (J : Json) (dictF : List String),
      from_slice doc = .ok J → wfJson J = true →
      dictExtends (runSession doc dict0).2 dictF → dictF.length < 2 ^ 32 →
      decodeV dictF (encLen J + 1) (runSession doc dict0).1 = some (J, [])) := by
  have hext := runSessions_extends docs dict0
  refine ⟨hext, dictExtends_length hext, ?_, ?_⟩
  · intro name i hi
    obtain ⟨e, he⟩ := hext
    rw [he]
    exact dictIdOf_append hi e
  · intro doc J dictF hp hwf hdF hlen
    rw [runSession_ok doc dict0 J hp] at hdF ⊢
    obtain ⟨_, _, hdec⟩ := encOk_all (jsize J) J (Nat.le_refl _) dict0 hwf
    have hfuel : jsize J ≤ encLen J + 1 := by
      have := jsize_le_encLen (jsize J) J (Nat.le_refl _)
      omega
    have h := hdec dictF (encLen J + 1) [] hdF hlen hfuel
    rwa [List.append_nil] at h

/-- The three scenario documents sharing the keys id, name, active. -/
def w5d1 : List Char :=
  ['{', '"', 'i', 'd', '"', ':', '1', ',', '"', 'n', 'a', 'm', 'e', '"', ':',
   '"', 'A', 'l', 'i', 'c', 'e', '"', ',', '"', 'a', 'c', 't', 'i', 'v', 'e',
   '"', ':', 't', 'r', 'u', 'e', '}']

def w5d2 : List Char :=
  ['{', '"', 'i', 'd', '"', ':', '2', ',', '"', 'n', 'a', 'm', 'e', '"', ':',
   '"', 'B', 'o', 'b', '"', ',', '"', 'a', 'c', 't', 'i', 'v', 'e', '"', ':',
   'f', 'a', 'l', 's', 'e', '}']

def w5d3 : List Char :=
  ['{', '"', 'i', 'd', '"', ':', '3', ',', '"', 'n', 'a', 'm', 'e', '"', ':',
   '"', 'C', 'h', 'a', 'r', 'l', 'i', 'e', '"', ',', '"', 'a', 'c', 't', 'i',
   'v', 'e', '"', ':', 't', 'r', 'u', 'e', '}']

/-- The value trees the parser model produces for the scenario documents. -/
def w5j1 : Json :=
  .obj [("id", .num (.intLit 1)), ("name", .str "Alice"), ("active", .bool true)]

def w5j2 : Json :=
  .obj [("id", .num (.intLit 2)), ("name", .str "Bob"), ("active", .bool false)]

def w5j3 : Json :=
  .obj [("id", .num (.intLit 3)), ("name", .str "Charlie"), ("active", .bool true)]

/-- Witness for C5 on the three scenario documents: after the first
session the shared dictionary is exactly id, name, active; each session's
value buffer decodes against it to the right document, and the ids 0, 1, 2
survive the remaining sessions unchanged. -/
theorem C5_witness :
    decodeV ["id", "name", "active"] (encLen w5j1 + 1) (runSession w5d1 []).1
      = some (w5j1, []) ∧
    decodeV ["id", "name", "active"] (encLen w5j2 + 1)
        (runSession w5d2 ["id", "name", "active"]).1 = some (w5j2, []) ∧
    decodeV ["id", "name", "active"] (encLen w5j3 + 1)
        (runSession w5d3 ["id", "name", "active"]).1 = some (w5j3, []) ∧
    dictIdOf (runSessions ["id", "name", "active"] [w5d2, w5d3]).2 "id" = some 0 ∧
    dictIdOf (runSessions ["id", "name", "active"] [w5d2, w5d3]).2 "name" = some 1 ∧
    dictIdOf (runSessions ["id", "name", "active"] [w5d2, w5d3]).2 "active" = some 2 :=
  ⟨(C5_dictionary_stability [w5d1] []).2.2.2 w5d1 w5j1 ["id", "name", "active"]
      rfl (by decide) ⟨[], rfl⟩ (by decide),
   (C5_dictionary_stability [w5d2] ["id", "name", "active"]).2.2.2 w5d2 w5j2
      ["id", "name", "active"] rfl (by decide) ⟨[], rfl⟩ (by decide),
   (C5_dictionary_stability [w5d3] ["id", "name", "active"]).2.2.2 w5d3 w5j3
      ["id", "name", "active"] rfl (by decide) ⟨[], rfl⟩ (by decide),
   (C5_dictionary_stability [w5d2, w5d3] ["id", "name", "active"]).2.2.1 "id" 0 rfl,
   (C5_dictionary_stability [w5d2, w5d3] ["id", "name", "active"]).2.2.1 "name" 1 rfl,
   (C5_dictionary_stability [w5d2, w5d3] ["id", "name", "active"]).2.2.1 "active" 2 rfl⟩

/-- Claim C3: while the accumulated bytes are a proper prefix of a valid
document, `push` returns Ok; `finish` on a non-empty buffer that does not
parse (incomplete or invalid) returns an error; and a push whose
accumulated bytes fail for a reason other than unexpected end of input
returns a Parse error. -/
theorem C3_streaming_error_handling :
    (∀ (p : JsonParser) (data : List Char), p.state = .parsing →
      (∃ (doc : Json) (ext : List Char), ext ≠ [] ∧
        from_slice ((p.buffer ++ data) ++ ext) = .ok doc) →
      (p.push data).1 = .ok ()) ∧
    (∀ (p : JsonParser) (e : JErr), p.buffer ≠ [] →
      from_slice p.buffer = .error e → (p.finish).1 = .error .parseErr) ∧
    (∀ (p : JsonParser) (data : List Char), p.state = .parsing →
      from_slice (p.buffer ++ data) = .error .bad →
      (p.push data).1 = .error .parseErr) := by
  refine ⟨?_, ?_, ?_⟩
  · rintro p data hst ⟨doc, ext, hne, hok⟩
    rcases from_slice_prefix (p.buffer ++ data) ext doc hok with ⟨v, hv⟩ | heof
    · simp [JsonParser.push, hst, JsonParser.try_parse, hv]
    · simp [JsonParser.push, hst, JsonParser.try_parse, heof]
  · intro p e hne hfs
    have hb : p.buffer.isEmpty = false := by
      cases hb2 : p.buffer with
      | nil => exact absurd hb2 hne
      | cons x xs => rfl
    simp [JsonParser.finish, hb, hfs]
  · intro p data hst hbad
    simp [JsonParser.push, hst, JsonParser.try_parse, hbad]

/-- Witness for C3: the prefix `{` of `{}` pushes Ok, finishing with the
incomplete buffer `{` errors, and pushing the invalid byte `x` yields the
Parse error. -/
theorem C3_witness :
    ((JsonParser.new [] [] []).push ['{']).1 = .ok () ∧
    ((JsonParser.mk [] [] [] ['{'] .parsing).finish).1 = .error .parseErr ∧
    ((JsonParser.new [] [] []).push ['x']).1 = .error .parseErr := by
  obtain ⟨h1, h2, h3⟩ := C3_streaming_error_handling
  exact ⟨h1 (JsonParser.new [] [] []) ['{'] rfl ⟨.obj [], ['}'], by decide, rfl⟩,
    h2 (JsonParser.mk [] [] [] ['{'] .parsing) .eof (by decide) rfl,
    h3 (JsonParser.new [] [] []) ['x'] rfl rfl⟩

end ArrowVariant
